import Mathlib

/-!
# Verification of the ocli outliner (vladzima/ocli)

Shallow embedding of the core of the `ocli` terminal outliner:

* the bullet tree (`bullet.go`) as an arena of nodes addressed by `Nat`
  (the Go `ID` uuid string is modelled by the arena address: `ID` equality
  tests in the source coincide with pointer identity because uuids are
  unique by construction);
* the tree mutation engine from `cmd/ocli-ssh/model.go`;
* the persistence codec (`persistence.go` / `cmd/ocli-ssh/ssh_model.go`);
* the key/identity store (`cmd/ocli-ssh/auth.go`).

Pointer-typed fields (`Parent *Bullet`, `Children []*Bullet`) become
`Option Nat` / `List Nat`.  Heap mutation through pointers becomes explicit
update of the arena function.  Parent-chain walks in the source terminate
because a live tree is acyclic; here they take an explicit fuel argument,
always instantiated with the allocation bound `next`, which is shown to be
sufficient on well-formed documents.

Display-only state of the Go `Model` (width, height, scrollOffset, text
input, edit/app mode) is out of scope per the specification and omitted;
`ensureSelectedVisible` touches only that state and is dropped accordingly.
-/

namespace OCLI

/-- One tree node: the Go `Bullet` struct from `bullet.go` minus the `ID`
string (modelled by the arena address). `Color` is a Go `int`. -/
structure Bullet where
  content   : String
  children  : List Nat
  parent    : Option Nat
  collapsed : Bool
  isEditing : Bool
  color     : Int
  isTask    : Bool
  completed : Bool
deriving DecidableEq, Repr

/-- The heap of allocated bullets: address → node. -/
abbrev Heap := Nat → Option Bullet

/-- Write a node at an address. -/
def hset (h : Heap) (a : Nat) (b : Bullet) : Heap :=
  fun x => if x = a then some b else h x

/-- Mutate the node at an address in place (no-op when unallocated, which
never happens on the executions we consider: a Go pointer is always valid). -/
def modifyB (h : Heap) (a : Nat) (f : Bullet → Bullet) : Heap :=
  fun x => if x = a then (h a).map f else h x

/-- `b.Parent` read through the heap. -/
def parentOf (h : Heap) (a : Nat) : Option Nat :=
  match h a with
  | none => none
  | some b => b.parent

/-- `b.Children` read through the heap. -/
def childrenOf (h : Heap) (a : Nat) : List Nat :=
  match h a with
  | none => []
  | some b => b.children

/-- `child.Parent = p` as a heap update. -/
def setParent (h : Heap) (c : Nat) (p : Option Nat) : Heap :=
  modifyB h c (fun b => { b with parent := p })

/-- `NewBullet` (`bullet.go`): fresh node with all flags cleared. -/
def newBullet (content : String) : Bullet :=
  { content := content, children := [], parent := none, collapsed := false,
    isEditing := false, color := 0, isTask := false, completed := false }

/-- `(b *Bullet) AddChild(child)`: set the back-reference, append to the
children list. -/
def addChild (h : Heap) (b c : Nat) : Heap :=
  let h1 := setParent h c (some b)
  modifyB h1 b (fun x => { x with children := x.children ++ [c] })

/-- `(b *Bullet) RemoveChild(child)`: drop the first child with matching ID
and clear its parent; if no child matches, do nothing. -/
def removeChild (h : Heap) (b c : Nat) : Heap :=
  match h b with
  | none => h
  | some bb =>
    if c ∈ bb.children then
      let h1 := modifyB h b (fun x => { x with children := x.children.erase c })
      setParent h1 c none
    else h

/-- `(b *Bullet) InsertChildAt(index, child)`: bounds-guarded insert, setting
the back-reference. -/
def insertChildAt (h : Heap) (b : Nat) (idx : Nat) (c : Nat) : Heap :=
  match h b with
  | none => h
  | some bb =>
    if idx ≤ bb.children.length then
      let h1 := setParent h c (some b)
      modifyB h1 b (fun x => { x with children := x.children.insertIdx idx c })
    else h

/-- `(b *Bullet) GetDepth()`: length of the parent chain, with fuel. -/
def getDepthAux (h : Heap) : Nat → Nat → Nat → Nat
  | 0, _, depth => depth
  | fuel + 1, a, depth =>
    match h a with
    | none => depth
    | some b =>
      match b.parent with
      | none => depth
      | some p => getDepthAux h fuel p (depth + 1)

def getDepth (h : Heap) (fuel a : Nat) : Nat := getDepthAux h fuel a 0

/-- `(b *Bullet) GetDepthFrom(ancestor)`: hops up to the given ancestor
(returning on the hop *into* the ancestor), or the whole chain length if the
ancestor is never met. -/
def getDepthFromAux (h : Heap) (anc : Nat) : Nat → Nat → Nat → Nat
  | 0, _, depth => depth
  | fuel + 1, a, depth =>
    match h a with
    | none => depth
    | some b =>
      match b.parent with
      | none => depth
      | some p => if p = anc then depth + 1 else getDepthFromAux h anc fuel p (depth + 1)

def getDepthFrom (h : Heap) (fuel : Nat) (a anc : Nat) : Nat :=
  if a = anc then 0 else getDepthFromAux h anc fuel a 0

/-- `(b *Bullet) Toggle()`: flip `Collapsed` only when there are children. -/
def toggleB (b : Bullet) : Bullet :=
  if b.children.length > 0 then { b with collapsed := !b.collapsed } else b

/-- `(b *Bullet) GetVisibleDescendants()`: pre-order descendants, cut below
collapsed nodes. -/
def getVisibleDescendants (h : Heap) : Nat → Nat → List Nat
  | 0, _ => []
  | fuel + 1, a =>
    match h a with
    | none => []
    | some b =>
      if b.collapsed then []
      else b.children.flatMap (fun c => c :: getVisibleDescendants h fuel c)

/-- `(b *Bullet) CycleColor()`: `(color + 1) % 5` with Go's truncated `%`. -/
def cycleColorB (b : Bullet) : Bullet := { b with color := (b.color + 1).tmod 5 }

/-- `(b *Bullet) ToggleTask()`: disabling the task flag forces `Completed`
off. -/
def toggleTaskB (b : Bullet) : Bullet :=
  let b' := { b with isTask := !b.isTask }
  if !b'.isTask then { b' with completed := false } else b'

/-- `(b *Bullet) ToggleComplete()`: only meaningful on tasks. -/
def toggleCompleteB (b : Bullet) : Bullet :=
  if b.isTask then { b with completed := !b.completed } else b

/-! ## The tree-mutation engine (`cmd/ocli-ssh/model.go`)

The Go `Model` fields that drive the structural operations.  `next` is the
allocation bound of the arena: every allocated address is `< next`, and fresh
bullets are allocated at `next`. -/

structure Model where
  heap : Heap
  next : Nat
  rootBullets : List Nat
  allBullets : List Nat
  selectedIndex : Nat
  zoomedBullet : Option Nat
  breadcrumbs : List Nat
  settings : Bool

/-- `rebuildVisibleList`: flatten the document (or the zoom subtree) into
the visible ordering. -/
def visibleList (h : Heap) (fuel : Nat) (roots : List Nat) (zoom : Option Nat) : List Nat :=
  match zoom with
  | some z => z :: getVisibleDescendants h fuel z
  | none => roots.flatMap (fun r => r :: getVisibleDescendants h fuel r)

def rebuildVisibleList (m : Model) : Model :=
  { m with allBullets := visibleList m.heap m.next m.rootBullets m.zoomedBullet }

/-- `getSelectedBullet`: bounds-guarded index into the visible list. -/
def getSelectedBullet (m : Model) : Option Nat :=
  m.allBullets[m.selectedIndex]?

/-- Allocate a fresh bullet (Go `NewBullet`: a heap allocation with a fresh
uuid). -/
def allocB (m : Model) (b : Bullet) : Model × Nat :=
  ({ m with heap := hset m.heap m.next b, next := m.next + 1 }, m.next)

/-- The Go pattern `for i, b := range l { if b.ID == s.ID { idx = i; break } }`
with `idx` defaulting to 0: first index of `s`, else 0. -/
def findIdx0 : List Nat → Nat → Nat → Nat
  | [], _, _ => 0
  | b :: rest, s, i => if b = s then i else findIdx0 rest s (i + 1)

/-- Same loop returning whether the element was found. -/
def findIdxA : List Nat → Nat → Nat → Option Nat
  | [], _, _ => none
  | b :: rest, s, i => if b = s then some i else findIdxA rest s (i + 1)

/-- The Go pattern `if b.ID == s.ID && i > 0 { ...; break }`: first index of
`s` that is positive. -/
def findIdxPos : List Nat → Nat → Nat → Option Nat
  | [], _, _ => none
  | b :: rest, s, i => if b = s ∧ i > 0 then some i else findIdxPos rest s (i + 1)

/-- `index := 0; for i, b := range l { if b.ID == s.ID { index = i + 1; break } }`
(used by `addNewBullet` to insert after the selection). -/
def findIdxPlus1 (l : List Nat) (s : Nat) : Nat :=
  match findIdxA l s 0 with
  | some i => i + 1
  | none => 0

/-- `addNewBullet(content)` from `model.go`: allocate, splice in after the
selection (or at the roots / under the zoom root), rebuild, select the new
bullet. -/
def addNewBullet (m : Model) (content : String) : Model :=
  let p := allocB m (newBullet content)
  let m0 := p.1
  let nb := p.2
  let sel := getSelectedBullet m0
  let m1 :=
    match m0.zoomedBullet with
    | some z =>
      match sel with
      | none => { m0 with heap := addChild m0.heap z nb }
      | some s =>
        if s = z then
          { m0 with heap := addChild m0.heap z nb }
        else
          match parentOf m0.heap s with
          | none =>
            -- "shouldn't happen when zoomed, but fallback"
            { m0 with heap := addChild m0.heap z nb }
          | some par =>
            let idx := findIdxPlus1 (childrenOf m0.heap par) s
            { m0 with heap := insertChildAt m0.heap par idx nb }
    | none =>
      match sel with
      | none => { m0 with rootBullets := m0.rootBullets ++ [nb] }
      | some s =>
        match parentOf m0.heap s with
        | none =>
          let idx := findIdxPlus1 m0.rootBullets s
          { m0 with rootBullets := m0.rootBullets.insertIdx idx nb }
        | some par =>
          let idx := findIdxPlus1 (childrenOf m0.heap par) s
          { m0 with heap := insertChildAt m0.heap par idx nb }
  let m2 := rebuildVisibleList m1
  match findIdxA m2.allBullets nb 0 with
  | some i => { m2 with selectedIndex := i }
  | none => m2

/-- `deleteBullet` from `model.go`: unlink the selected node (its whole
subtree goes with it), rebuild, and pull the selection index back in range. -/
def deleteBullet (m : Model) : Model :=
  match getSelectedBullet m with
  | none => m
  | some s =>
    let m1 :=
      match parentOf m.heap s with
      | none => { m with rootBullets := m.rootBullets.erase s }
      | some p => { m with heap := removeChild m.heap p s }
    let m2 := rebuildVisibleList m1
    if m2.selectedIndex ≥ m2.allBullets.length ∧ m2.selectedIndex > 0 then
      { m2 with selectedIndex := m2.selectedIndex - 1 }
    else m2

/-- `indentBullet` from `model.go`: the selected node becomes the last child
of its previous sibling; a previously collapsed new parent is expanded;
silently a no-op when there is no previous sibling. -/
def indentBullet (m : Model) : Model :=
  match getSelectedBullet m with
  | none => m
  | some s =>
    if m.selectedIndex = 0 then m
    else
      let step : Model × Option Nat :=
        match parentOf m.heap s with
        | none =>
          match findIdxPos m.rootBullets s 0 with
          | some i =>
            ({ m with rootBullets := m.rootBullets.eraseIdx i }, m.rootBullets[i - 1]?)
          | none => (m, none)
        | some p =>
          match findIdxPos (childrenOf m.heap p) s 0 with
          | some i =>
            ({ m with heap := removeChild m.heap p s }, (childrenOf m.heap p)[i - 1]?)
          | none => (m, none)
      let m1 := step.1
      let m2 :=
        match step.2 with
        | none => m1
        | some ps =>
          let h1 := addChild m1.heap ps s
          let h2 :=
            if (h1 ps).elim false (·.collapsed) then
              modifyB h1 ps (fun b => { b with collapsed := false })
            else h1
          { m1 with heap := h2 }
      rebuildVisibleList m2

/-- `outdentBullet` from `model.go`: splice the selected node into the
grandparent's children (or the root list) right after its former parent;
no-op at root depth. -/
def outdentBullet (m : Model) : Model :=
  match getSelectedBullet m with
  | none => m
  | some s =>
    match parentOf m.heap s with
    | none => m
    | some p =>
      let gp := parentOf m.heap p
      let parentIndex : Nat :=
        match gp with
        | none => findIdx0 m.rootBullets p 0
        | some g => findIdx0 (childrenOf m.heap g) p 0
      let m1 := { m with heap := removeChild m.heap p s }
      let m2 :=
        match gp with
        | none => { m1 with rootBullets := m1.rootBullets.insertIdx (parentIndex + 1) s }
        | some g => { m1 with heap := insertChildAt m1.heap g (parentIndex + 1) s }
      rebuildVisibleList m2

/-- Depth of a bullet relative to the active zoom root (the common prologue
of `moveBulletUp` / `moveBulletDown`). -/
def depthOfIn (h : Heap) (fuel : Nat) (zoom : Option Nat) (a : Nat) : Nat :=
  match zoom with
  | some z => getDepthFrom h fuel a z
  | none => getDepth h fuel a

def depthOf (m : Model) (a : Nat) : Nat :=
  depthOfIn m.heap m.next m.zoomedBullet a

/-- The backward scan of `moveBulletUp`: nearest earlier visible bullet at
the given depth. -/
def scanUp (m : Model) (d : Nat) : Option Nat :=
  ((m.allBullets.take m.selectedIndex).reverse).find? (fun b => depthOf m b = d)

/-- The forward scan of `moveBulletDown`: nearest later visible bullet at the
given depth. -/
def scanDown (m : Model) (d : Nat) : Option Nat :=
  (m.allBullets.drop (m.selectedIndex + 1)).find? (fun b => depthOf m b = d)

/-- Target search for `moveBulletUp`/`moveBulletDown`: same depth first, then
one level shallower. -/
def findTarget (scan : Nat → Option Nat) (targetDepth : Nat) : Option Nat :=
  match scan targetDepth with
  | some t => some t
  | none => if targetDepth > 0 then scan (targetDepth - 1) else none

/-- Detach the selected node from its current parent (shared by the two move
operations). -/
def detachSelected (m : Model) (s : Nat) : Model :=
  match parentOf m.heap s with
  | none => { m with rootBullets := m.rootBullets.erase s }
  | some p => { m with heap := removeChild m.heap p s }

/-- `moveBulletUp` from `model.go`. -/
def moveBulletUp (m : Model) : Model :=
  match getSelectedBullet m with
  | none => m
  | some s =>
    let targetDepth := depthOf m s
    match findTarget (scanUp m) targetDepth with
    | none => m
    | some t =>
      let m1 := detachSelected m s
      let m2 :=
        if depthOfIn m1.heap m1.next m1.zoomedBullet t = 0 then
          -- target at root level: insert before it in the root list
          let m' :=
            match findIdxA m1.rootBullets t 0 with
            | some i => { m1 with rootBullets := m1.rootBullets.insertIdx i s }
            | none => m1
          { m' with heap := setParent m'.heap s none }
        else
          -- insert as sibling of the target, before it
          match parentOf m1.heap t with
          | none => m1  -- unreachable on live targets (Go would fault here)
          | some tp =>
            match findIdxA (childrenOf m1.heap tp) t 0 with
            | some i => { m1 with heap := insertChildAt m1.heap tp i s }
            | none => m1
      let m3 := rebuildVisibleList m2
      if m3.selectedIndex > 0 then { m3 with selectedIndex := m3.selectedIndex - 1 }
      else m3

/-- `moveBulletDown` from `model.go`. -/
def moveBulletDown (m : Model) : Model :=
  match getSelectedBullet m with
  | none => m
  | some s =>
    let targetDepth := depthOf m s
    match findTarget (scanDown m) targetDepth with
    | none => m
    | some t =>
      let m1 := detachSelected m s
      let m2 :=
        if depthOfIn m1.heap m1.next m1.zoomedBullet t = 0 then
          -- target at root level: insert right after it in the root list
          let m' :=
            match findIdxA m1.rootBullets t 0 with
            | some i => { m1 with rootBullets := m1.rootBullets.insertIdx (i + 1) s }
            | none => m1
          { m' with heap := setParent m'.heap s none }
        else
          match parentOf m1.heap t with
          | none => m1  -- unreachable on live targets (Go would fault here)
          | some tp =>
            match findIdxA (childrenOf m1.heap tp) t 0 with
            | some i => { m1 with heap := insertChildAt m1.heap tp (i + 1) s }
            | none => m1
      let m3 := rebuildVisibleList m2
      if m3.selectedIndex < m3.allBullets.length - 1 then
        { m3 with selectedIndex := m3.selectedIndex + 1 }
      else m3

/-- The `" "`/`"space"` key: `selected.Toggle()` followed by a rebuild. -/
def toggleCollapse (m : Model) : Model :=
  match getSelectedBullet m with
  | none => m
  | some s => rebuildVisibleList { m with heap := modifyB m.heap s toggleB }

/-- The `"c"` key: `selected.CycleColor()` (no rebuild in the source). -/
def cycleColor (m : Model) : Model :=
  match getSelectedBullet m with
  | none => m
  | some s => { m with heap := modifyB m.heap s cycleColorB }

/-- The `"t"` key: `selected.ToggleTask()`. -/
def toggleTask (m : Model) : Model :=
  match getSelectedBullet m with
  | none => m
  | some s => { m with heap := modifyB m.heap s toggleTaskB }

/-- The `"x"` key: `selected.ToggleComplete()`. -/
def toggleComplete (m : Model) : Model :=
  match getSelectedBullet m with
  | none => m
  | some s => { m with heap := modifyB m.heap s toggleCompleteB }

/-! ## The identity & auth store (`cmd/ocli-ssh/auth.go`)

A public key is its algorithm type plus its marshalled wire bytes
(`key.Type()`, `key.Marshal()`).  `convertToGosshKey` is a marshal/parse
round-trip through the ssh library and acts as the identity on valid keys, so
it is dropped.  `gossh.MarshalAuthorizedKey` (the one-line textual encoding)
is library code and is passed in as a parameter `marshal`.

`authorizedKeys` is the in-memory Go map (`nil`-slice appends create the
entry, so an *existing* entry with an empty list is distinguishable from a
missing entry, exactly as in Go); `keyFiles` is the durable per-identity
`authorized_keys` file, one line per list element (`none` = no file). -/

structure PubKey where
  typ : String
  data : List Nat
deriving DecidableEq, Repr

structure AuthManager where
  authorizedKeys : String → Option (List PubKey)
  keyFiles : String → Option (List String)

/-- `Authenticate(username, key)`: true iff the user has an entry whose list
contains a key with identical type and marshalled bytes
(`subtle.ConstantTimeCompare == 1` is bytewise equality). -/
def Authenticate (am : AuthManager) (username : String) (key : PubKey) : Bool :=
  match am.authorizedKeys username with
  | none => false
  | some userKeys =>
    userKeys.any (fun ak => decide (ak.typ = key.typ ∧ ak.data = key.data))

/-- `AddUserKey(username, key)`: append to the in-memory slice (creating the
map entry when absent) and append one marshalled line to the durable
`authorized_keys` file (`O_APPEND|O_CREATE`). -/
def AddUserKey (marshal : PubKey → String) (am : AuthManager) (username : String)
    (key : PubKey) : AuthManager :=
  let mem :=
    match am.authorizedKeys username with
    | none => [key]
    | some ks => ks ++ [key]
  let fileOld := (am.keyFiles username).getD []
  { authorizedKeys := fun u => if u = username then some mem else am.authorizedKeys u,
    keyFiles := fun u => if u = username then some (fileOld ++ [marshal key]) else am.keyFiles u }

/-- `AuthenticateOrRegister(username, key, autoRegister)`: try normal
authentication; otherwise auto-register only when enabled and the username
has no map entry at all.  (The `AddUserKey` error path is I/O-only and cannot
fire in the pure model.) -/
def AuthenticateOrRegister (marshal : PubKey → String) (am : AuthManager)
    (username : String) (key : PubKey) (autoRegister : Bool) : Bool × AuthManager :=
  if Authenticate am username key then (true, am)
  else if autoRegister then
    match am.authorizedKeys username with
    | none => (true, AddUserKey marshal am username key)
    | some _ => (false, am)
  else (false, am)

/-- The line loop of `loadUserKeys`: skip blank and `#`-prefixed lines, skip
lines the (library) parser rejects, keep the parsed keys in order. -/
def parseKeyLines (parse : String → Option PubKey) : List String → List PubKey
  | [] => []
  | line :: rest =>
    let l := line.trim
    if l = "" ∨ l.startsWith "#" then parseKeyLines parse rest
    else
      match parse l with
      | none => parseKeyLines parse rest
      | some k => k :: parseKeyLines parse rest

/-- `loadUserKeys(username)` given the raw lines of the user's
`authorized_keys` file (`none` = the file does not exist).  When the file is
missing the function returns early and the map entry is *not* created; when
it exists the entry is always assigned, even if no line parsed. -/
def loadUserKeys (am : AuthManager) (parse : String → Option PubKey) (username : String)
    (fileLines : Option (List String)) : AuthManager :=
  match fileLines with
  | none => am
  | some lines =>
    { am with authorizedKeys := fun u =>
        if u = username then some (parseKeyLines parse lines) else am.authorizedKeys u }

/-! ## The persistence codec (`persistence.go`, `cmd/ocli-ssh/ssh_model.go`)

The durable record is the JSON tree marshalled from the parent-free deep
copy built by `prepareForSerialization` / `copyBulletForSerialization`.  One
record node carries the Go `ID` (here the arena address), `Content`,
`Children`, `Collapsed`, `IsEditing` (marshalled because the struct has no
json tags; always `false` in records written by `Save`), `Color`, `IsTask`
and `Completed`; `Parent` is marshalled as `null` and carries no
information, so it is not represented. -/

inductive RTree where
  | node (id : Nat) (content : String) (children : List RTree)
      (collapsed : Bool) (isEditing : Bool) (color : Int)
      (isTask : Bool) (completed : Bool)
deriving Repr

/-- The stored `ID` of a record node. -/
def RTree.rid : RTree → Nat
  | .node i _ _ _ _ _ _ _ => i

/-- `AppData`: root bullet records plus `Settings.ShowHierarchyLines`. -/
structure AppData where
  rootBullets : List RTree
  settings : Bool
deriving Repr

mutual

/-- `copyBulletForSerialization` composed with `json.Marshal`: the value of
the durable record for the subtree at `a`.  The Go function builds a fresh
parent-free `Bullet` tree (ID and all content/flag fields copied, `Parent`
nil, `IsEditing` forced false) which marshals to exactly this tree. -/
def encodeBullet (h : Heap) : Nat → Nat → Option RTree
  | 0, _ => none
  | fuel + 1, a =>
    match h a with
    | none => none
    | some b =>
      match encodeBullets h fuel b.children with
      | none => none
      | some cs =>
        some (.node a b.content cs b.collapsed false b.color b.isTask b.completed)

/-- The child loop of `copyBulletForSerialization`. -/
def encodeBullets (h : Heap) : Nat → List Nat → Option (List RTree)
  | _, [] => some []
  | fuel, c :: cs =>
    match encodeBullet h fuel c, encodeBullets h fuel cs with
    | some t, some ts => some (t :: ts)
    | _, _ => none

end

/-- `prepareForSerialization` + `json.MarshalIndent`: the durable record of a
whole document. -/
def encodeApp (h : Heap) (fuel : Nat) (roots : List Nat) (settings : Bool) :
    Option AppData :=
  (encodeBullets h fuel roots).map (fun ts => { rootBullets := ts, settings := settings })

mutual

/-- `json.Unmarshal`: allocate each record node at its stored ID with
`Parent` nil (the record's `Parent` field is always `null`) and `IsEditing`
as stored. -/
def unmarshalTree : RTree → Heap → Heap
  | .node i c cs col ed color task comp, h =>
    let h1 := hset h i
      { content := c, children := cs.map RTree.rid, parent := none,
        collapsed := col, isEditing := ed, color := color,
        isTask := task, completed := comp }
    unmarshalForest cs h1

/-- The forest version of `unmarshalTree`. -/
def unmarshalForest : List RTree → Heap → Heap
  | [], h => h
  | t :: ts, h => unmarshalForest ts (unmarshalTree t h)

end

mutual

/-- `restoreParentRelationshipsRecursive(bullet, parent)`: top-down
assignment of the parent back-references, forcing the transient edit flag
off.  The walk follows the decoded `Children` pointers, which coincide with
the record tree. -/
def restoreTree (par : Option Nat) : RTree → Heap → Heap
  | .node i _ cs _ _ _ _ _, h =>
    let h1 := modifyB h i (fun b => { b with parent := par, isEditing := false })
    restoreForest (some i) cs h1

/-- `restoreParentRelationships`: restore every root, parent `nil`. -/
def restoreForest (par : Option Nat) : List RTree → Heap → Heap
  | [], h => h
  | t :: ts, h => restoreForest par ts (restoreTree par t h)

end

/-- The empty heap (fresh address space of a restarted process). -/
def emptyHeap : Heap := fun _ => none

/-- `json.Unmarshal` + `restoreParentRelationships` on a whole record: the
live document after `Load` of an existing record. -/
def decodeApp (d : AppData) : Heap × List Nat × Bool :=
  (restoreForest none d.rootBullets (unmarshalForest d.rootBullets emptyHeap),
   d.rootBullets.map RTree.rid, d.settings)

/-- The bytes stored in `data.json`: either bytes that unmarshal as a record,
or bytes `json.Unmarshal` rejects.  `none` (below) models the file not
existing at all. -/
inductive StoredFile where
  | valid (d : AppData)
  | malformed
deriving Repr

/-- `createDefaultData` (`persistence.go`): the fixed introductory document,
built with `NewBullet`/`AddChild` (fresh addresses 0–4). -/
def createDefaultData : Heap × List Nat × Bool :=
  let h0 := hset emptyHeap 0 (newBullet "Welcome to terminal Workflowy!")
  let h1 := hset h0 1 (newBullet "Press Enter to add a new bullet")
  let h2 := hset h1 2 (newBullet "Use arrow keys to navigate")
  let h3 := hset h2 3 (newBullet "Tab/Shift+Tab to indent/outdent")
  let h4 := hset h3 4 (newBullet "Space to collapse/expand")
  let h5 := addChild h4 0 1
  let h6 := addChild h5 0 2
  let h7 := addChild h6 0 3
  let h8 := addChild h7 3 4
  (h8, [0], true)

/-- `(cm *ConfigManager) Load()`: bootstrap only when the file does not
exist; surface an unmarshal failure as an error (the stored bytes are only
read, never rewritten); decode an existing well-formed record as stored. -/
def Load (file : Option StoredFile) : Except Unit (Heap × List Nat × Bool) :=
  match file with
  | none => .ok createDefaultData
  | some .malformed => .error ()
  | some (.valid d) => .ok (decodeApp d)

mutual

/-- `copyBulletForSerialization` as the heap-level deep copy it performs in
Go: fresh nodes are allocated (children first; Go allocates the parent copy
first, which only permutes the fresh addresses) with `Parent` nil and
`IsEditing` false, the source heap is only read.  Returns the updated
(heap, allocation bound) pair and the address of the copy. -/
def copyBullet (src : Heap) : Nat → Nat → Heap × Nat → (Heap × Nat) × Nat
  | 0, _, st => (st, st.2)
  | fuel + 1, a, st =>
    match src a with
    | none => (st, st.2)
    | some b =>
      let r := copyBullets src fuel b.children st
      let copy : Bullet :=
        { content := b.content, children := r.2, parent := none,
          collapsed := b.collapsed, isEditing := false, color := b.color,
          isTask := b.isTask, completed := b.completed }
      ((hset r.1.1 r.1.2 copy, r.1.2 + 1), r.1.2)

/-- The child loop of the heap-level deep copy. -/
def copyBullets (src : Heap) : Nat → List Nat → Heap × Nat → (Heap × Nat) × List Nat
  | _, [], st => (st, [])
  | fuel, c :: cs, st =>
    let r1 := copyBullet src fuel c st
    let r2 := copyBullets src fuel cs r1.1
    (r2.1, r1.2 :: r2.2)

end

/-- `Save` as it acts on the live model: `prepareForSerialization` deep-copies
every root into fresh heap cells and the marshalled bytes go to storage; the
model's own fields are carried over unchanged. -/
def SaveModel (fuel : Nat) (m : Model) : Model × List Nat :=
  let r := copyBullets m.heap fuel m.rootBullets (m.heap, m.next)
  ({ m with heap := r.1.1, next := r.1.2 }, r.2)

/-! ## C10: saving operates on a deep copy -/

mutual

/-- The serialization deep copy only allocates: the allocation bound grows
and every pre-existing heap cell is untouched. -/
theorem copyBullet_frame (src : Heap) (fuel a : Nat) (st : Heap × Nat) :
    st.2 ≤ (copyBullet src fuel a st).1.2
    ∧ ∀ x, x < st.2 → (copyBullet src fuel a st).1.1 x = st.1 x := by
  match fuel with
  | 0 => simp [copyBullet]
  | fuel + 1 =>
    cases h : src a with
    | none => simp [copyBullet, h]
    | some b =>
      have ih := copyBullets_frame src fuel b.children st
      refine ⟨?_, ?_⟩
      · simp only [copyBullet, h]
        omega
      · intro x hx
        simp only [copyBullet, h, hset]
        have hne : ¬ x = (copyBullets src fuel b.children st).1.2 := by omega
        rw [if_neg hne]
        exact ih.2 x hx

theorem copyBullets_frame (src : Heap) (fuel : Nat) (l : List Nat) (st : Heap × Nat) :
    st.2 ≤ (copyBullets src fuel l st).1.2
    ∧ ∀ x, x < st.2 → (copyBullets src fuel l st).1.1 x = st.1 x := by
  match l with
  | [] => simp [copyBullets]
  | c :: cs =>
    have ih1 := copyBullet_frame src fuel c st
    have ih2 := copyBullets_frame src fuel cs (copyBullet src fuel c st).1
    refine ⟨?_, ?_⟩
    · simp only [copyBullets]
      omega
    · intro x hx
      simp only [copyBullets]
      rw [ih2.2 x (by omega)]
      exact ih1.2 x hx

end

/-- C10: `Save` (`prepareForSerialization`/`copyBulletForSerialization`)
works on a deep copy allocated in fresh cells: every node of the live
document — every heap cell below the allocation bound, hence all content,
children lists, flags, parent back-references and edit flags — and the root
list, visible list, selection and settings are identical before and after. -/
theorem C10_save_preserves_live_document (fuel : Nat) (m : Model) (a : Nat)
    (ha : a < m.next) :
    (SaveModel fuel m).1.heap a = m.heap a
    ∧ (SaveModel fuel m).1.rootBullets = m.rootBullets
    ∧ (SaveModel fuel m).1.allBullets = m.allBullets
    ∧ (SaveModel fuel m).1.selectedIndex = m.selectedIndex
    ∧ (SaveModel fuel m).1.zoomedBullet = m.zoomedBullet
    ∧ (SaveModel fuel m).1.settings = m.settings := by
  refine ⟨?_, rfl, rfl, rfl, rfl, rfl⟩
  exact (copyBullets_frame m.heap fuel m.rootBullets (m.heap, m.next)).2 a ha

/-- C10 witness: on a one-node document the saved copy leaves the node
intact. -/
theorem C10_save_preserves_live_document_witness :
    (0 : Nat) < 1
    ∧ (SaveModel 1 ⟨hset emptyHeap 0 (newBullet "x"), 1, [0], [0], 0, none, [], true⟩).1.heap 0
        = hset emptyHeap 0 (newBullet "x") 0 :=
  ⟨by decide,
   (C10_save_preserves_live_document 1
     ⟨hset emptyHeap 0 (newBullet "x"), 1, [0], [0], 0, none, [], true⟩ 0 (by decide)).1⟩

/-! ## The forest representation invariant

A live document is an arena picture of an ordered forest: `BT` is the
address skeleton, `RepT h par t` says the heap cells spell out `t` (children
lists and parent back-references included) below a node whose parent field
is `par`, and `RepF` ties the root list to a forest of such trees.  The
specification's own design note models the document exactly this way. -/

inductive BT where
  | node (a : Nat) (children : List BT)

def BT.addr : BT → Nat
  | .node a _ => a

mutual

def BT.addrs : BT → List Nat
  | .node a cs => a :: BT.addrsL cs

def BT.addrsL : List BT → List Nat
  | [] => []
  | t :: ts => BT.addrs t ++ BT.addrsL ts

end

mutual

def BT.height : BT → Nat
  | .node _ cs => BT.heightL cs + 1

def BT.heightL : List BT → Nat
  | [] => 0
  | t :: ts => max (BT.height t) (BT.heightL ts)

end

/-- The heap represents tree `t` (the node at `t.addr` carries parent
back-reference `par`, its children list is exactly the child addresses of
`t`, recursively). -/
inductive RepT (h : Heap) : Option Nat → BT → Prop
  | mk {par : Option Nat} {a : Nat} {cs : List BT} {b : Bullet} :
      h a = some b → b.parent = par → b.children = cs.map BT.addr →
      (∀ t ∈ cs, RepT h (some a) t) → RepT h par (.node a cs)

/-- The heap and root list represent the forest `F`. -/
def RepF (h : Heap) (roots : List Nat) (F : List BT) : Prop :=
  roots = F.map BT.addr ∧ ∀ t ∈ F, RepT h none t

/-- Structural induction for `BT` with a list-membership hypothesis. -/
theorem BT.indOn {P : BT → Prop}
    (h : ∀ a cs, (∀ t ∈ cs, P t) → P (.node a cs)) : ∀ t, P t := by
  intro t
  match t with
  | .node a cs =>
    refine h a cs ?_
    intro t' ht'
    have : sizeOf t' < sizeOf (BT.node a cs) := by
      have := List.sizeOf_lt_of_mem ht'
      simp only [BT.node.sizeOf_spec]
      omega
    exact BT.indOn h t'
termination_by t => sizeOf t

theorem BT.addrs_def (a : Nat) (cs : List BT) :
    BT.addrs (.node a cs) = a :: BT.addrsL cs := rfl

theorem BT.addrsL_cons (t : BT) (ts : List BT) :
    BT.addrsL (t :: ts) = t.addrs ++ BT.addrsL ts := rfl

theorem BT.addrsL_append (ts us : List BT) :
    BT.addrsL (ts ++ us) = BT.addrsL ts ++ BT.addrsL us := by
  induction ts with
  | nil => rfl
  | cons t ts ih => simp [BT.addrsL_cons, ih]

theorem BT.addr_mem_addrs (t : BT) : t.addr ∈ t.addrs := by
  cases t with
  | node a cs => simp [BT.addr, BT.addrs_def]

theorem BT.mem_addrsL_of_mem {t : BT} {ts : List BT} {x : Nat}
    (ht : t ∈ ts) (hx : x ∈ t.addrs) : x ∈ BT.addrsL ts := by
  induction ts with
  | nil => cases ht
  | cons u us ih =>
    rcases List.mem_cons.mp ht with h | h
    · subst h
      simp only [BT.addrsL_cons, List.mem_append]
      exact Or.inl hx
    · simp only [BT.addrsL_cons, List.mem_append]
      exact Or.inr (ih h)

/-- Transfer representation along heaps that agree on the tree's addresses. -/
theorem RepT.mono {h h' : Heap} (t : BT) :
    ∀ par, (∀ x ∈ t.addrs, h' x = h x) → RepT h par t → RepT h' par t := by
  induction t using BT.indOn with
  | h a cs ih =>
    intro par hag hrep
    cases hrep with
    | mk hb hp hc hcs =>
      refine RepT.mk ?_ hp hc ?_
      · rw [show h' a = h a from hag a (by simp [BT.addrs_def])]
        exact hb
      · intro t' ht'
        refine ih t' ht' (some a) (fun x hx => hag x ?_) (hcs t' ht')
        simp only [BT.addrs_def, List.mem_cons]
        exact Or.inr (BT.mem_addrsL_of_mem ht' hx)

/-- An auth store with no identities and no key files. -/
def am0 : AuthManager := ⟨fun _ => none, fun _ => none⟩

/-- A concrete public key. -/
def k0 : PubKey := ⟨"ssh-ed25519", [1, 2, 3]⟩

/-- A concrete stand-in for `gossh.MarshalAuthorizedKey`. -/
def marshal0 : PubKey → String := fun k => k.typ

/-- An auth store in which identity `bob` exists with zero keys (the state
`loadUserKeys` produces from an `authorized_keys` file with no valid line). -/
def amZero : AuthManager :=
  ⟨fun u => if u = "bob" then some [] else none, fun _ => none⟩

/-! ## C4: key addition -/

/-- C4: the claim is false on the code: `AddUserKey` appends unconditionally,
so adding the identical encoded key twice for `alice` changes the
authorized-key set size (1 → 2), in memory and in the durable key file. -/
theorem C4_addKey_twice_changes_size :
    (((AddUserKey marshal0 (AddUserKey marshal0 am0 "alice" k0) "alice" k0).authorizedKeys
        "alice").map List.length
      ≠ ((AddUserKey marshal0 am0 "alice" k0).authorizedKeys "alice").map List.length)
    ∧ (((AddUserKey marshal0 (AddUserKey marshal0 am0 "alice" k0) "alice" k0).keyFiles
        "alice").map List.length
      ≠ ((AddUserKey marshal0 am0 "alice" k0).keyFiles "alice").map List.length) := by
  constructor <;> decide

/-- C4 (amended): `addKey` (`AddUserKey`) is an unconditional append: every
call — in particular a repeated call with an identical encoded key — grows
the identity's in-memory key list and its durable key file by exactly one
entry. -/
theorem C4_addKey_appends (marshal : PubKey → String) (am : AuthManager)
    (u : String) (k : PubKey) :
    (((AddUserKey marshal am u k).authorizedKeys u).getD []).length
      = ((am.authorizedKeys u).getD []).length + 1
    ∧ (((AddUserKey marshal am u k).keyFiles u).getD []).length
      = ((am.keyFiles u).getD []).length + 1 := by
  constructor
  · simp only [AddUserKey]
    cases h : am.authorizedKeys u <;> simp [h]
  · simp only [AddUserKey]
    cases h : am.keyFiles u <;> simp [h]

/-! ## C5: authenticate-or-register -/

/-- C5: `AuthenticateOrRegister` returns true on authentication success;
otherwise it succeeds only when auto-registration is enabled and the
identity has no record at all, creating the identity with exactly the
presented key (in memory, and in the durable file when none existed); an
identity whose record exists but holds zero keys — the state `loadUserKeys`
leaves for an existing `authorized_keys` file with no valid lines — is not
auto-registered and the call returns false. -/
theorem C5_authenticateOrRegister (marshal : PubKey → String) (am : AuthManager)
    (u : String) (k : PubKey) (ar : Bool) :
    (Authenticate am u k = true → AuthenticateOrRegister marshal am u k ar = (true, am))
    ∧ (Authenticate am u k = false → ar = true → am.authorizedKeys u = none →
        AuthenticateOrRegister marshal am u k ar = (true, AddUserKey marshal am u k)
        ∧ (AddUserKey marshal am u k).authorizedKeys u = some [k]
        ∧ (am.keyFiles u = none →
            (AddUserKey marshal am u k).keyFiles u = some [marshal k]))
    ∧ (Authenticate am u k = false → ∀ l, am.authorizedKeys u = some l →
        AuthenticateOrRegister marshal am u k ar = (false, am))
    ∧ (Authenticate am u k = false → ar = false →
        AuthenticateOrRegister marshal am u k ar = (false, am))
    ∧ (∀ parse lines,
        (loadUserKeys am parse u (some lines)).authorizedKeys u
          = some (parseKeyLines parse lines)) := by
  refine ⟨?_, ?_, ?_, ?_, ?_⟩
  · intro hA; simp [AuthenticateOrRegister, hA]
  · intro hA har hnone
    refine ⟨by simp [AuthenticateOrRegister, hA, har, hnone], ?_, ?_⟩
    · simp [AddUserKey, hnone]
    · intro hfile; simp [AddUserKey, hfile]
  · intro hA l hl
    cases ar <;> simp [AuthenticateOrRegister, hA, hl]
  · intro hA har; simp [AuthenticateOrRegister, hA, har]
  · intro parse lines; simp [loadUserKeys]

/-- C5 witness: at concrete inputs, an identity existing with zero keys is
refused even with auto-registration on, while a truly absent identity is
created with exactly the presented key. -/
theorem C5_authenticateOrRegister_witness :
    AuthenticateOrRegister marshal0 amZero "bob" k0 true = (false, amZero)
    ∧ AuthenticateOrRegister marshal0 am0 "alice" k0 true
        = (true, AddUserKey marshal0 am0 "alice" k0)
    ∧ (AddUserKey marshal0 am0 "alice" k0).authorizedKeys "alice" = some [k0] := by
  refine ⟨?_, ?_, ?_⟩
  · exact (C5_authenticateOrRegister marshal0 amZero "bob" k0 true).2.2.1
      (by decide) [] (by decide)
  · exact ((C5_authenticateOrRegister marshal0 am0 "alice" k0 true).2.1
      (by decide) rfl (by decide)).1
  · exact ((C5_authenticateOrRegister marshal0 am0 "alice" k0 true).2.1
      (by decide) rfl (by decide)).2.1

/-! ## C2: load never substitutes bootstrap over an existing record -/

/-- C2: `Load` yields the bootstrap document exactly when no record file
exists; an existing but malformed record is surfaced as an error (the load
path only reads the stored bytes), an existing well-formed record is decoded
as stored — concretely, a record holding one node `keepme` loads back with
exactly that content as the only root. -/
theorem C2_load_bootstrap_only_on_absence :
    Load none = .ok createDefaultData
    ∧ Load (some .malformed) = .error ()
    ∧ (∀ d : AppData, Load (some (.valid d)) = .ok (decodeApp d))
    ∧ (∃ r, Load (some (.valid ⟨[.node 0 "keepme" [] false false 0 false false], true⟩))
          = .ok r
        ∧ (r.1 0).map (·.content) = some "keepme"
        ∧ r.2.1 = [0] ∧ r.2.2 = true) := by
  refine ⟨rfl, rfl, fun d => rfl, ⟨_, rfl, by decide, by decide, rfl⟩⟩

/-! ## C1: the durable record round-trips the document -/

/-- Heap read with a vacuous default (only ever applied to allocated
addresses). -/
def bulletAt (h : Heap) (a : Nat) : Bullet := (h a).getD (newBullet "")

mutual

/-- The durable record of the live subtree `t`: what
`copyBulletForSerialization` + `json.Marshal` emit for it. -/
def rtOf (h : Heap) : BT → RTree
  | .node a cs =>
    .node a (bulletAt h a).content (rtOfL h cs) (bulletAt h a).collapsed false
      (bulletAt h a).color (bulletAt h a).isTask (bulletAt h a).completed

def rtOfL (h : Heap) : List BT → List RTree
  | [] => []
  | t :: ts => rtOf h t :: rtOfL h ts

end

mutual

/-- All stored IDs of a record tree. -/
def ridsT : RTree → List Nat
  | .node i _ cs _ _ _ _ _ => i :: ridsL cs

def ridsL : List RTree → List Nat
  | [] => []
  | t :: ts => ridsT t ++ ridsL ts

end

/-- The bullet `json.Unmarshal` materialises for one record node. -/
def recBullet : RTree → Bullet
  | .node _ c cs col ed color task comp =>
    { content := c, children := cs.map RTree.rid, parent := none,
      collapsed := col, isEditing := ed, color := color,
      isTask := task, completed := comp }

/-- Structural induction for `RTree` with a list-membership hypothesis. -/
theorem RTree.indOnR {P : RTree → Prop}
    (h : ∀ i c cs col ed color task comp,
      (∀ t ∈ cs, P t) → P (.node i c cs col ed color task comp)) : ∀ t, P t := by
  intro t
  match t with
  | .node i c cs col ed color task comp =>
    refine h i c cs col ed color task comp ?_
    intro t' ht'
    have : sizeOf t' < sizeOf (RTree.node i c cs col ed color task comp) := by
      have := List.sizeOf_lt_of_mem ht'
      simp only [RTree.node.sizeOf_spec]
      omega
    exact RTree.indOnR h t'
termination_by t => sizeOf t

theorem ridsT_def (i : Nat) (c : String) (cs : List RTree) (col ed : Bool)
    (color : Int) (task comp : Bool) :
    ridsT (.node i c cs col ed color task comp) = i :: ridsL cs := rfl

theorem ridsL_cons (t : RTree) (ts : List RTree) :
    ridsL (t :: ts) = ridsT t ++ ridsL ts := rfl

theorem rid_mem_ridsT (t : RTree) : t.rid ∈ ridsT t := by
  cases t
  simp [RTree.rid, ridsT_def]

theorem mem_ridsL_of_mem {t : RTree} {ts : List RTree} {x : Nat}
    (ht : t ∈ ts) (hx : x ∈ ridsT t) : x ∈ ridsL ts := by
  induction ts with
  | nil => cases ht
  | cons u us ih =>
    rcases List.mem_cons.mp ht with h | h
    · subst h
      simp only [ridsL_cons, List.mem_append]
      exact Or.inl hx
    · simp only [ridsL_cons, List.mem_append]
      exact Or.inr (ih h)

/-- `unmarshalTree` writes only inside the tree's IDs. -/
theorem unmarshalTree_frame (t : RTree) :
    ∀ h x, x ∉ ridsT t → unmarshalTree t h x = h x := by
  induction t using RTree.indOnR with
  | h i c cs col ed color task comp ih =>
    intro h x hx
    simp only [ridsT_def, List.mem_cons, not_or] at hx
    have frameL : ∀ (ts : List RTree), (∀ u ∈ ts, u ∈ cs) → ∀ hh,
        x ∉ ridsL ts → unmarshalForest ts hh x = hh x := by
      intro ts
      induction ts with
      | nil => intro _ hh _; rfl
      | cons u us ihL =>
        intro hsub hh hxl
        simp only [ridsL_cons, List.mem_append, not_or] at hxl
        simp only [unmarshalForest]
        rw [ihL (fun v hv => hsub v (List.mem_cons_of_mem u hv)) _ hxl.2]
        exact ih u (hsub u (List.mem_cons_self u us)) hh x hxl.1
    simp only [unmarshalTree]
    rw [frameL cs (fun u hu => hu) _ ?_]
    · simp [hset, hx.1]
    · intro hmem
      exact hx.2 hmem

/-- `unmarshalForest` writes only inside the forest's IDs. -/
theorem unmarshalForest_frame (ts : List RTree) :
    ∀ h x, x ∉ ridsL ts → unmarshalForest ts h x = h x := by
  induction ts with
  | nil => intro _ _ _; rfl
  | cons u us ih =>
    intro h x hx
    simp only [ridsL_cons, List.mem_append, not_or] at hx
    simp only [unmarshalForest]
    rw [ih _ x hx.2]
    exact unmarshalTree_frame u h x hx.1

/-- `restoreTree` writes only inside the tree's IDs. -/
theorem restoreTree_frame (t : RTree) :
    ∀ par h x, x ∉ ridsT t → restoreTree par t h x = h x := by
  induction t using RTree.indOnR with
  | h i c cs col ed color task comp ih =>
    intro par h x hx
    simp only [ridsT_def, List.mem_cons, not_or] at hx
    have frameL : ∀ (ts : List RTree), (∀ u ∈ ts, u ∈ cs) → ∀ pp hh,
        x ∉ ridsL ts → restoreForest pp ts hh x = hh x := by
      intro ts
      induction ts with
      | nil => intro _ _ hh _; rfl
      | cons u us ihL =>
        intro hsub pp hh hxl
        simp only [ridsL_cons, List.mem_append, not_or] at hxl
        simp only [restoreForest]
        rw [ihL (fun v hv => hsub v (List.mem_cons_of_mem u hv)) _ _ hxl.2]
        exact ih u (hsub u (List.mem_cons_self u us)) pp hh x hxl.1
    simp only [restoreTree]
    rw [frameL cs (fun u hu => hu) _ _ ?_]
    · simp [modifyB, hx.1]
    · intro hmem
      exact hx.2 hmem

/-- `restoreForest` writes only inside the forest's IDs. -/
theorem restoreForest_frame (ts : List RTree) :
    ∀ par h x, x ∉ ridsL ts → restoreForest par ts h x = h x := by
  induction ts with
  | nil => intro _ _ _ _; rfl
  | cons u us ih =>
    intro par h x hx
    simp only [ridsL_cons, List.mem_append, not_or] at hx
    simp only [restoreForest]
    rw [ih _ _ x hx.2]
    exact restoreTree_frame u par h x hx.1

/-- After `json.Unmarshal`, each record node sits at its stored ID with
exactly the unmarshalled fields. -/
inductive UmT (h : Heap) : RTree → Prop
  | mk {i : Nat} {c : String} {cs : List RTree} {col ed : Bool} {color : Int}
      {task comp : Bool} :
      h i = some (recBullet (.node i c cs col ed color task comp)) →
      (∀ t ∈ cs, UmT h t) → UmT h (.node i c cs col ed color task comp)

/-- After `restoreParentRelationships`, each record node additionally carries
its reconstructed parent and a cleared edit flag. -/
inductive DecT (h : Heap) : Option Nat → RTree → Prop
  | mk {par : Option Nat} {i : Nat} {c : String} {cs : List RTree} {col ed : Bool}
      {color : Int} {task comp : Bool} :
      h i = some { recBullet (.node i c cs col ed color task comp) with
                    parent := par, isEditing := false } →
      (∀ t ∈ cs, DecT h (some i) t) →
      DecT h par (.node i c cs col ed color task comp)

theorem UmT.monoUm {h h' : Heap} (t : RTree) :
    (∀ x ∈ ridsT t, h' x = h x) → UmT h t → UmT h' t := by
  induction t using RTree.indOnR with
  | h i c cs col ed color task comp ih =>
    intro hag hum
    cases hum with
    | mk hb hcs =>
      refine UmT.mk ?_ ?_
      · rw [hag i (by simp [ridsT_def])]
        exact hb
      · intro t' ht'
        refine ih t' ht' (fun x hx => hag x ?_) (hcs t' ht')
        simp only [ridsT_def, List.mem_cons]
        exact Or.inr (mem_ridsL_of_mem ht' hx)

theorem DecT.monoDec {h h' : Heap} (t : RTree) :
    ∀ par, (∀ x ∈ ridsT t, h' x = h x) → DecT h par t → DecT h' par t := by
  induction t using RTree.indOnR with
  | h i c cs col ed color task comp ih =>
    intro par hag hdec
    cases hdec with
    | mk hb hcs =>
      refine DecT.mk ?_ ?_
      · rw [hag i (by simp [ridsT_def])]
        exact hb
      · intro t' ht'
        refine ih t' ht' (some i) (fun x hx => hag x ?_) (hcs t' ht')
        simp only [ridsT_def, List.mem_cons]
        exact Or.inr (mem_ridsL_of_mem ht' hx)

mutual

theorem unmarshalTree_correct (t : RTree) (h : Heap) (hnd : (ridsT t).Nodup) :
    UmT (unmarshalTree t h) t := by
  match t with
  | .node i c cs col ed color task comp =>
    rw [ridsT_def] at hnd
    have hi : i ∉ ridsL cs := (List.nodup_cons.mp hnd).1
    have hnd' : (ridsL cs).Nodup := (List.nodup_cons.mp hnd).2
    refine UmT.mk ?_ ?_
    · show unmarshalForest cs _ i = _
      rw [unmarshalForest_frame cs _ i hi]
      simp [hset, recBullet]
    · intro t' ht'
      exact unmarshalForest_correct cs _ hnd' t' ht'

theorem unmarshalForest_correct (ts : List RTree) (h : Heap) (hnd : (ridsL ts).Nodup) :
    ∀ t ∈ ts, UmT (unmarshalForest ts h) t := by
  match ts with
  | [] => intro t ht; cases ht
  | u :: us =>
    intro t ht
    rw [ridsL_cons] at hnd
    have hdisj : ∀ x ∈ ridsT u, x ∉ ridsL us := by
      intro x hx hx'
      exact (List.disjoint_of_nodup_append hnd) hx hx'
    rcases List.mem_cons.mp ht with rfl | ht'
    · have h1 := unmarshalTree_correct t h (hnd.of_append_left)
      refine UmT.monoUm t (fun x hx => ?_) h1
      exact unmarshalForest_frame us _ x (hdisj x hx)
    · exact unmarshalForest_correct us _ (hnd.of_append_right) t ht'

end

mutual

theorem restoreTree_correct (t : RTree) (par : Option Nat) (h : Heap)
    (hnd : (ridsT t).Nodup) (hum : UmT h t) : DecT (restoreTree par t h) par t := by
  match t with
  | .node i c cs col ed color task comp =>
    rw [ridsT_def] at hnd
    have hi : i ∉ ridsL cs := (List.nodup_cons.mp hnd).1
    have hnd' : (ridsL cs).Nodup := (List.nodup_cons.mp hnd).2
    cases hum with
    | mk hb hcs =>
      refine DecT.mk ?_ ?_
      · show restoreForest (some i) cs _ i = _
        rw [restoreForest_frame cs _ _ i hi]
        simp [modifyB, hb]
      · intro t' ht'
        refine restoreForest_correct cs (some i) _ hnd' ?_ t' ht'
        intro u hu
        refine UmT.monoUm u (fun x hx => ?_) (hcs u hu)
        have hxi : ¬ x = i := by
          intro hxi
          exact hi (hxi ▸ mem_ridsL_of_mem hu hx)
        simp [modifyB, hxi]

theorem restoreForest_correct (ts : List RTree) (par : Option Nat) (h : Heap)
    (hnd : (ridsL ts).Nodup) (hum : ∀ t ∈ ts, UmT h t) :
    ∀ t ∈ ts, DecT (restoreForest par ts h) par t := by
  match ts with
  | [] => intro t ht; cases ht
  | u :: us =>
    intro t ht
    rw [ridsL_cons] at hnd
    have hdisj : ∀ x ∈ ridsT u, x ∉ ridsL us := by
      intro x hx hx'
      exact (List.disjoint_of_nodup_append hnd) hx hx'
    rcases List.mem_cons.mp ht with rfl | ht'
    · have h1 := restoreTree_correct t par h (hnd.of_append_left)
        (hum t (List.mem_cons_self t us))
      refine DecT.monoDec t par (fun x hx => ?_) h1
      exact restoreForest_frame us par _ x (hdisj x hx)
    · refine restoreForest_correct us par _ (hnd.of_append_right) ?_ t ht'
      intro v hv
      refine UmT.monoUm v (fun x hx => ?_) (hum v (List.mem_cons_of_mem u hv))
      refine restoreTree_frame u par h x ?_
      intro hx'
      exact hdisj x hx' (mem_ridsL_of_mem hv hx)

end

theorem rtOfL_eq_map (h : Heap) (ts : List BT) : rtOfL h ts = ts.map (rtOf h) := by
  induction ts with
  | nil => rfl
  | cons t ts ih => simp [rtOfL, ih]

theorem rid_rtOf (h : Heap) (t : BT) : (rtOf h t).rid = t.addr := by
  cases t
  rfl

theorem map_rid_rtOfL (h : Heap) (ts : List BT) :
    (rtOfL h ts).map RTree.rid = ts.map BT.addr := by
  induction ts with
  | nil => rfl
  | cons t ts ih => simp [rtOfL, ih, rid_rtOf]

theorem ridsT_rtOf (h : Heap) (t : BT) : ridsT (rtOf h t) = t.addrs := by
  induction t using BT.indOn with
  | h a cs ih =>
    have : ridsL (rtOfL h cs) = BT.addrsL cs := by
      induction cs with
      | nil => rfl
      | cons u us ihL =>
        simp only [rtOfL, ridsL_cons, BT.addrsL_cons]
        rw [ih u (List.mem_cons_self u us),
          ihL (fun t' ht' => ih t' (List.mem_cons_of_mem u ht'))]
    simp only [rtOf, ridsT_def, BT.addrs_def, this]

theorem ridsL_rtOfL (h : Heap) (ts : List BT) : ridsL (rtOfL h ts) = BT.addrsL ts := by
  induction ts with
  | nil => rfl
  | cons t ts ih => simp only [rtOfL, ridsL_cons, BT.addrsL_cons, ridsT_rtOf, ih]

mutual

/-- On a represented subtree with enough fuel, the encoder emits exactly its
durable record. -/
theorem encodeBullet_adequate (h : Heap) (t : BT) (par : Option Nat) (fuel : Nat)
    (hrep : RepT h par t) (hf : BT.height t ≤ fuel) :
    encodeBullet h fuel t.addr = some (rtOf h t) := by
  match t, fuel with
  | .node a cs, 0 =>
    exact absurd hf (by simp [BT.height])
  | .node a cs, fuel + 1 =>
    cases hrep with
    | mk hb hp hc hcs =>
      have hf' : BT.heightL cs ≤ fuel := by
        simp only [BT.height] at hf
        omega
      have hrec := encodeBullets_adequate h cs (some a) fuel hcs hf'
      simp only [BT.addr, encodeBullet, hb, hc, hrec, rtOf]
      simp [bulletAt, hb]

theorem encodeBullets_adequate (h : Heap) (cs : List BT) (par : Option Nat) (fuel : Nat)
    (hrep : ∀ t ∈ cs, RepT h par t) (hf : BT.heightL cs ≤ fuel) :
    encodeBullets h fuel (cs.map BT.addr) = some (rtOfL h cs) := by
  match cs with
  | [] => simp [encodeBullets, rtOfL]
  | t :: ts =>
    have hf1 : BT.height t ≤ fuel := by
      simp only [BT.heightL] at hf
      omega
    have hf2 : BT.heightL ts ≤ fuel := by
      simp only [BT.heightL] at hf
      omega
    have h1 := encodeBullet_adequate h t par fuel (hrep t (List.mem_cons_self t ts)) hf1
    have h2 := encodeBullets_adequate h ts par fuel
      (fun u hu => hrep u (List.mem_cons_of_mem t hu)) hf2
    simp only [List.map_cons, encodeBullets, h1, h2, rtOfL]

end

theorem exists_mem_of_mem_addrsL {x : Nat} :
    ∀ {ts : List BT}, x ∈ BT.addrsL ts → ∃ t ∈ ts, x ∈ t.addrs := by
  intro ts
  induction ts with
  | nil => intro hx; cases hx
  | cons u us ih =>
    intro hx
    rw [BT.addrsL_cons, List.mem_append] at hx
    rcases hx with h1 | h1
    · exact ⟨u, List.mem_cons_self u us, h1⟩
    · obtain ⟨t, ht, hxt⟩ := ih h1
      exact ⟨t, List.mem_cons_of_mem u ht, hxt⟩

/-- A decoded record node matches the live node it was encoded from in every
field except the dropped parent and the cleared edit flag. -/
theorem decode_matches (h h' : Heap) (t : BT) :
    ∀ par par', RepT h par t → DecT h' par' (rtOf h t) →
    ∀ x ∈ t.addrs, ∃ b b', h x = some b ∧ h' x = some b'
      ∧ b'.content = b.content ∧ b'.children = b.children
      ∧ b'.collapsed = b.collapsed ∧ b'.color = b.color
      ∧ b'.isTask = b.isTask ∧ b'.completed = b.completed
      ∧ b'.isEditing = false := by
  induction t using BT.indOn with
  | h a cs ih =>
    intro par par' hrep hdec x hx
    cases hrep with
    | mk hb hp hc hcs =>
      rw [show rtOf h (.node a cs)
          = .node a (bulletAt h a).content (rtOfL h cs) (bulletAt h a).collapsed false
              (bulletAt h a).color (bulletAt h a).isTask (bulletAt h a).completed
          from rfl] at hdec
      cases hdec with
      | mk hb' hcs' =>
        rcases List.mem_cons.mp (by simpa [BT.addrs_def] using hx) with rfl | hx'
        · refine ⟨_, _, hb, hb', ?_⟩
          simp [recBullet, bulletAt, hb, map_rid_rtOfL, hc]
        · obtain ⟨t', ht', hxt'⟩ := exists_mem_of_mem_addrsL hx'
          refine ih t' ht' (some a) (some a) (hcs t' ht') ?_ x hxt'
          refine hcs' (rtOf h t') ?_
          rw [rtOfL_eq_map]
          exact List.mem_map_of_mem (rtOf h) ht'

/-- C1: for every well-formed document, decoding the encoded durable record
yields the same document: settings and root order are preserved, and every
live node keeps its content, children order and collapsed/task/completed/
color flags; only the transient edit flag (forced false on decode) and the
parent back-references (dropped on encode, reassigned top-down on decode)
are outside the comparison. -/
theorem C1_encode_decode_roundtrip (h : Heap) (roots : List Nat) (settings : Bool)
    (F : List BT) (fuel : Nat) (hrep : RepF h roots F) (hnd : (BT.addrsL F).Nodup)
    (hfuel : BT.heightL F ≤ fuel) :
    ∃ d, encodeApp h fuel roots settings = some d
      ∧ (decodeApp d).2.1 = roots
      ∧ (decodeApp d).2.2 = settings
      ∧ ∀ x ∈ BT.addrsL F, ∃ b b', h x = some b ∧ (decodeApp d).1 x = some b'
          ∧ b'.content = b.content ∧ b'.children = b.children
          ∧ b'.collapsed = b.collapsed ∧ b'.color = b.color
          ∧ b'.isTask = b.isTask ∧ b'.completed = b.completed
          ∧ b'.isEditing = false := by
  obtain ⟨hroots, htrees⟩ := hrep
  have henc : encodeApp h fuel roots settings
      = some { rootBullets := rtOfL h F, settings := settings } := by
    show (encodeBullets h fuel roots).map _ = _
    rw [hroots, encodeBullets_adequate h F none fuel htrees hfuel]
    rfl
  refine ⟨_, henc, ?_, rfl, ?_⟩
  · show (rtOfL h F).map RTree.rid = roots
    rw [map_rid_rtOfL, hroots]
  · intro x hx
    have hndr : (ridsL (rtOfL h F)).Nodup := by rwa [ridsL_rtOfL]
    obtain ⟨t, ht, hxt⟩ := exists_mem_of_mem_addrsL hx
    have hdect : DecT (decodeApp { rootBullets := rtOfL h F, settings := settings }).1
        none (rtOf h t) := by
      have hum := unmarshalForest_correct (rtOfL h F) emptyHeap hndr
      have := restoreForest_correct (rtOfL h F) none _ hndr hum (rtOf h t) ?_
      · exact this
      · rw [rtOfL_eq_map]
        exact List.mem_map_of_mem (rtOf h) ht
    exact decode_matches h _ t none none (htrees t ht) hdect x hxt

/-- A concrete two-node document: root `w` (address 0) with child `v`
(address 1), built with the source's own allocation and `AddChild`. -/
def c1h : Heap :=
  addChild (hset (hset emptyHeap 0 (newBullet "w")) 1 (newBullet "v")) 0 1

def c1F : List BT := [.node 0 [.node 1 []]]

theorem c1h_rep : RepF c1h [0] c1F := by
  refine ⟨rfl, ?_⟩
  intro t ht
  rcases List.mem_singleton.mp ht with rfl
  refine RepT.mk (b :=
    { content := "w", children := [1], parent := none, collapsed := false,
      isEditing := false, color := 0, isTask := false, completed := false })
    (by decide) rfl (by decide) ?_
  intro t' ht'
  rcases List.mem_singleton.mp ht' with rfl
  refine RepT.mk (b :=
    { content := "v", children := [], parent := some 0, collapsed := false,
      isEditing := false, color := 0, isTask := false, completed := false })
    (by decide) rfl (by decide) ?_
  intro t'' ht''
  cases ht''

/-- C1 witness: the round-trip theorem applied to the concrete two-node
document, all hypotheses discharged there. -/
theorem C1_encode_decode_roundtrip_witness :
    ((BT.addrsL c1F).Nodup ∧ BT.heightL c1F ≤ 2)
    ∧ (∃ d, encodeApp c1h 2 [0] true = some d
        ∧ (decodeApp d).2.1 = [0] ∧ (decodeApp d).2.2 = true
        ∧ ∀ x ∈ BT.addrsL c1F, ∃ b b', c1h x = some b ∧ (decodeApp d).1 x = some b'
            ∧ b'.content = b.content ∧ b'.children = b.children
            ∧ b'.collapsed = b.collapsed ∧ b'.color = b.color
            ∧ b'.isTask = b.isTask ∧ b'.completed = b.completed
            ∧ b'.isEditing = false) :=
  ⟨⟨by decide, by decide⟩,
   C1_encode_decode_roundtrip c1h [0] true c1F 2 c1h_rep (by decide) (by decide)⟩

/-! ## The visible projection on represented forests

`vdT`/`vdTL` are `GetVisibleDescendants` computed on the skeleton (no fuel);
the adequacy lemmas connect them to the fueled source functions. -/

mutual

def vdT (h : Heap) : BT → List Nat
  | .node a cs => if (bulletAt h a).collapsed then [] else vdTL h cs

def vdTL (h : Heap) : List BT → List Nat
  | [] => []
  | t :: ts => (t.addr :: vdT h t) ++ vdTL h ts

end

theorem vdT_def (h : Heap) (a : Nat) (cs : List BT) :
    vdT h (.node a cs) = if (bulletAt h a).collapsed then [] else vdTL h cs := rfl

theorem vdTL_cons (h : Heap) (t : BT) (ts : List BT) :
    vdTL h (t :: ts) = (t.addr :: vdT h t) ++ vdTL h ts := rfl

mutual

/-- With enough fuel, `GetVisibleDescendants` computes the skeleton's
visible descendants. -/
theorem gvd_adequate (h : Heap) (t : BT) (par : Option Nat) (fuel : Nat)
    (hrep : RepT h par t) (hf : BT.height t ≤ fuel) :
    getVisibleDescendants h fuel t.addr = vdT h t := by
  match t, fuel with
  | .node a cs, 0 => exact absurd hf (by simp [BT.height])
  | .node a cs, fuel + 1 =>
    cases hrep with
    | mk hb hp hc hcs =>
      rename_i b
      have hf' : BT.heightL cs ≤ fuel := by
        simp only [BT.height] at hf
        omega
      have hl := gvd_adequate_list h cs (some a) fuel hcs hf'
      simp only [BT.addr, getVisibleDescendants, hb, vdT_def, bulletAt, hb, Option.getD_some]
      cases hcol : b.collapsed with
      | true => simp [hcol]
      | false => simpa [hcol, hc] using hl

theorem gvd_adequate_list (h : Heap) (cs : List BT) (par : Option Nat) (fuel : Nat)
    (hrep : ∀ t ∈ cs, RepT h par t) (hf : BT.heightL cs ≤ fuel) :
    (cs.map BT.addr).flatMap (fun c => c :: getVisibleDescendants h fuel c) = vdTL h cs := by
  match cs with
  | [] => rfl
  | t :: ts =>
    have hf1 : BT.height t ≤ fuel := by
      simp only [BT.heightL] at hf
      omega
    have hf2 : BT.heightL ts ≤ fuel := by
      simp only [BT.heightL] at hf
      omega
    have h1 := gvd_adequate h t par fuel (hrep t (List.mem_cons_self t ts)) hf1
    have h2 := gvd_adequate_list h ts par fuel
      (fun u hu => hrep u (List.mem_cons_of_mem t hu)) hf2
    simp only [List.map_cons, List.flatMap_cons, h1, h2, vdTL_cons]

end

/-- On a represented forest with enough fuel the visible ordering is the
skeleton projection. -/
theorem visibleList_adequate_none (h : Heap) (roots : List Nat) (F : List BT) (fuel : Nat)
    (hrep : RepF h roots F) (hf : BT.heightL F ≤ fuel) :
    visibleList h fuel roots none = vdTL h F := by
  obtain ⟨hroots, htrees⟩ := hrep
  subst hroots
  exact gvd_adequate_list h F none fuel htrees hf

mutual

/-- The node-plus-visible-descendants block is a sublist of the subtree's
addresses. -/
theorem vdT_sublist (h : Heap) (t : BT) : (t.addr :: vdT h t).Sublist t.addrs := by
  match t with
  | .node a cs =>
    simp only [BT.addr, vdT_def, BT.addrs_def]
    cases (bulletAt h a).collapsed with
    | true => simp
    | false => exact List.Sublist.cons₂ a (vdTL_sublist h cs)

theorem vdTL_sublist (h : Heap) (ts : List BT) : (vdTL h ts).Sublist (BT.addrsL ts) := by
  match ts with
  | [] => exact List.Sublist.refl []
  | t :: ts =>
    rw [vdTL_cons, BT.addrsL_cons]
    exact List.Sublist.append (vdT_sublist h t) (vdTL_sublist h ts)

end

/-- Visible projections only read the cells of the subtree. -/
theorem vdT_congr (h h' : Heap) (t : BT) :
    (∀ x ∈ t.addrs, h' x = h x) → vdT h' t = vdT h t := by
  induction t using BT.indOn with
  | h a cs ih =>
    intro hag
    have hagL : ∀ t' ∈ cs, ∀ x ∈ BT.addrs t', h' x = h x := by
      intro t' ht' x hx
      refine hag x ?_
      simp only [BT.addrs_def, List.mem_cons]
      exact Or.inr (BT.mem_addrsL_of_mem ht' hx)
    have hcell : h' a = h a := hag a (by simp [BT.addrs_def])
    simp only [vdT_def, bulletAt, hcell]
    have : vdTL h' cs = vdTL h cs := by
      clear hag hcell
      induction cs with
      | nil => rfl
      | cons u us ihL =>
        simp only [vdTL_cons]
        rw [ih u (List.mem_cons_self u us) (hagL u (List.mem_cons_self u us)),
          ihL (fun t' ht' => ih t' (List.mem_cons_of_mem u ht'))
            (fun t' ht' => hagL t' (List.mem_cons_of_mem u ht'))]
    rw [this]

theorem vdTL_congr (h h' : Heap) (ts : List BT) :
    (∀ x ∈ BT.addrsL ts, h' x = h x) → vdTL h' ts = vdTL h ts := by
  induction ts with
  | nil => intro _; rfl
  | cons u us ih =>
    intro hag
    simp only [vdTL_cons]
    rw [vdT_congr h h' u (fun x hx => hag x (BT.mem_addrsL_of_mem (List.mem_cons_self u us) hx)),
      ih (fun x hx => hag x ?_)]
    rw [BT.addrsL_cons]
    exact List.mem_append_right _ hx

mutual

/-- Subtree lookup by address (first match; the unique one on nodup trees). -/
def findA (x : Nat) : BT → Option BT
  | .node a cs => if x = a then some (.node a cs) else findAL x cs

def findAL (x : Nat) : List BT → Option BT
  | [] => none
  | t :: ts =>
    match findA x t with
    | some r => some r
    | none => findAL x ts

end

theorem findA_def (x a : Nat) (cs : List BT) :
    findA x (.node a cs) = if x = a then some (.node a cs) else findAL x cs := rfl

mutual

theorem findA_isSome_of_mem (x : Nat) (t : BT) (hx : x ∈ t.addrs) :
    (findA x t).isSome := by
  match t with
  | .node a cs =>
    rw [findA_def]
    by_cases hxa : x = a
    · simp [hxa]
    · rw [if_neg hxa]
      rcases List.mem_cons.mp (by simpa [BT.addrs_def] using hx) with h | h
      · exact absurd h hxa
      · exact findAL_isSome_of_mem x cs h

theorem findAL_isSome_of_mem (x : Nat) (ts : List BT) (hx : x ∈ BT.addrsL ts) :
    (findAL x ts).isSome := by
  match ts with
  | [] => cases hx
  | t :: ts =>
    rw [BT.addrsL_cons, List.mem_append] at hx
    show (match findA x t with
      | some r => some r
      | none => findAL x ts).isSome
    rcases hx with h | h
    · have := findA_isSome_of_mem x t h
      cases hf : findA x t with
      | none => rw [hf] at this; cases this
      | some r => simp [hf]
    · cases hf : findA x t with
      | none => simpa [hf] using findAL_isSome_of_mem x ts h
      | some r => simp [hf]

end

mutual

theorem findA_addr_sub (x : Nat) (t : BT) (u : BT) (hu : findA x t = some u) :
    u.addr = x ∧ (∀ y ∈ u.addrs, y ∈ t.addrs) := by
  match t with
  | .node a cs =>
    rw [findA_def] at hu
    by_cases hxa : x = a
    · rw [if_pos hxa] at hu
      cases hu
      exact ⟨hxa.symm ▸ rfl, fun y hy => hy⟩
    · rw [if_neg hxa] at hu
      obtain ⟨haddr, hsub⟩ := findAL_addr_sub x cs u hu
      refine ⟨haddr, fun y hy => ?_⟩
      simp only [BT.addrs_def, List.mem_cons]
      exact Or.inr (hsub y hy)

theorem findAL_addr_sub (x : Nat) (ts : List BT) (u : BT) (hu : findAL x ts = some u) :
    u.addr = x ∧ (∀ y ∈ u.addrs, y ∈ BT.addrsL ts) := by
  match ts with
  | [] => cases hu
  | t :: ts =>
    have hu' : (match findA x t with
      | some r => some r
      | none => findAL x ts) = some u := hu
    cases hf : findA x t with
    | some r =>
      rw [hf] at hu'
      cases hu'
      obtain ⟨haddr, hsub⟩ := findA_addr_sub x t u hf
      refine ⟨haddr, fun y hy => ?_⟩
      rw [BT.addrsL_cons, List.mem_append]
      exact Or.inl (hsub y hy)
    | none =>
      rw [hf] at hu'
      obtain ⟨haddr, hsub⟩ := findAL_addr_sub x ts u hu'
      refine ⟨haddr, fun y hy => ?_⟩
      rw [BT.addrsL_cons, List.mem_append]
      exact Or.inr (hsub y hy)

end

mutual

/-- The found subtree is itself represented (with the parent it has in the
heap). -/
theorem findA_rep (h : Heap) (x : Nat) (t : BT) (par : Option Nat) (u : BT)
    (hrep : RepT h par t) (hu : findA x t = some u) :
    ∃ pu, RepT h pu u := by
  match t with
  | .node a cs =>
    rw [findA_def] at hu
    by_cases hxa : x = a
    · rw [if_pos hxa] at hu
      cases hu
      exact ⟨par, hrep⟩
    · rw [if_neg hxa] at hu
      cases hrep with
      | mk hb hp hc hcs =>
        exact findAL_rep h x cs (some a) u hcs hu

theorem findAL_rep (h : Heap) (x : Nat) (ts : List BT) (par : Option Nat) (u : BT)
    (hrep : ∀ t ∈ ts, RepT h par t) (hu : findAL x ts = some u) :
    ∃ pu, RepT h pu u := by
  match ts with
  | [] => cases hu
  | t :: ts =>
    have hu' : (match findA x t with
      | some r => some r
      | none => findAL x ts) = some u := hu
    cases hf : findA x t with
    | some r =>
      rw [hf] at hu'
      cases hu'
      exact findA_rep h x t par u (hrep t (List.mem_cons_self t ts)) hf
    | none =>
      rw [hf] at hu'
      exact findAL_rep h x ts par u (fun v hv => hrep v (List.mem_cons_of_mem t hv)) hu'

end

theorem mem_of_findA_some {x : Nat} {t u : BT} (hu : findA x t = some u) :
    x ∈ t.addrs := by
  obtain ⟨haddr, hsub⟩ := findA_addr_sub x t u hu
  exact haddr ▸ hsub u.addr (BT.addr_mem_addrs u)

theorem findA_none_of_not_mem {x : Nat} {t : BT} (hx : x ∉ t.addrs) :
    findA x t = none := by
  cases hf : findA x t with
  | none => rfl
  | some u => exact absurd (mem_of_findA_some hf) hx

mutual

theorem findA_height {x : Nat} (t : BT) {u : BT} (hu : findA x t = some u) :
    u.height ≤ t.height := by
  match t with
  | .node a cs =>
    rw [findA_def] at hu
    by_cases hxa : x = a
    · rw [if_pos hxa] at hu
      cases hu
      exact Nat.le_refl _
    · rw [if_neg hxa] at hu
      have := findAL_height cs hu
      simp only [BT.height]
      omega

theorem findAL_height {x : Nat} (ts : List BT) {u : BT} (hu : findAL x ts = some u) :
    u.height ≤ BT.heightL ts := by
  match ts with
  | [] => cases hu
  | t :: ts =>
    have hu' : (match findA x t with
      | some r => some r
      | none => findAL x ts) = some u := hu
    cases hf : findA x t with
    | some r =>
      rw [hf] at hu'
      cases hu'
      have := findA_height t hf
      simp only [BT.heightL]
      omega
    | none =>
      rw [hf] at hu'
      have := findAL_height ts hu'
      simp only [BT.heightL]
      omega

end

/-- Every address of a represented tree is allocated. -/
theorem RepT.lookup {h : Heap} (t : BT) :
    ∀ par, RepT h par t → ∀ x ∈ t.addrs, ∃ b, h x = some b := by
  induction t using BT.indOn with
  | h a cs ih =>
    intro par hrep x hx
    cases hrep with
    | mk hb hp hc hcs =>
      rcases List.mem_cons.mp (by simpa [BT.addrs_def] using hx) with rfl | hx'
      · exact ⟨_, hb⟩
      · obtain ⟨t', ht', hxt'⟩ := exists_mem_of_mem_addrsL hx'
        exact ih t' ht' (some a) (hcs t' ht') x hxt'

/-- Representation is stable under changing only the data fields (not
children, not parent) of one cell. -/
theorem RepT.data_congr {h h2 : Heap} {s : Nat}
    (hoff : ∀ x, x ≠ s → h2 x = h x)
    (hcell : ∀ b, h s = some b → ∃ b2, h2 s = some b2
      ∧ b2.children = b.children ∧ b2.parent = b.parent) :
    ∀ (t : BT) par, RepT h par t → RepT h2 par t := by
  intro t
  induction t using BT.indOn with
  | h a cs ih =>
    intro par hrep
    cases hrep with
    | mk hb hp hc hcs =>
      by_cases has : a = s
      · subst has
        obtain ⟨b2, hb2, hch, hpar⟩ := hcell _ hb
        exact RepT.mk hb2 (hpar.trans hp) (hch.trans hc)
          (fun t' ht' => ih t' ht' (some a) (hcs t' ht'))
      · refine RepT.mk ?_ hp hc (fun t' ht' => ih t' ht' (some a) (hcs t' ht'))
        rw [hoff a has]
        exact hb

mutual

/-- Changing only the collapse flag of cell `s` (children and parent kept)
changes the visible projection of a represented tree by exactly the block of
`s`'s previously/newly visible descendants: when `s` is visible in the tree
the lengths balance against the two blocks, when `s` is hidden nothing
changes. -/
theorem vdT_toggle_len (h h2 : Heap) (s : Nat)
    (hoff : ∀ x, x ≠ s → h2 x = h x)
    (hcell : ∀ b, h s = some b → ∃ b2, h2 s = some b2
      ∧ b2.children = b.children ∧ b2.parent = b.parent)
    (t : BT) (par : Option Nat) (hrep : RepT h par t) (hnd : t.addrs.Nodup)
    (hmem : s ∈ t.addrs) (u : BT) (hu : findA s t = some u) :
    (s ∈ t.addr :: vdT h t →
      (vdT h2 t).length + (vdT h u).length = (vdT h t).length + (vdT h2 u).length)
    ∧ (s ∉ t.addr :: vdT h t → vdT h2 t = vdT h t) := by
  match t with
  | .node a cs =>
    cases hrep with
    | mk hb hp hc hcs =>
      rename_i b
      rw [BT.addrs_def] at hnd hmem
      have hndL : (BT.addrsL cs).Nodup := hnd.of_cons
      have hanL : a ∉ BT.addrsL cs := (List.nodup_cons.mp hnd).1
      by_cases has : s = a
      · -- the toggled node is the root of this subtree
        subst has
        rw [findA_def, if_pos rfl] at hu
        cases hu
        obtain ⟨b2, hb2, hch, hpar⟩ := hcell _ hb
        constructor
        · intro _
          have hvd2 : vdTL h2 cs = vdTL h cs := by
            refine vdTL_congr h h2 cs (fun x hx => hoff x ?_)
            intro hxs
            exact hanL (hxs ▸ hx)
          simp only [vdT_def, bulletAt, hb, hb2, Option.getD_some, hvd2]
          cases b.collapsed <;> cases b2.collapsed <;> simp [Nat.add_comm]
        · intro hnv
          exact absurd (List.mem_cons_self _ _) hnv
      · -- the toggled node is in one of the child subtrees
        have hmem' : s ∈ BT.addrsL cs := by
          rcases List.mem_cons.mp hmem with h1 | h1
          · exact absurd h1 has
          · exact h1
        rw [findA_def, if_neg has] at hu
        have hcell_a : h2 a = h a := hoff a (fun hsa => has hsa.symm)
        have key := vdTL_toggle_len h h2 s hoff hcell cs (some a) hcs hndL hmem' u hu
        constructor
        · intro hv
          have hv' : s ∈ vdTL h cs := by
            rcases List.mem_cons.mp hv with h1 | h1
            · exact absurd (by simpa [BT.addr] using h1) has
            · -- s visible below the (necessarily expanded) root
              simp only [vdT_def, bulletAt, hb, Option.getD_some] at h1
              by_cases hcol : b.collapsed
              · rw [if_pos hcol] at h1
                cases h1
              · rwa [if_neg hcol] at h1
          have hexp : b.collapsed = false := by
            by_contra hcol
            rw [Bool.not_eq_false] at hcol
            have : vdT h (.node a cs) = [] := by
              simp [vdT_def, bulletAt, hb, hcol]
            rcases List.mem_cons.mp hv with h1 | h1
            · exact has (by simpa [BT.addr] using h1)
            · rw [this] at h1
              cases h1
          simp only [vdT_def, bulletAt, hb, hcell_a, Option.getD_some, hexp,
            Bool.false_eq_true, if_false]
          exact key.1 hv'
        · intro hnv
          have hnv' : b.collapsed = true ∨ s ∉ vdTL h cs := by
            by_cases hcol : b.collapsed
            · exact Or.inl hcol
            · refine Or.inr (fun hsv => hnv ?_)
              refine List.mem_cons_of_mem _ ?_
              simp [vdT_def, bulletAt, hb, hcol, hsv]
          simp only [vdT_def, bulletAt, hb, hcell_a, Option.getD_some]
          rcases hnv' with hcol | hsv
          · simp [hcol]
          · rw [key.2 hsv]

theorem vdTL_toggle_len (h h2 : Heap) (s : Nat)
    (hoff : ∀ x, x ≠ s → h2 x = h x)
    (hcell : ∀ b, h s = some b → ∃ b2, h2 s = some b2
      ∧ b2.children = b.children ∧ b2.parent = b.parent)
    (ts : List BT) (par : Option Nat) (hrep : ∀ t ∈ ts, RepT h par t)
    (hnd : (BT.addrsL ts).Nodup) (hmem : s ∈ BT.addrsL ts)
    (u : BT) (hu : findAL s ts = some u) :
    (s ∈ vdTL h ts →
      (vdTL h2 ts).length + (vdT h u).length = (vdTL h ts).length + (vdT h2 u).length)
    ∧ (s ∉ vdTL h ts → vdTL h2 ts = vdTL h ts) := by
  match ts with
  | [] => cases hmem
  | t :: ts =>
    rw [BT.addrsL_cons] at hnd hmem
    have hnd1 : t.addrs.Nodup := hnd.of_append_left
    have hnd2 : (BT.addrsL ts).Nodup := hnd.of_append_right
    have hdisj : ∀ x ∈ t.addrs, x ∉ BT.addrsL ts := by
      intro x hx hx'
      exact (List.disjoint_of_nodup_append hnd) hx hx'
    have hu' : (match findA s t with
      | some r => some r
      | none => findAL s ts) = some u := hu
    by_cases hst : s ∈ t.addrs
    · -- s sits in the head tree; the tail is untouched
      have hsnotts : s ∉ BT.addrsL ts := hdisj s hst
      have htail : vdTL h2 ts = vdTL h ts := by
        refine vdTL_congr h h2 ts (fun x hx => hoff x ?_)
        intro hxs
        exact hsnotts (hxs ▸ hx)
      cases hf : findA s t with
      | none => exact absurd (findA_isSome_of_mem s t hst) (by simp [hf])
      | some r =>
        rw [hf] at hu'
        cases hu'
        have key := vdT_toggle_len h h2 s hoff hcell t par
          (hrep t (List.mem_cons_self t ts)) hnd1 hst u hf
        have hsnottailvd : s ∉ vdTL h ts := by
          intro hsv
          exact hsnotts (List.Sublist.mem hsv (vdTL_sublist h ts))
        constructor
        · intro hv
          have hv' : s ∈ t.addr :: vdT h t := by
            rw [vdTL_cons, List.mem_append] at hv
            rcases hv with h1 | h1
            · exact h1
            · exact absurd h1 hsnottailvd
          have := key.1 hv'
          simp only [vdTL_cons, List.length_append, List.length_cons, htail]
          omega
        · intro hnv
          rw [vdTL_cons, List.mem_append, not_or] at hnv
          rw [vdTL_cons, vdTL_cons, htail]
          have hroot : vdT h2 t = vdT h t := key.2 hnv.1
          rw [hroot]
    · -- s sits in the tail
      have hsmem' : s ∈ BT.addrsL ts := by
        rcases List.mem_append.mp hmem with h1 | h1
        · exact absurd h1 hst
        · exact h1
      have hf : findA s t = none := findA_none_of_not_mem hst
      rw [hf] at hu'
      have hhead : vdT h2 t = vdT h t := by
        refine vdT_congr h h2 t (fun x hx => hoff x ?_)
        intro hxs
        exact hst (hxs ▸ hx)
      have hsnotheadvd : s ∉ t.addr :: vdT h t := by
        intro hsv
        exact hst (List.Sublist.mem hsv (vdT_sublist h t))
      have key := vdTL_toggle_len h h2 s hoff hcell ts par
        (fun v hv => hrep v (List.mem_cons_of_mem t hv)) hnd2 hsmem' u hu'
      constructor
      · intro hv
        have hv' : s ∈ vdTL h ts := by
          rw [vdTL_cons, List.mem_append] at hv
          rcases hv with h1 | h1
          · exact absurd h1 hsnotheadvd
          · exact h1
        have := key.1 hv'
        simp only [vdTL_cons, List.length_append, hhead]
        omega
      · intro hnv
        rw [vdTL_cons, List.mem_append, not_or] at hnv
        rw [vdTL_cons, vdTL_cons, hhead, key.2 hnv.2]

end

/-! ## C9: collapse and the visible projection -/

/-- The full pre-order traversal of a subtree, collapse flags ignored (every
descendant, visible or not). -/
def fullTraversal (h : Heap) : Nat → Nat → List Nat
  | 0, _ => []
  | fuel + 1, a => a :: (childrenOf h a).flatMap (fullTraversal h fuel)

/-- A three-node chain 0 → 1 → 2 with the middle node collapsed. -/
def m9h : Heap :=
  modifyB
    (addChild
      (addChild
        (hset (hset (hset emptyHeap 0 (newBullet "a")) 1 (newBullet "b")) 2 (newBullet "c"))
        0 1)
      1 2)
    1 toggleB

def m9 : Model := ⟨m9h, 3, [0], [0, 1], 0, none, [], true⟩

/-- C9: the claim is false as stated: node 0 has two descendants, but since
node 1 is itself collapsed, collapsing node 0 removes only one entry from
the visible projection, not two. -/
theorem C9_counterexample :
    (fullTraversal m9.heap m9.next 0).length - 1 = 2
    ∧ m9.allBullets = visibleList m9.heap m9.next m9.rootBullets m9.zoomedBullet
    ∧ m9.allBullets.length - (toggleCollapse m9).allBullets.length = 1
    ∧ m9.allBullets.length - (toggleCollapse m9).allBullets.length
        ≠ (fullTraversal m9.heap m9.next 0).length - 1 := by
  refine ⟨by decide, by decide, by decide, by decide⟩

theorem toggleB_invol (b : Bullet) : toggleB (toggleB b) = b := by
  by_cases hc : b.children.length > 0
  · simp [toggleB, hc]
  · simp [toggleB, hc]

/-- C9 (amended): collapsing the selected node removes from the visible
projection exactly its *currently visible* descendants (`N` counts only
descendants not already hidden under an inner collapsed node), expanding a
collapsed node restores exactly its then-visible descendants, and collapsing
then expanding restores the visible projection exactly. -/
theorem C9_collapse_visible_count (m : Model) (s : Nat) (F : List BT)
    (hrep : RepF m.heap m.rootBullets F) (hnd : (BT.addrsL F).Nodup)
    (hfuel : BT.heightL F ≤ m.next) (hzoom : m.zoomedBullet = none)
    (hcons : m.allBullets = visibleList m.heap m.next m.rootBullets m.zoomedBullet)
    (hsel : getSelectedBullet m = some s) :
    ((bulletAt m.heap s).collapsed = false →
      m.allBullets.length
        = (toggleCollapse m).allBullets.length
          + (getVisibleDescendants m.heap m.next s).length)
    ∧ ((bulletAt m.heap s).collapsed = true →
      (toggleCollapse m).allBullets.length
        = m.allBullets.length
          + (getVisibleDescendants (toggleCollapse m).heap m.next s).length)
    ∧ visibleList (modifyB (modifyB m.heap s toggleB) s toggleB) m.next m.rootBullets
        m.zoomedBullet = visibleList m.heap m.next m.rootBullets m.zoomedBullet := by
  have hvd : m.allBullets = vdTL m.heap F := by
    rw [hcons, hzoom]
    exact visibleList_adequate_none m.heap m.rootBullets F m.next hrep hfuel
  have hsvis : s ∈ vdTL m.heap F := by
    rw [← hvd]
    have : s ∈ m.allBullets := by
      have h1 : m.allBullets[m.selectedIndex]? = some s := hsel
      exact List.getElem?_mem h1
    exact this
  have hsmem : s ∈ BT.addrsL F := List.Sublist.mem hsvis (vdTL_sublist m.heap F)
  obtain ⟨bs, hbs⟩ : ∃ b, m.heap s = some b := by
    obtain ⟨t, ht, hxt⟩ := exists_mem_of_mem_addrsL hsmem
    exact RepT.lookup t none (hrep.2 t ht) s hxt
  set h2 := modifyB m.heap s toggleB with hh2
  have hoff : ∀ x, x ≠ s → h2 x = m.heap x := by
    intro x hx
    simp [hh2, modifyB, hx]
  have hcell : ∀ b, m.heap s = some b → ∃ b2, h2 s = some b2
      ∧ b2.children = b.children ∧ b2.parent = b.parent := by
    intro b hb
    refine ⟨toggleB b, ?_, ?_, ?_⟩
    · simp [hh2, modifyB, hb]
    · by_cases hc : b.children.length > 0 <;> simp [toggleB, hc]
    · by_cases hc : b.children.length > 0 <;> simp [toggleB, hc]
  obtain ⟨u, hu⟩ : ∃ u, findAL s F = some u := by
    have := findAL_isSome_of_mem s F hsmem
    cases hf : findAL s F with
    | none => rw [hf] at this; cases this
    | some u => exact ⟨u, rfl⟩
  have huaddr : u.addr = s := (findAL_addr_sub s F u hu).1
  obtain ⟨pu, hurep⟩ := findAL_rep m.heap s F none u hrep.2 hu
  have huheight : u.height ≤ m.next := le_trans (findAL_height F hu) hfuel
  have hurep2 : RepT h2 pu u := RepT.data_congr hoff hcell u pu hurep
  have hrep2 : RepF h2 m.rootBullets F :=
    ⟨hrep.1, fun t ht => RepT.data_congr hoff hcell t none (hrep.2 t ht)⟩
  have key := vdTL_toggle_len m.heap h2 s hoff hcell F none hrep.2 hnd hsmem u hu
  have hkey := key.1 hsvis
  have htog : toggleCollapse m = rebuildVisibleList { m with heap := h2 } := by
    simp only [toggleCollapse, hsel, hh2]
  have hnewvis : (toggleCollapse m).allBullets = vdTL h2 F := by
    rw [htog]
    show visibleList h2 m.next m.rootBullets m.zoomedBullet = _
    rw [hzoom]
    exact visibleList_adequate_none h2 m.rootBullets F m.next hrep2 hfuel
  have hgvd_old : getVisibleDescendants m.heap m.next s = vdT m.heap u := by
    have := gvd_adequate m.heap u pu m.next hurep huheight
    rwa [huaddr] at this
  have hgvd_new : getVisibleDescendants h2 m.next s = vdT h2 u := by
    have := gvd_adequate h2 u pu m.next hurep2 huheight
    rwa [huaddr] at this
  refine ⟨?_, ?_, ?_⟩
  · intro hexp
    have hvd2u : vdT h2 u = [] := by
      cases u with
      | node a cs =>
        have ha : a = s := by simpa [BT.addr] using huaddr
        subst ha
        rw [vdT_def]
        have hb2 : h2 a = some (toggleB bs) := by
          simp [hh2, modifyB, hbs]
        by_cases hc : bs.children.length > 0
        · have hcol2 : (toggleB bs).collapsed = true := by
            have hexp' : bs.collapsed = false := by
              simpa [bulletAt, hbs] using hexp
            simp [toggleB, hc, hexp']
          simp [bulletAt, hb2, hcol2]
        · have hcs : cs = [] := by
            cases hurep with
            | mk hb hp hcch hccs =>
              rw [hbs] at hb
              cases hb
              have hbc : bs.children = [] := by
                cases hcl : bs.children with
                | nil => rfl
                | cons y ys => rw [hcl] at hc; simp at hc
              rw [hbc] at hcch
              cases cs with
              | nil => rfl
              | cons v vs => simp at hcch
          subst hcs
          cases hcol : (bulletAt h2 a).collapsed <;> simp [vdTL, hcol]
    rw [hnewvis, hvd, hgvd_old]
    rw [hvd2u] at hkey
    simp only [List.length_nil, Nat.add_zero] at hkey
    omega
  · intro hcol
    have hvdu : vdT m.heap u = [] := by
      cases u with
      | node a cs =>
        have ha : a = s := by simpa [BT.addr] using huaddr
        subst ha
        rw [vdT_def]
        simp only [bulletAt, hbs, Option.getD_some] at hcol ⊢
        simp [hcol]
    rw [hnewvis, hvd]
    have hheap_eq : (toggleCollapse m).heap = h2 := by
      rw [htog]
      rfl
    rw [hheap_eq, hgvd_new]
    rw [hvdu] at hkey
    simp only [List.length_nil, Nat.add_zero] at hkey
    omega
  · have hinv : modifyB (modifyB m.heap s toggleB) s toggleB = m.heap := by
      funext x
      by_cases hx : x = s
      · subst hx
        simp [modifyB, hbs, toggleB_invol]
      · simp [modifyB, hx]
    rw [hinv]

/-- A concrete document for the C9 witness: root 0 with children 1 and 2,
child 1 expanded with child 3. -/
def m9wh : Heap :=
  addChild
    (addChild
      (addChild
        (hset (hset (hset (hset emptyHeap 0 (newBullet "a")) 1 (newBullet "b"))
          2 (newBullet "c")) 3 (newBullet "d"))
        0 1)
      0 2)
    1 3

def m9w : Model := ⟨m9wh, 4, [0], [0, 1, 3, 2], 1, none, [], true⟩

def m9F : List BT := [.node 0 [.node 1 [.node 3 []], .node 2 []]]

theorem m9w_rep : RepF m9wh [0] m9F := by
  refine ⟨rfl, ?_⟩
  intro t ht
  rcases List.mem_singleton.mp ht with rfl
  refine RepT.mk (b :=
    { content := "a", children := [1, 2], parent := none, collapsed := false,
      isEditing := false, color := 0, isTask := false, completed := false })
    (by decide) rfl (by decide) ?_
  intro t' ht'
  rcases List.mem_cons.mp ht' with rfl | ht''
  · refine RepT.mk (b :=
      { content := "b", children := [3], parent := some 0, collapsed := false,
        isEditing := false, color := 0, isTask := false, completed := false })
      (by decide) rfl (by decide) ?_
    intro t'' ht''
    rcases List.mem_singleton.mp ht'' with rfl
    refine RepT.mk (b :=
      { content := "d", children := [], parent := some 1, collapsed := false,
        isEditing := false, color := 0, isTask := false, completed := false })
      (by decide) rfl (by decide) ?_
    intro t3 ht3
    cases ht3
  · rcases List.mem_singleton.mp ht'' with rfl
    refine RepT.mk (b :=
      { content := "c", children := [], parent := some 0, collapsed := false,
        isEditing := false, color := 0, isTask := false, completed := false })
      (by decide) rfl (by decide) ?_
    intro t3 ht3
    cases ht3

/-- C9 witness: collapsing node 1 (one visible descendant) on the concrete
document removes exactly one visible entry. -/
theorem C9_collapse_visible_count_witness :
    ((BT.addrsL m9F).Nodup ∧ BT.heightL m9F ≤ m9w.next
      ∧ m9w.zoomedBullet = none
      ∧ m9w.allBullets = visibleList m9w.heap m9w.next m9w.rootBullets m9w.zoomedBullet
      ∧ getSelectedBullet m9w = some 1
      ∧ (bulletAt m9w.heap 1).collapsed = false)
    ∧ m9w.allBullets.length
        = (toggleCollapse m9w).allBullets.length
          + (getVisibleDescendants m9w.heap m9w.next 1).length :=
  ⟨⟨by decide, by decide, rfl, by decide, by decide, by decide⟩,
   (C9_collapse_visible_count m9w 1 m9F m9w_rep (by decide) (by decide) rfl
     (by decide) (by decide)).1 (by decide)⟩

/-! ## C8: indent -/

theorem findIdxPos_none_of_not_mem {l : List Nat} {s : Nat} (h : s ∉ l) :
    ∀ k, findIdxPos l s k = none := by
  induction l with
  | nil => intro k; rfl
  | cons b rest ih =>
    intro k
    have hbs : ¬ (b = s ∧ k > 0) := by
      intro ⟨h1, _⟩
      exact h (h1 ▸ List.mem_cons_self b rest)
    simp only [findIdxPos, if_neg hbs]
    exact ih (fun hm => h (List.mem_cons_of_mem b hm)) (k + 1)

/-- The `i > 0` guard in the Go loop: a first element never matches. -/
theorem findIdxPos_head_none {l : List Nat} {s : Nat}
    (hh : l.head? = some s) (ht : s ∉ l.tail) : findIdxPos l s 0 = none := by
  cases l with
  | nil => cases hh
  | cons b rest =>
    have hb : b = s := by simpa using hh
    simp only [List.tail_cons] at ht
    simp only [findIdxPos, hb]
    rw [if_neg (by simp)]
    exact findIdxPos_none_of_not_mem ht 1

theorem findIdxPos_at {s : Nat} :
    ∀ (l : List Nat) (i k : Nat), l.Nodup → l[i]? = some s → 1 ≤ k + i →
      findIdxPos l s k = some (k + i) := by
  intro l
  induction l with
  | nil => intro i k _ h _; simp at h
  | cons b rest ih =>
    intro i k hnd hi hk
    match i with
    | 0 =>
      have hb : b = s := by simpa using hi
      subst hb
      have hkpos : k > 0 := by omega
      simp [findIdxPos, hkpos]
    | j + 1 =>
      have hj : rest[j]? = some s := by simpa using hi
      have hmem : s ∈ rest := List.getElem?_mem hj
      have hbs : ¬ (b = s ∧ k > 0) := by
        intro ⟨h1, _⟩
        exact (List.nodup_cons.mp hnd).1 (h1 ▸ hmem)
      simp only [findIdxPos, if_neg hbs]
      have := ih j (k + 1) (List.nodup_cons.mp hnd).2 hj (by omega)
      rw [this]
      congr 1
      omega

theorem erase_eq_eraseIdx_of_nodup {s : Nat} :
    ∀ (l : List Nat) (i : Nat), l.Nodup → l[i]? = some s → l.erase s = l.eraseIdx i := by
  intro l
  induction l with
  | nil => intro i _ h; simp at h
  | cons b rest ih =>
    intro i hnd hi
    match i with
    | 0 =>
      have hb : b = s := by simpa using hi
      subst hb
      simp [List.erase_cons]
    | j + 1 =>
      have hj : rest[j]? = some s := by simpa using hi
      have hmem : s ∈ rest := List.getElem?_mem hj
      have hbs : b ≠ s := fun h1 => (List.nodup_cons.mp hnd).1 (h1 ▸ hmem)
      simp only [List.erase_cons, List.eraseIdx_cons_succ, beq_iff_eq, if_neg hbs]
      rw [ih j (List.nodup_cons.mp hnd).2 hj]

/-- C8: `indent` makes the selected node the last child of its previous
sibling — the previous child of its parent, or the previous root node when
the node is itself a root, which is then removed from the root list — and
clears the new parent's collapsed flag; when the node is the first child of
its parent, or the first root node, it is a silent no-op that leaves the
document (heap, root list, settings) unchanged. -/
theorem C8_indent (m : Model) (s : Nat) (hsel : getSelectedBullet m = some s) :
    (∀ p, parentOf m.heap s = some p → (childrenOf m.heap p).head? = some s →
      s ∉ (childrenOf m.heap p).tail →
      (indentBullet m).heap = m.heap ∧ (indentBullet m).rootBullets = m.rootBullets
      ∧ (indentBullet m).settings = m.settings)
    ∧ (parentOf m.heap s = none → m.rootBullets.head? = some s →
      s ∉ m.rootBullets.tail →
      (indentBullet m).heap = m.heap ∧ (indentBullet m).rootBullets = m.rootBullets
      ∧ (indentBullet m).settings = m.settings)
    ∧ (∀ p i prev, parentOf m.heap s = some p → m.selectedIndex ≠ 0 →
      (childrenOf m.heap p).Nodup →
      (childrenOf m.heap p)[i]? = some s → 1 ≤ i →
      (childrenOf m.heap p)[i - 1]? = some prev →
      p ≠ s → prev ≠ s → prev ≠ p → (m.heap prev).isSome →
      childrenOf (indentBullet m).heap prev = childrenOf m.heap prev ++ [s]
      ∧ parentOf (indentBullet m).heap s = some prev
      ∧ (bulletAt (indentBullet m).heap prev).collapsed = false
      ∧ childrenOf (indentBullet m).heap p = (childrenOf m.heap p).eraseIdx i
      ∧ (indentBullet m).rootBullets = m.rootBullets)
    ∧ (∀ i prev, parentOf m.heap s = none → m.selectedIndex ≠ 0 →
      m.rootBullets.Nodup →
      m.rootBullets[i]? = some s → 1 ≤ i →
      m.rootBullets[i - 1]? = some prev →
      prev ≠ s → (m.heap s).isSome → (m.heap prev).isSome →
      childrenOf (indentBullet m).heap prev = childrenOf m.heap prev ++ [s]
      ∧ parentOf (indentBullet m).heap s = some prev
      ∧ (bulletAt (indentBullet m).heap prev).collapsed = false
      ∧ (indentBullet m).rootBullets = m.rootBullets.eraseIdx i) := by
  refine ⟨?_, ?_, ?_, ?_⟩
  · intro p hpar hhead htail
    by_cases hidx : m.selectedIndex = 0
    · simp [indentBullet, hsel, hidx]
    · have hnone := findIdxPos_head_none hhead htail
      simp only [indentBullet, hsel, hidx, hpar, hnone, if_false]
      exact ⟨rfl, rfl, rfl⟩
  · intro hpar hhead htail
    by_cases hidx : m.selectedIndex = 0
    · simp [indentBullet, hsel, hidx]
    · have hnone := findIdxPos_head_none hhead htail
      simp only [indentBullet, hsel, hidx, hpar, hnone, if_false]
      exact ⟨rfl, rfl, rfl⟩
  · intro p i prev hpar hidx hnd hi h1i hprev hps hprs hprp hprevsome
    have hfind : findIdxPos (childrenOf m.heap p) s 0 = some i := by
      have := findIdxPos_at (childrenOf m.heap p) i 0 hnd (by simpa using hi) (by omega)
      simpa using this
    have hsmem : s ∈ childrenOf m.heap p := List.getElem?_mem hi
    obtain ⟨bp, hbp⟩ : ∃ b, m.heap p = some b := by
      cases hhp : m.heap p with
      | none => rw [childrenOf, hhp] at hsmem; cases hsmem
      | some b => exact ⟨b, rfl⟩
    obtain ⟨bs, hbs⟩ : ∃ b, m.heap s = some b := by
      cases hhs : m.heap s with
      | none => rw [parentOf, hhs] at hpar; cases hpar
      | some b => exact ⟨b, rfl⟩
    obtain ⟨bprev, hbprev⟩ : ∃ b, m.heap prev = some b := by
      cases hhp : m.heap prev with
      | none => rw [hhp] at hprevsome; cases hprevsome
      | some b => exact ⟨b, rfl⟩
    have hsmem' : s ∈ bp.children := by rwa [childrenOf, hbp] at hsmem
    set hrm := removeChild m.heap p s with hhrm
    have hrm_prev : hrm prev = m.heap prev := by
      simp only [hhrm, removeChild, hbp]
      rw [if_pos hsmem']
      simp [setParent, modifyB, hprp, hprs]
    have hrm_p : hrm p = some { bp with children := bp.children.erase s } := by
      simp only [hhrm, removeChild, hbp]
      rw [if_pos hsmem']
      simp [setParent, modifyB, hbp, hps]
    have hrm_s : hrm s = some { bs with parent := none } := by
      simp only [hhrm, removeChild, hbp]
      rw [if_pos hsmem']
      simp [setParent, modifyB, Ne.symm hps, hbs]
    set h1 := addChild hrm prev s with hh1
    have h1_prev : h1 prev = some { bprev with children := bprev.children ++ [s] } := by
      simp [hh1, addChild, setParent, modifyB, hprs, hrm_prev, hbprev]
    have h1_s : h1 s = some { bs with parent := some prev } := by
      simp [hh1, addChild, setParent, modifyB, Ne.symm hprs, hrm_s]
    have h1_p : h1 p = some { bp with children := bp.children.erase s } := by
      simp [hh1, addChild, setParent, modifyB, Ne.symm hprp, hps, hrm_p]
    set hf : Heap :=
      if (h1 prev).elim false (·.collapsed) then
        modifyB h1 prev (fun b => { b with collapsed := false })
      else h1 with hhf
    have hresult : indentBullet m = rebuildVisibleList { m with heap := hf } := by
      simp only [indentBullet, hsel, hpar, hfind, hprev, hidx, if_false, hhf, hh1, hhrm]
    have hf_s : hf s = some { bs with parent := some prev } := by
      rw [← h1_s]
      by_cases hcol : (h1 prev).elim false (·.collapsed)
      · simp [hhf, if_pos hcol, modifyB, Ne.symm hprs]
      · simp [hhf, if_neg hcol]
    have hf_p : hf p = some { bp with children := bp.children.erase s } := by
      rw [← h1_p]
      by_cases hcol : (h1 prev).elim false (·.collapsed)
      · simp [hhf, if_pos hcol, modifyB, Ne.symm hprp]
      · simp [hhf, if_neg hcol]
    have hf_prev_children : childrenOf hf prev = bprev.children ++ [s] := by
      by_cases hcol : (h1 prev).elim false (·.collapsed)
      all_goals rw [h1_prev] at hcol
      all_goals simp only [Option.elim_some] at hcol
      · simp [hhf, modifyB, childrenOf, h1_prev, hcol]
      · simp [hhf, childrenOf, h1_prev, hcol]
    have hf_prev_col : (bulletAt hf prev).collapsed = false := by
      by_cases hcol : (h1 prev).elim false (·.collapsed)
      all_goals rw [h1_prev] at hcol
      all_goals simp only [Option.elim_some] at hcol
      · simp [hhf, modifyB, bulletAt, h1_prev, hcol]
      · simp [hhf, bulletAt, h1_prev, hcol]
    refine ⟨?_, ?_, ?_, ?_, ?_⟩
    · rw [hresult]
      show childrenOf hf prev = childrenOf m.heap prev ++ [s]
      rw [hf_prev_children, childrenOf, hbprev]
    · rw [hresult]
      show parentOf hf s = some prev
      rw [parentOf, hf_s]
    · rw [hresult]
      show (bulletAt hf prev).collapsed = false
      exact hf_prev_col
    · rw [hresult]
      show childrenOf hf p = (childrenOf m.heap p).eraseIdx i
      have hcp : childrenOf m.heap p = bp.children := by rw [childrenOf, hbp]
      have hcf : childrenOf hf p = bp.children.erase s := by simp [childrenOf, hf_p]
      rw [hcp, hcf]
      exact erase_eq_eraseIdx_of_nodup bp.children i (hcp ▸ hnd) (hcp ▸ hi)
    · rw [hresult]
      rfl
  · intro i prev hpar hidx hnd hi h1i hprev hprs hssome hprevsome
    have hfind : findIdxPos m.rootBullets s 0 = some i := by
      have := findIdxPos_at m.rootBullets i 0 hnd (by simpa using hi) (by omega)
      simpa using this
    obtain ⟨bs, hbs⟩ : ∃ b, m.heap s = some b := by
      cases hhs : m.heap s with
      | none => rw [hhs] at hssome; cases hssome
      | some b => exact ⟨b, rfl⟩
    obtain ⟨bprev, hbprev⟩ : ∃ b, m.heap prev = some b := by
      cases hhp : m.heap prev with
      | none => rw [hhp] at hprevsome; cases hprevsome
      | some b => exact ⟨b, rfl⟩
    set h1 := addChild m.heap prev s with hh1
    have h1_prev : h1 prev = some { bprev with children := bprev.children ++ [s] } := by
      simp [hh1, addChild, setParent, modifyB, hprs, hbprev]
    have h1_s : h1 s = some { bs with parent := some prev } := by
      simp [hh1, addChild, setParent, modifyB, Ne.symm hprs, hbs]
    set hf : Heap :=
      if (h1 prev).elim false (·.collapsed) then
        modifyB h1 prev (fun b => { b with collapsed := false })
      else h1 with hhf
    have hresult : indentBullet m
        = rebuildVisibleList
            { m with rootBullets := m.rootBullets.eraseIdx i, heap := hf } := by
      simp only [indentBullet, hsel, hpar, hfind, hprev, hidx, if_false, hhf, hh1]
    have hf_s : hf s = some { bs with parent := some prev } := by
      rw [← h1_s]
      by_cases hcol : (h1 prev).elim false (·.collapsed)
      · simp [hhf, if_pos hcol, modifyB, Ne.symm hprs]
      · simp [hhf, if_neg hcol]
    have hf_prev_children : childrenOf hf prev = bprev.children ++ [s] := by
      by_cases hcol : (h1 prev).elim false (·.collapsed)
      all_goals rw [h1_prev] at hcol
      all_goals simp only [Option.elim_some] at hcol
      · simp [hhf, modifyB, childrenOf, h1_prev, hcol]
      · simp [hhf, childrenOf, h1_prev, hcol]
    have hf_prev_col : (bulletAt hf prev).collapsed = false := by
      by_cases hcol : (h1 prev).elim false (·.collapsed)
      all_goals rw [h1_prev] at hcol
      all_goals simp only [Option.elim_some] at hcol
      · simp [hhf, modifyB, bulletAt, h1_prev, hcol]
      · simp [hhf, bulletAt, h1_prev, hcol]
    refine ⟨?_, ?_, ?_, ?_⟩
    · rw [hresult]
      show childrenOf hf prev = childrenOf m.heap prev ++ [s]
      rw [hf_prev_children, childrenOf, hbprev]
    · rw [hresult]
      show parentOf hf s = some prev
      rw [parentOf, hf_s]
    · rw [hresult]
      show (bulletAt hf prev).collapsed = false
      exact hf_prev_col
    · rw [hresult]
      rfl

/-- Concrete document for the C8 witness: root 0 with children 1 and 2,
node 2 selected. -/
def m8h : Heap :=
  addChild
    (addChild
      (hset (hset (hset emptyHeap 0 (newBullet "r")) 1 (newBullet "x")) 2 (newBullet "y"))
      0 1)
    0 2

def m8 : Model := ⟨m8h, 3, [0], [0, 1, 2], 2, none, [], true⟩

/-- Concrete document for the root half of the C8 witness: two roots 0 and
1, the second root selected. -/
def m8rh : Heap := hset (hset emptyHeap 0 (newBullet "A")) 1 (newBullet "B")

def m8r : Model := ⟨m8rh, 2, [0, 1], [0, 1], 1, none, [], true⟩

/-- C8 witness: indenting node 2 makes it the last (only) child of its
previous sibling 1 with the root list untouched; indenting the second root
node 1 of `m8r` makes it the last child of the previous root 0, which
replaces it as the owner while node 1 leaves the root list. -/
theorem C8_indent_witness :
    ((getSelectedBullet m8 = some 2 ∧ parentOf m8.heap 2 = some 0)
    ∧ (childrenOf (indentBullet m8).heap 1 = childrenOf m8.heap 1 ++ [2]
      ∧ parentOf (indentBullet m8).heap 2 = some 1
      ∧ (bulletAt (indentBullet m8).heap 1).collapsed = false
      ∧ childrenOf (indentBullet m8).heap 0 = (childrenOf m8.heap 0).eraseIdx 1
      ∧ (indentBullet m8).rootBullets = m8.rootBullets))
    ∧ ((getSelectedBullet m8r = some 1 ∧ parentOf m8r.heap 1 = none)
    ∧ (childrenOf (indentBullet m8r).heap 0 = childrenOf m8r.heap 0 ++ [1]
      ∧ parentOf (indentBullet m8r).heap 1 = some 0
      ∧ (bulletAt (indentBullet m8r).heap 0).collapsed = false
      ∧ (indentBullet m8r).rootBullets = m8r.rootBullets.eraseIdx 1)) :=
  ⟨⟨⟨by decide, by decide⟩,
    (C8_indent m8 2 (by decide)).2.2.1 0 1 1 (by decide) (by decide) (by decide)
      (by decide) (by decide) (by decide) (by decide) (by decide) (by decide)
      (by decide)⟩,
   ⟨⟨by decide, by decide⟩,
    (C8_indent m8r 1 (by decide)).2.2.2 1 0 (by decide) (by decide) (by decide)
      (by decide) (by decide) (by decide) (by decide) (by decide) (by decide)⟩⟩

/-! ## C7: delete and the selection -/

/-- Two leaf roots 0 and 1, node 0 selected. -/
def m7h : Heap := hset (hset emptyHeap 0 (newBullet "A")) 1 (newBullet "B")

def m7 : Model := ⟨m7h, 2, [0, 1], [0, 1], 0, none, [], true⟩

/-- C7: the claim is false on the code: node 0 is the deleted node and has
no previous visible neighbor, so the claim demands an empty selection, but
after `deleteBullet` the selection points at node 1, the *next* visible
node. -/
theorem C7_counterexample :
    getSelectedBullet m7 = some 0
    ∧ m7.allBullets.take m7.selectedIndex = []
    ∧ getSelectedBullet (deleteBullet m7) = some 1 := by
  refine ⟨by decide, by decide, by decide⟩

/-! ## Detaching a subtree from a represented forest -/

mutual

/-- Remove the subtree rooted at address `s` from the skeleton (wherever it
occurs as a child or top-level member; on nodup forests that is at most one
place). -/
def removeSub (s : Nat) : BT → BT
  | .node a cs => .node a (removeSubL s cs)

def removeSubL (s : Nat) : List BT → List BT
  | [] => []
  | t :: ts => if t.addr = s then removeSubL s ts else removeSub s t :: removeSubL s ts

end

theorem removeSub_def (s a : Nat) (cs : List BT) :
    removeSub s (.node a cs) = .node a (removeSubL s cs) := rfl

theorem removeSub_addr (s : Nat) (t : BT) : (removeSub s t).addr = t.addr := by
  cases t
  rfl

mutual

theorem removeSub_id (s : Nat) (t : BT) (h : s ∉ t.addrs) : removeSub s t = t := by
  match t with
  | .node a cs =>
    rw [removeSub_def, removeSubL_id s cs ?_]
    intro hmem
    exact h (by simp [BT.addrs_def, hmem])

theorem removeSubL_id (s : Nat) (ts : List BT) (h : s ∉ BT.addrsL ts) :
    removeSubL s ts = ts := by
  match ts with
  | [] => rfl
  | t :: ts =>
    rw [BT.addrsL_cons] at h
    have h1 : s ∉ t.addrs := fun hm => h (List.mem_append_left _ hm)
    have h2 : s ∉ BT.addrsL ts := fun hm => h (List.mem_append_right _ hm)
    have hta : ¬ t.addr = s := fun he => h1 (he ▸ t.addr_mem_addrs)
    show (if t.addr = s then removeSubL s ts else removeSub s t :: removeSubL s ts) = t :: ts
    rw [if_neg hta, removeSub_id s t h1, removeSubL_id s ts h2]

end

mutual

theorem removeSub_addrs_sublist (s : Nat) (t : BT) :
    (removeSub s t).addrs.Sublist t.addrs := by
  match t with
  | .node a cs =>
    rw [removeSub_def, BT.addrs_def, BT.addrs_def]
    exact (removeSubL_addrs_sublist s cs).cons₂ a

theorem removeSubL_addrs_sublist (s : Nat) (ts : List BT) :
    (BT.addrsL (removeSubL s ts)).Sublist (BT.addrsL ts) := by
  match ts with
  | [] => exact List.Sublist.refl _
  | t :: ts =>
    show (BT.addrsL (if t.addr = s then removeSubL s ts
      else removeSub s t :: removeSubL s ts)).Sublist _
    by_cases hts : t.addr = s
    · rw [if_pos hts, BT.addrsL_cons]
      exact (removeSubL_addrs_sublist s ts).trans (List.sublist_append_right _ _)
    · rw [if_neg hts, BT.addrsL_cons, BT.addrsL_cons]
      exact List.Sublist.append (removeSub_addrs_sublist s t) (removeSubL_addrs_sublist s ts)

end

mutual

theorem removeSub_height (s : Nat) (t : BT) :
    (removeSub s t).height ≤ t.height := by
  match t with
  | .node a cs =>
    rw [removeSub_def]
    show BT.heightL (removeSubL s cs) + 1 ≤ BT.heightL cs + 1
    exact Nat.succ_le_succ (removeSubL_height s cs)

theorem removeSubL_height (s : Nat) (ts : List BT) :
    BT.heightL (removeSubL s ts) ≤ BT.heightL ts := by
  match ts with
  | [] => exact Nat.le_refl _
  | t :: ts =>
    show BT.heightL (if t.addr = s then removeSubL s ts
      else removeSub s t :: removeSubL s ts) ≤ max t.height (BT.heightL ts)
    by_cases hts : t.addr = s
    · rw [if_pos hts]
      exact le_trans (removeSubL_height s ts) (le_max_right _ _)
    · rw [if_neg hts]
      show max (removeSub s t).height (BT.heightL (removeSubL s ts)) ≤ _
      exact max_le_max (removeSub_height s t) (removeSubL_height s ts)

end

mutual

/-- After the removal the address `s` survives only as the root of the tree
it was removed from under. -/
theorem removeSub_no_s (s : Nat) (t : BT) (h : s ∈ (removeSub s t).addrs) :
    s = t.addr := by
  match t with
  | .node a cs =>
    rw [removeSub_def, BT.addrs_def] at h
    rcases List.mem_cons.mp h with h1 | h1
    · exact h1
    · exact absurd h1 (removeSubL_no_s s cs)

theorem removeSubL_no_s (s : Nat) (ts : List BT) : s ∉ BT.addrsL (removeSubL s ts) := by
  match ts with
  | [] => intro h; cases h
  | t :: ts =>
    show s ∉ BT.addrsL (if t.addr = s then removeSubL s ts
      else removeSub s t :: removeSubL s ts)
    by_cases hts : t.addr = s
    · rw [if_pos hts]
      exact removeSubL_no_s s ts
    · rw [if_neg hts, BT.addrsL_cons]
      intro h
      rcases List.mem_append.mp h with h1 | h1
      · exact hts (removeSub_no_s s t h1).symm
      · exact removeSubL_no_s s ts h1

end

/-- Split a nodup forest at the unique member whose subtree contains `s`. -/
theorem split_at_mem {s : Nat} :
    ∀ (cs : List BT), (BT.addrsL cs).Nodup → s ∈ BT.addrsL cs →
    ∃ cs1 t' cs2, cs = cs1 ++ t' :: cs2 ∧ s ∈ t'.addrs
      ∧ s ∉ BT.addrsL cs1 ∧ s ∉ BT.addrsL cs2 := by
  intro cs
  induction cs with
  | nil => intro _ h; cases h
  | cons t ts ih =>
    intro hnd hmem
    rw [BT.addrsL_cons] at hnd hmem
    have hdisj := List.disjoint_of_nodup_append hnd
    by_cases hst : s ∈ t.addrs
    · refine ⟨[], t, ts, rfl, hst, ?_, fun h => hdisj hst h⟩
      intro h
      cases h
    · have hsts : s ∈ BT.addrsL ts := by
        rcases List.mem_append.mp hmem with h1 | h1
        · exact absurd h1 hst
        · exact h1
      obtain ⟨cs1, t', cs2, heq, hm, h1, h2⟩ := ih hnd.of_append_right hsts
      refine ⟨t :: cs1, t', cs2, by simp [heq], hm, ?_, h2⟩
      rw [BT.addrsL_cons]
      intro h
      rcases List.mem_append.mp h with hh | hh
      · exact hst hh
      · exact h1 hh

theorem findA_self {s : Nat} {t : BT} (h : t.addr = s) : findA s t = some t := by
  cases t with
  | node a cs =>
    rw [findA_def, if_pos (by simpa [BT.addr] using h.symm)]

mutual

/-- Removing the subtree at `s` splits the address list, up to permutation,
into the remaining addresses and the removed subtree's addresses. -/
theorem removeSub_perm (s : Nat) (t : BT) (hnd : t.addrs.Nodup) (hmem : s ∈ t.addrs)
    (hne : s ≠ t.addr) (u : BT) (hu : findA s t = some u) :
    ((removeSub s t).addrs ++ u.addrs).Perm t.addrs := by
  match t with
  | .node a cs =>
    rw [BT.addrs_def] at hnd hmem
    have hmem' : s ∈ BT.addrsL cs := by
      rcases List.mem_cons.mp hmem with h1 | h1
      · exact absurd h1 (by simpa [BT.addr] using hne)
      · exact h1
    rw [findA_def, if_neg (by simpa [BT.addr] using hne)] at hu
    have hperm := removeSubL_perm s cs hnd.of_cons hmem' u hu
    rw [removeSub_def, BT.addrs_def, BT.addrs_def]
    exact hperm.cons a

theorem removeSubL_perm (s : Nat) (ts : List BT) (hnd : (BT.addrsL ts).Nodup)
    (hmem : s ∈ BT.addrsL ts) (u : BT) (hu : findAL s ts = some u) :
    (BT.addrsL (removeSubL s ts) ++ u.addrs).Perm (BT.addrsL ts) := by
  match ts with
  | [] => cases hmem
  | t :: ts =>
    rw [BT.addrsL_cons] at hnd hmem
    have hdisj := List.disjoint_of_nodup_append hnd
    have hu' : (match findA s t with
      | some r => some r
      | none => findAL s ts) = some u := hu
    by_cases hst : s ∈ t.addrs
    · have hsts : s ∉ BT.addrsL ts := fun h => hdisj hst h
      cases hf : findA s t with
      | none => exact absurd (findA_isSome_of_mem s t hst) (by simp [hf])
      | some r =>
        rw [hf] at hu'
        cases hu'
        by_cases hta : t.addr = s
        · have hut : u = t := by
            rw [findA_self hta] at hf
            exact (Option.some.inj hf).symm
          subst hut
          show (BT.addrsL (if u.addr = s then removeSubL s ts
            else removeSub s u :: removeSubL s ts) ++ u.addrs).Perm _
          rw [if_pos hta, removeSubL_id s ts hsts, BT.addrsL_cons]
          exact List.perm_append_comm
        · have hperm := removeSub_perm s t hnd.of_append_left hst
            (fun he => hta he.symm) u hf
          show (BT.addrsL (if t.addr = s then removeSubL s ts
            else removeSub s t :: removeSubL s ts) ++ u.addrs).Perm _
          rw [if_neg hta, BT.addrsL_cons, removeSubL_id s ts hsts, BT.addrsL_cons]
          have h1 : (((removeSub s t).addrs ++ BT.addrsL ts) ++ u.addrs).Perm
              (((removeSub s t).addrs ++ u.addrs) ++ BT.addrsL ts) := by
            rw [List.append_assoc, List.append_assoc]
            exact List.Perm.append_left _ List.perm_append_comm
          exact h1.trans (hperm.append_right _)
    · have hsts : s ∈ BT.addrsL ts := by
        rcases List.mem_append.mp hmem with h1 | h1
        · exact absurd h1 hst
        · exact h1
      have hf : findA s t = none := findA_none_of_not_mem hst
      rw [hf] at hu'
      have hta : ¬ t.addr = s := fun he => hst (he ▸ t.addr_mem_addrs)
      have hperm := removeSubL_perm s ts hnd.of_append_right hsts u hu'
      show (BT.addrsL (if t.addr = s then removeSubL s ts
        else removeSub s t :: removeSubL s ts) ++ u.addrs).Perm _
      rw [if_neg hta, BT.addrsL_cons, removeSub_id s t hst, List.append_assoc,
        BT.addrsL_cons]
      exact hperm.append_left _

end

theorem nodup_split_disjoint {A1 At A2 : List Nat} (h : (A1 ++ (At ++ A2)).Nodup) :
    A1.Disjoint At ∧ At.Disjoint A2 ∧ A1.Disjoint A2
      ∧ A1.Nodup ∧ At.Nodup ∧ A2.Nodup := by
  rw [List.nodup_append] at h
  obtain ⟨h1, h23, hd⟩ := h
  rw [List.nodup_append] at h23
  obtain ⟨h2, h3, hd23⟩ := h23
  refine ⟨?_, hd23, ?_, h1, h2, h3⟩
  · intro x hx hx'
    exact hd hx (List.mem_append_left _ hx')
  · intro x hx hx'
    exact hd hx (List.mem_append_right _ hx')

theorem findAL_append_left_none {s : Nat} :
    ∀ (l1 l2 : List BT), s ∉ BT.addrsL l1 → findAL s (l1 ++ l2) = findAL s l2 := by
  intro l1
  induction l1 with
  | nil => intro l2 _; rfl
  | cons t ts ih =>
    intro l2 h
    rw [BT.addrsL_cons] at h
    have h1 : s ∉ t.addrs := fun hm => h (List.mem_append_left _ hm)
    have h2 : s ∉ BT.addrsL ts := fun hm => h (List.mem_append_right _ hm)
    show (match findA s t with
      | some r => some r
      | none => findAL s (ts ++ l2)) = findAL s l2
    rw [findA_none_of_not_mem h1]
    exact ih l2 h2

theorem removeSubL_append (s : Nat) :
    ∀ (l1 l2 : List BT), removeSubL s (l1 ++ l2) = removeSubL s l1 ++ removeSubL s l2 := by
  intro l1
  induction l1 with
  | nil => intro l2; rfl
  | cons t ts ih =>
    intro l2
    show (if t.addr = s then removeSubL s (ts ++ l2)
      else removeSub s t :: removeSubL s (ts ++ l2))
      = (if t.addr = s then removeSubL s ts else removeSub s t :: removeSubL s ts) ++ _
    by_cases hta : t.addr = s
    · rw [if_pos hta, if_pos hta, ih]
    · rw [if_neg hta, if_neg hta, ih]
      rfl

theorem removeSubL_map_addr (s : Nat) :
    ∀ (ts : List BT), (BT.addrsL ts).Nodup →
      (removeSubL s ts).map BT.addr = (ts.map BT.addr).erase s := by
  intro ts
  induction ts with
  | nil => intro _; rfl
  | cons t rest ih =>
    intro hnd
    rw [BT.addrsL_cons] at hnd
    have hdisj := List.disjoint_of_nodup_append hnd
    show (if t.addr = s then removeSubL s rest
      else removeSub s t :: removeSubL s rest).map BT.addr = _
    by_cases hta : t.addr = s
    · rw [if_pos hta]
      have hsr : s ∉ BT.addrsL rest := fun hm => hdisj (hta ▸ t.addr_mem_addrs) hm
      rw [removeSubL_id s rest hsr, List.map_cons, List.erase_cons,
        if_pos (by simpa using hta)]
    · rw [if_neg hta, List.map_cons, List.map_cons, List.erase_cons,
        if_neg (by simpa using hta), removeSub_addr, ih hnd.of_append_right]

/-- Every inner address of a represented tree carries a parent pointer into
the tree. -/
theorem rep_parent_of_inner (h : Heap) (t : BT) :
    ∀ par, RepT h par t → ∀ s, s ∈ t.addrs → s ≠ t.addr →
    ∃ q b, h s = some b ∧ b.parent = some q ∧ q ∈ t.addrs := by
  induction t using BT.indOn with
  | h a cs ih =>
    intro par hrep s hmem hne
    cases hrep with
    | mk hb hp hc hcs =>
      have hmem' : s ∈ BT.addrsL cs := by
        rcases List.mem_cons.mp (by simpa [BT.addrs_def] using hmem) with h1 | h1
        · exact absurd h1 (by simpa [BT.addr] using hne)
        · exact h1
      obtain ⟨t', ht', hst'⟩ := exists_mem_of_mem_addrsL hmem'
      by_cases hta : s = t'.addr
      · cases htt' : t' with
        | node a' cs' =>
          have hrep' := hcs t' ht'
          rw [htt'] at hrep'
          cases hrep' with
          | mk hb' hp' hc' hcs' =>
            rename_i b'
            have hsa' : s = a' := by simpa [htt', BT.addr] using hta
            refine ⟨a, b', by rw [hsa']; exact hb', hp', ?_⟩
            simp [BT.addrs_def]
      · obtain ⟨q, b, hbq, hbp, hq⟩ := ih t' ht' (some a) (hcs t' ht') s hst' hta
        refine ⟨q, b, hbq, hbp, ?_⟩
        simp only [BT.addrs_def, List.mem_cons]
        exact Or.inr (BT.mem_addrsL_of_mem ht' hq)

/-- `removeChild` touches only the parent cell and the removed child cell. -/
theorem removeChild_other (h : Heap) (p s x : Nat) (hxp : x ≠ p) (hxs : x ≠ s) :
    removeChild h p s x = h x := by
  unfold removeChild
  cases hpc : h p with
  | none => rfl
  | some bb =>
    by_cases hmem : s ∈ bb.children
    · simp [hmem, setParent, modifyB, hxp, hxs]
    · simp [hmem]

theorem removeChild_parent_cell (h : Heap) (p s : Nat) (bp : Bullet) (hp : h p = some bp)
    (hmem : s ∈ bp.children) (hps : p ≠ s) :
    removeChild h p s p = some { bp with children := bp.children.erase s } := by
  simp only [removeChild, hp]
  rw [if_pos hmem]
  simp [setParent, modifyB, hp, hps]

theorem removeChild_child_cell (h : Heap) (p s : Nat) (bp : Bullet) (hp : h p = some bp)
    (hmem : s ∈ bp.children) (hps : p ≠ s) (bs : Bullet) (hs : h s = some bs) :
    removeChild h p s s = some { bs with parent := none } := by
  simp only [removeChild, hp]
  rw [if_pos hmem]
  simp [setParent, modifyB, Ne.symm hps, hs]

/-- Detachment, tree version: removing child `s` (whose cell points at
parent `p`) from a represented tree leaves a represented tree with the
`s`-subtree cut out, and the cut subtree itself represented with a cleared
parent. -/
theorem detachT (h : Heap) (p s : Nat) (bs : Bullet)
    (hs : h s = some bs) (hsp : bs.parent = some p) (t : BT) :
    ∀ par, RepT h par t → t.addrs.Nodup → s ∈ t.addrs → s ≠ t.addr →
    RepT (removeChild h p s) par (removeSub s t)
    ∧ ∃ u, findA s t = some u ∧ RepT (removeChild h p s) none u := by
  induction t using BT.indOn with
  | h a cs ih =>
    intro par hrep hnd hmem hne
    cases hrep with
    | mk hb hp hc hcs =>
      rename_i ba
      rw [BT.addrs_def] at hnd hmem
      have hane : ¬ s = a := by simpa [BT.addr] using hne
      have hmem' : s ∈ BT.addrsL cs := by
        rcases List.mem_cons.mp hmem with h1 | h1
        · exact absurd h1 hane
        · exact h1
      have hndL : (BT.addrsL cs).Nodup := hnd.of_cons
      have haL : a ∉ BT.addrsL cs := (List.nodup_cons.mp hnd).1
      obtain ⟨cs1, t', cs2, heq, hst', hs1, hs2⟩ := split_at_mem cs hndL hmem'
      have hsplitnd : (BT.addrsL cs1 ++ (t'.addrs ++ BT.addrsL cs2)).Nodup := by
        rw [← BT.addrsL_cons, ← BT.addrsL_append, ← heq]
        exact hndL
      obtain ⟨hd1t, hdt2, hd12, hnd1, hndt, hnd2⟩ := nodup_split_disjoint hsplitnd
      have htmem : t' ∈ cs := by
        rw [heq]
        exact List.mem_append_right _ (List.mem_cons_self _ _)
      by_cases hta : t'.addr = s
      · -- s is a direct child of a, so a = p
        have hap : a = p := by
          cases htt' : t' with
          | node a' cs' =>
            have hrep' := hcs t' htmem
            rw [htt'] at hrep'
            cases hrep' with
            | mk hb' hp' hc' hcs' =>
              rename_i b'
              have hsa' : a' = s := by simpa [htt', BT.addr] using hta
              rw [hsa'] at hb'
              rw [hs] at hb'
              cases hb'
              rw [hsp] at hp'
              exact (Option.some.inj hp').symm
        subst hap
        have hsmemch : s ∈ ba.children := by
          rw [hc, heq]
          simp only [List.map_append, List.map_cons, List.mem_append, List.mem_cons]
          exact Or.inr (Or.inl hta.symm)
        have hps : a ≠ s := fun he => hane he.symm
        have hrc_a := removeChild_parent_cell h a s ba hb hsmemch hps
        have hrc_s := removeChild_child_cell h a s ba hb hsmemch hps bs hs
        have hother : ∀ x, x ≠ a → x ≠ s → removeChild h a s x = h x :=
          fun x hx1 hx2 => removeChild_other h a s x hx1 hx2
        constructor
        · rw [removeSub_def]
          refine RepT.mk hrc_a hp ?_ ?_
          · show ({ ba with children := ba.children.erase s } : Bullet).children
              = (removeSubL s cs).map BT.addr
            show ba.children.erase s = _
            rw [hc, removeSubL_map_addr s cs hndL]
          · intro v hv
            have hvcs : v ∈ cs1 ++ cs2 := by
              have : removeSubL s cs = cs1 ++ cs2 := by
                rw [heq, removeSubL_append]
                show _ = cs1 ++ cs2
                rw [removeSubL_id s cs1 hs1]
                show cs1 ++ removeSubL s (t' :: cs2) = _
                have : removeSubL s (t' :: cs2) = cs2 := by
                  show (if t'.addr = s then removeSubL s cs2
                    else removeSub s t' :: removeSubL s cs2) = cs2
                  rw [if_pos hta, removeSubL_id s cs2 hs2]
                rw [this]
              rwa [this] at hv
            have hvmem : v ∈ cs := by
              rw [heq]
              rcases List.mem_append.mp hvcs with h1 | h1
              · exact List.mem_append_left _ h1
              · exact List.mem_append_right _ (List.mem_cons_of_mem _ h1)
            refine RepT.mono v (some a) (fun x hx => ?_) (hcs v hvmem)
            refine hother x (fun hxa => ?_) (fun hxs => ?_)
            · exact haL (hxa ▸ BT.mem_addrsL_of_mem hvmem hx)
            · subst hxs
              rcases List.mem_append.mp hvcs with h1 | h1
              · exact hs1 (BT.mem_addrsL_of_mem h1 hx)
              · exact hs2 (BT.mem_addrsL_of_mem h1 hx)
        · refine ⟨t', ?_, ?_⟩
          · rw [findA_def, if_neg hane, heq, findAL_append_left_none cs1 _ hs1]
            show (match findA s t' with
              | some r => some r
              | none => findAL s cs2) = some t'
            rw [findA_self hta]
          · cases htt' : t' with
            | node a' cs' =>
              have hrep' := hcs t' htmem
              rw [htt'] at hrep'
              cases hrep' with
              | mk hb' hp' hc' hcs' =>
                rename_i b'
                have hsa' : a' = s := by simpa [htt', BT.addr] using hta
                subst hsa'
                have hbb : b' = bs := by
                  rw [hs] at hb'
                  exact (Option.some.inj hb').symm
                subst hbb
                refine RepT.mk hrc_s rfl hc' ?_
                intro v hv
                refine RepT.mono v (some a') (fun x hx => ?_) (hcs' v hv)
                have hxt' : x ∈ t'.addrs := by
                  rw [htt']
                  simp only [BT.addrs_def, List.mem_cons]
                  exact Or.inr (BT.mem_addrsL_of_mem hv hx)
                refine hother x (fun hxa => ?_) (fun hxs => ?_)
                · exact haL (hxa ▸ BT.mem_addrsL_of_mem
                    htmem hxt')
                · -- x = s would duplicate the root of the removed subtree
                  subst hxs
                  have : (t'.addrs).Nodup := hndt
                  rw [htt', BT.addrs_def] at this
                  exact (List.nodup_cons.mp this).1 (by
                    have : x ∈ BT.addrsL cs' := BT.mem_addrsL_of_mem hv hx
                    simpa using this)
      · -- s lies deeper inside t'
        have htmem : t' ∈ cs := by
          rw [heq]
          exact List.mem_append_right _ (List.mem_cons_self _ _)
        obtain ⟨q, bq, hbq, hbqp, hqmem⟩ := rep_parent_of_inner h t' (some a)
          (hcs t' htmem) s hst' (fun he => hta (he.symm))
        have hqp : p = q := by
          rw [hs] at hbq
          cases hbq
          rw [hsp] at hbqp
          exact Option.some.inj hbqp
        subst hqp
        have hpt' : p ∈ t'.addrs := hqmem
        have hap : a ≠ p := fun he => haL (he ▸ BT.mem_addrsL_of_mem htmem hpt')
        obtain ⟨hrepsub, u, hufind, hurep⟩ := ih t' htmem (some a) (hcs t' htmem)
          hndt hst' (fun he => hta he.symm)
        have hcellother : ∀ x, x ∉ t'.addrs → removeChild h p s x = h x := by
          intro x hx
          refine removeChild_other h p s x (fun hxp => hx (hxp ▸ hpt'))
            (fun hxs => hx (hxs ▸ hst'))
        constructor
        · rw [removeSub_def]
          refine RepT.mk (b := ba) ?_ hp ?_ ?_
          · rw [hcellother a (fun ha => haL (BT.mem_addrsL_of_mem htmem ha))]
            exact hb
          · rw [hc, heq, removeSubL_append]
            rw [removeSubL_id s cs1 hs1]
            show _ = (cs1 ++ (if t'.addr = s then removeSubL s cs2
              else removeSub s t' :: removeSubL s cs2)).map BT.addr
            rw [if_neg hta, removeSubL_id s cs2 hs2]
            simp [removeSub_addr]
          · intro v hv
            rw [heq, removeSubL_append, removeSubL_id s cs1 hs1] at hv
            have hv2 : v ∈ cs1 ++ removeSub s t' :: cs2 := by
              revert hv
              show v ∈ cs1 ++ removeSubL s (t' :: cs2) → _
              have : removeSubL s (t' :: cs2) = removeSub s t' :: cs2 := by
                show (if t'.addr = s then removeSubL s cs2
                  else removeSub s t' :: removeSubL s cs2) = _
                rw [if_neg hta, removeSubL_id s cs2 hs2]
              rw [this]
              exact id
            rcases List.mem_append.mp hv2 with h1 | h1
            · have hvcs : v ∈ cs := by
                rw [heq]
                exact List.mem_append_left _ h1
              refine RepT.mono v (some a) (fun x hx => ?_) (hcs v hvcs)
              exact hcellother x (fun hxt => hd1t (BT.mem_addrsL_of_mem h1 hx) hxt)
            · rcases List.mem_cons.mp h1 with rfl | h2
              · exact hrepsub
              · have hvcs : v ∈ cs := by
                  rw [heq]
                  exact List.mem_append_right _ (List.mem_cons_of_mem _ h2)
                refine RepT.mono v (some a) (fun x hx => ?_) (hcs v hvcs)
                exact hcellother x (fun hxt => hdt2 hxt (BT.mem_addrsL_of_mem h2 hx))
        · refine ⟨u, ?_, hurep⟩
          rw [findA_def, if_neg hane, heq, findAL_append_left_none cs1 _ hs1]
          show (match findA s t' with
            | some r => some r
            | none => findAL s cs2) = some u
          rw [hufind]

theorem rep_root_parent_none (h : Heap) (t : BT) (hrep : RepT h none t) :
    ∃ b, h t.addr = some b ∧ b.parent = none := by
  cases t with
  | node a cs =>
    cases hrep with
    | mk hb hp hc hcs =>
      exact ⟨_, hb, hp⟩

/-- Inside a represented root tree, a cell whose parent field names `p` is a
non-root node, and `p` belongs to the same tree. -/
theorem rep_parent_in_tree (h : Heap) (s p : Nat) (bs : Bullet)
    (hs : h s = some bs) (hsp : bs.parent = some p) (t : BT)
    (hrep : RepT h none t) (hst : s ∈ t.addrs) : s ≠ t.addr ∧ p ∈ t.addrs := by
  by_cases hts : s = t.addr
  · obtain ⟨b, hb, hbp⟩ := rep_root_parent_none h t hrep
    rw [← hts, hs] at hb
    cases hb
    rw [hsp] at hbp
    exact absurd hbp (by simp)
  · obtain ⟨q, b, hbq, hbqp, hq⟩ := rep_parent_of_inner h t none hrep s hst hts
    rw [hs] at hbq
    cases hbq
    rw [hsp] at hbqp
    have : p = q := Option.some.inj hbqp
    exact ⟨hts, this ▸ hq⟩

/-- A non-root cell in a represented forest is no root address, and its
parent lives in the same member tree. -/
theorem rep_parent_in_forest (h : Heap) (s p : Nat) (bs : Bullet)
    (hs : h s = some bs) (hsp : bs.parent = some p) (F : List BT)
    (hrep : ∀ t ∈ F, RepT h none t) (hsF : s ∈ BT.addrsL F) :
    ∃ t ∈ F, s ∈ t.addrs ∧ p ∈ t.addrs := by
  obtain ⟨t, ht, hst⟩ := exists_mem_of_mem_addrsL hsF
  obtain ⟨_, hpt⟩ := rep_parent_in_tree h s p bs hs hsp t (hrep t ht) hst
  exact ⟨t, ht, hst, hpt⟩

/-- `removeChild` rewrites children and parent fields only; every collapse
flag is untouched. -/
theorem removeChild_collapsed (h : Heap) (p s x : Nat) :
    (bulletAt (removeChild h p s) x).collapsed = (bulletAt h x).collapsed := by
  unfold removeChild
  cases hpc : h p with
  | none => rfl
  | some bb =>
    by_cases hmem : s ∈ bb.children
    · simp only [hmem, if_true]
      simp only [setParent, modifyB, bulletAt, hpc]
      by_cases hxs : x = s
      · subst hxs
        by_cases hxp : x = p
        · subst hxp
          simp [hpc]
        · simp only [if_pos rfl, hxp, if_neg hxp]
          cases h x <;> simp
      · by_cases hxp : x = p
        · subst hxp
          simp [hxs, hpc]
        · simp [hxs, hxp]
    · simp [hmem]

mutual

/-- The visible projection reads only collapse flags from the heap. -/
theorem vdT_congr_col (h h' : Heap)
    (hcol : ∀ x, (bulletAt h' x).collapsed = (bulletAt h x).collapsed) :
    ∀ t : BT, vdT h' t = vdT h t
  | .node a cs => by
    rw [vdT_def, vdT_def, hcol a, vdTL_congr_col h h' hcol cs]

theorem vdTL_congr_col (h h' : Heap)
    (hcol : ∀ x, (bulletAt h' x).collapsed = (bulletAt h x).collapsed) :
    ∀ ts : List BT, vdTL h' ts = vdTL h ts
  | [] => rfl
  | t :: ts => by
    rw [vdTL_cons, vdTL_cons, vdT_congr_col h h' hcol t, vdTL_congr_col h h' hcol ts]

end

/-- Detachment, forest version: cutting a non-root subtree `s` preserves the
representation of every remaining tree, keeps the root list unchanged, and
leaves the cut subtree represented with a cleared parent. -/
theorem detachF_parent (h : Heap) (p s : Nat) (bs : Bullet)
    (hs : h s = some bs) (hsp : bs.parent = some p) :
    ∀ (F : List BT), (∀ t ∈ F, RepT h none t) → (BT.addrsL F).Nodup →
    s ∈ BT.addrsL F →
    (∀ t' ∈ removeSubL s F, RepT (removeChild h p s) none t')
    ∧ (removeSubL s F).map BT.addr = F.map BT.addr
    ∧ ∃ u, findAL s F = some u ∧ RepT (removeChild h p s) none u := by
  intro F
  induction F with
  | nil => intro _ _ hm; cases hm
  | cons t ts ih =>
    intro hrep hnd hmem
    rw [BT.addrsL_cons] at hnd hmem
    have hdisj := List.disjoint_of_nodup_append hnd
    have hndt : t.addrs.Nodup := hnd.of_append_left
    have hreps : ∀ t' ∈ ts, RepT h none t' :=
      fun t' ht' => hrep t' (List.mem_cons_of_mem _ ht')
    by_cases hst : s ∈ t.addrs
    · obtain ⟨hsne, hpt⟩ := rep_parent_in_tree h s p bs hs hsp t
        (hrep t (List.mem_cons_self _ _)) hst
      have hta : ¬ t.addr = s := fun he => hsne he.symm
      obtain ⟨hrsub, u, hufind, hurep⟩ := detachT h p s bs hs hsp t none
        (hrep t (List.mem_cons_self _ _)) hndt hst hsne
      have hsnots : s ∉ BT.addrsL ts := fun hm => hdisj hst hm
      have hrs : removeSubL s (t :: ts) = removeSub s t :: ts := by
        show (if t.addr = s then removeSubL s ts else removeSub s t :: removeSubL s ts) = _
        rw [if_neg hta, removeSubL_id s ts hsnots]
      refine ⟨?_, ?_, u, ?_, hurep⟩
      · intro t' ht'
        rw [hrs] at ht'
        rcases List.mem_cons.mp ht' with rfl | h2
        · exact hrsub
        · refine RepT.mono t' none (fun x hx => ?_) (hreps t' h2)
          refine removeChild_other h p s x (fun hxp => ?_) (fun hxs => ?_)
          · exact hdisj hpt (hxp ▸ BT.mem_addrsL_of_mem h2 hx)
          · exact hdisj hst (hxs ▸ BT.mem_addrsL_of_mem h2 hx)
      · rw [hrs]
        simp [removeSub_addr]
      · show (match findA s t with
          | some r => some r
          | none => findAL s ts) = some u
        rw [hufind]
    · have hmem2 : s ∈ BT.addrsL ts := by
        rcases List.mem_append.mp hmem with h1 | h1
        · exact absurd h1 hst
        · exact h1
      have hta : ¬ t.addr = s := fun he => hst (he ▸ BT.addr_mem_addrs t)
      obtain ⟨t0, ht0, hst0, hpt0⟩ := rep_parent_in_forest h s p bs hs hsp ts hreps hmem2
      have hpts : p ∈ BT.addrsL ts := BT.mem_addrsL_of_mem ht0 hpt0
      obtain ⟨ih1, ih2, u, ihu, ihurep⟩ := ih hreps hnd.of_append_right hmem2
      have hrs : removeSubL s (t :: ts) = t :: removeSubL s ts := by
        show (if t.addr = s then removeSubL s ts else removeSub s t :: removeSubL s ts) = _
        rw [if_neg hta, removeSub_id s t hst]
      refine ⟨?_, ?_, u, ?_, ihurep⟩
      · intro t' ht'
        rw [hrs] at ht'
        rcases List.mem_cons.mp ht' with rfl | h2
        · refine RepT.mono t' none (fun x hx => ?_) (hrep t' (List.mem_cons_self _ _))
          refine removeChild_other h p s x (fun hxp => ?_) (fun hxs => ?_)
          · exact hdisj (hxp ▸ hx) hpts
          · exact hst (hxs ▸ hx)
        · exact ih1 t' h2
      · rw [hrs]
        simp [ih2]
      · show (match findA s t with
          | some r => some r
          | none => findAL s ts) = some u
        rw [findA_none_of_not_mem hst, ihu]

/-- Removing a root subtree: the heap is unchanged, every remaining tree
stays represented, and the find at `s` returns a tree rooted at `s`. -/
theorem removeRootF (h : Heap) (s : Nat) (bs : Bullet)
    (hs : h s = some bs) (hsp : bs.parent = none) :
    ∀ (F : List BT), (∀ t ∈ F, RepT h none t) → (BT.addrsL F).Nodup →
    s ∈ BT.addrsL F →
    (∀ t' ∈ removeSubL s F, RepT h none t')
    ∧ ∃ u, findAL s F = some u ∧ u.addr = s := by
  intro F
  induction F with
  | nil => intro _ _ hm; cases hm
  | cons t ts ih =>
    intro hrep hnd hmem
    rw [BT.addrsL_cons] at hnd hmem
    have hdisj := List.disjoint_of_nodup_append hnd
    have hreps : ∀ t' ∈ ts, RepT h none t' :=
      fun t' ht' => hrep t' (List.mem_cons_of_mem _ ht')
    by_cases hst : s ∈ t.addrs
    · have hta : s = t.addr := by
        by_contra hne
        obtain ⟨q, b, hbq, hbqp, _⟩ := rep_parent_of_inner h t none
          (hrep t (List.mem_cons_self _ _)) s hst hne
        rw [hs] at hbq
        cases hbq
        rw [hsp] at hbqp
        exact absurd hbqp (by simp)
      have hsnots : s ∉ BT.addrsL ts := fun hm => hdisj hst hm
      have hrs : removeSubL s (t :: ts) = ts := by
        show (if t.addr = s then removeSubL s ts else removeSub s t :: removeSubL s ts) = _
        rw [if_pos hta.symm, removeSubL_id s ts hsnots]
      refine ⟨?_, t, ?_, hta.symm⟩
      · intro t' ht'
        rw [hrs] at ht'
        exact hreps t' ht'
      · show (match findA s t with
          | some r => some r
          | none => findAL s ts) = some t
        rw [findA_self hta.symm]
    · have hmem2 : s ∈ BT.addrsL ts := by
        rcases List.mem_append.mp hmem with h1 | h1
        · exact absurd h1 hst
        · exact h1
      have hta : ¬ t.addr = s := fun he => hst (he ▸ BT.addr_mem_addrs t)
      obtain ⟨ih1, u, ihu, ihua⟩ := ih hreps hnd.of_append_right hmem2
      have hrs : removeSubL s (t :: ts) = t :: removeSubL s ts := by
        show (if t.addr = s then removeSubL s ts else removeSub s t :: removeSubL s ts) = _
        rw [if_neg hta, removeSub_id s t hst]
      refine ⟨?_, u, ?_, ihua⟩
      · intro t' ht'
        rw [hrs] at ht'
        rcases List.mem_cons.mp ht' with rfl | h2
        · exact hrep t' (List.mem_cons_self _ _)
        · exact ih1 t' h2
      · show (match findA s t with
          | some r => some r
          | none => findAL s ts) = some u
        rw [findA_none_of_not_mem hst, ihu]

mutual

/-- Removing the subtree at `s` deletes, from the visible projection of the
tree, exactly the contiguous block `s :: visible-descendants-of-s` when `s`
is visible, and nothing when `s` is hidden. -/
theorem visRemove_t (h : Heap) (s : Nat) :
    ∀ (t : BT) (u : BT), t.addrs.Nodup → s ∈ t.addrs → s ≠ t.addr →
    findA s t = some u →
    (s ∈ vdT h t → ∃ A B, vdT h t = A ++ s :: (vdT h u ++ B)
        ∧ vdT h (removeSub s t) = A ++ B)
    ∧ (s ∉ vdT h t → vdT h (removeSub s t) = vdT h t)
  | .node a cs, u => by
    intro hnd hmem hne hfind
    rw [BT.addrs_def] at hnd hmem
    have hane : ¬ s = a := by simpa [BT.addr] using hne
    have hmem' : s ∈ BT.addrsL cs := by
      rcases List.mem_cons.mp hmem with h1 | h1
      · exact absurd h1 hane
      · exact h1
    have hfind' : findAL s cs = some u := by
      rw [findA_def, if_neg hane] at hfind
      exact hfind
    have hIH := visRemove_l h s cs u hnd.of_cons hmem' hfind'
    rw [removeSub_def, vdT_def, vdT_def]
    cases hcol : (bulletAt h a).collapsed with
    | true =>
      simp only [if_pos rfl]
      exact ⟨fun hin => absurd hin (List.not_mem_nil s), fun _ => rfl⟩
    | false =>
      simp only [Bool.false_eq_true, if_neg (fun h => h), if_false]
      exact hIH

theorem visRemove_l (h : Heap) (s : Nat) :
    ∀ (ts : List BT) (u : BT), (BT.addrsL ts).Nodup → s ∈ BT.addrsL ts →
    findAL s ts = some u →
    (s ∈ vdTL h ts → ∃ A B, vdTL h ts = A ++ s :: (vdT h u ++ B)
        ∧ vdTL h (removeSubL s ts) = A ++ B)
    ∧ (s ∉ vdTL h ts → vdTL h (removeSubL s ts) = vdTL h ts)
  | [], u => by
    intro _ hmem _
    cases hmem
  | t :: ts, u => by
    intro hnd hmem hfind
    rw [BT.addrsL_cons] at hnd hmem
    have hdisj := List.disjoint_of_nodup_append hnd
    have hsub_t : ∀ y ∈ vdT h t, y ∈ t.addrs :=
      fun y hy => (vdT_sublist h t).subset (List.mem_cons_of_mem _ hy)
    have hsub_ts : ∀ y ∈ vdTL h ts, y ∈ BT.addrsL ts :=
      fun y hy => (vdTL_sublist h ts).subset hy
    by_cases hst : s ∈ t.addrs
    · have hsnots : s ∉ BT.addrsL ts := fun hm => hdisj hst hm
      have hsnotvd : s ∉ vdTL h ts := fun hm => hsnots (hsub_ts s hm)
      by_cases hta : t.addr = s
      · -- the whole head tree is the removed subtree
        have hut : t = u := by
          have : findAL s (t :: ts) = some t := by
            show (match findA s t with
              | some r => some r
              | none => findAL s ts) = some t
            rw [findA_self hta]
          rw [this] at hfind
          exact Option.some.inj hfind
        subst hut
        have hrs : removeSubL s (t :: ts) = ts := by
          show (if t.addr = s then removeSubL s ts else removeSub s t :: removeSubL s ts) = _
          rw [if_pos hta, removeSubL_id s ts hsnots]
        constructor
        · intro _
          refine ⟨[], vdTL h ts, ?_, ?_⟩
          · rw [vdTL_cons, hta]
            simp
          · rw [hrs]
            rfl
        · intro hns
          exact absurd (by rw [vdTL_cons, hta]; simp) hns
      · -- s strictly inside the head tree
        have hfind' : findA s t = some u := by
          have hsome := findA_isSome_of_mem s t hst
          cases hf : findA s t with
          | none => rw [hf] at hsome; cases hsome
          | some r =>
            have : findAL s (t :: ts) = some r := by
              show (match findA s t with
                | some r2 => some r2
                | none => findAL s ts) = some r
              rw [hf]
            rw [this] at hfind
            rw [Option.some.inj hfind]
        have hIH := visRemove_t h s t u hnd.of_append_left hst
          (fun he => hta he.symm) hfind'
        have hrs : removeSubL s (t :: ts) = removeSub s t :: ts := by
          show (if t.addr = s then removeSubL s ts else removeSub s t :: removeSubL s ts) = _
          rw [if_neg hta, removeSubL_id s ts hsnots]
        constructor
        · intro hvis
          have hvist : s ∈ vdT h t := by
            rw [vdTL_cons] at hvis
            rcases List.mem_append.mp hvis with h1 | h1
            · rcases List.mem_cons.mp h1 with h2 | h2
              · exact absurd h2.symm hta
              · exact h2
            · exact absurd h1 hsnotvd
          obtain ⟨A, B, hAB, hAB'⟩ := hIH.1 hvist
          refine ⟨t.addr :: A, B ++ vdTL h ts, ?_, ?_⟩
          · rw [vdTL_cons, hAB]
            simp [List.append_assoc]
          · rw [hrs, vdTL_cons, hAB', removeSub_addr]
            simp [List.append_assoc]
        · intro hns
          have hnst : s ∉ vdT h t := fun hm => hns (by
            rw [vdTL_cons]
            exact List.mem_append_left _ (List.mem_cons_of_mem _ hm))
          rw [hrs, vdTL_cons, vdTL_cons, hIH.2 hnst, removeSub_addr]
    · -- s lives in the tail forest
      have hmem2 : s ∈ BT.addrsL ts := by
        rcases List.mem_append.mp hmem with h1 | h1
        · exact absurd h1 hst
        · exact h1
      have hta : ¬ t.addr = s := fun he => hst (he ▸ BT.addr_mem_addrs t)
      have hfind' : findAL s ts = some u := by
        have : findAL s (t :: ts) = findAL s ts := by
          show (match findA s t with
            | some r => some r
            | none => findAL s ts) = _
          rw [findA_none_of_not_mem hst]
        rw [this] at hfind
        exact hfind
      have hIH := visRemove_l h s ts u hnd.of_append_right hmem2 hfind'
      have hsnotvd : s ∉ vdT h t := fun hm => hst (hsub_t s hm)
      have hrs : removeSubL s (t :: ts) = t :: removeSubL s ts := by
        show (if t.addr = s then removeSubL s ts else removeSub s t :: removeSubL s ts) = _
        rw [if_neg hta, removeSub_id s t hst]
      constructor
      · intro hvis
        have hvists : s ∈ vdTL h ts := by
          rw [vdTL_cons] at hvis
          rcases List.mem_append.mp hvis with h1 | h1
          · rcases List.mem_cons.mp h1 with h2 | h2
            · exact absurd (h2 ▸ BT.addr_mem_addrs t) hst
            · exact absurd h2 hsnotvd
          · exact h1
        obtain ⟨A, B, hAB, hAB'⟩ := hIH.1 hvists
        refine ⟨t.addr :: (vdT h t ++ A), B, ?_, ?_⟩
        · rw [vdTL_cons, hAB]
          simp [List.append_assoc]
        · rw [hrs, vdTL_cons, hAB']
          simp [List.append_assoc]
      · intro hns
        have hnsts : s ∉ vdTL h ts := fun hm => hns (by
          rw [vdTL_cons]
          exact List.mem_append_right _ hm)
        rw [hrs, vdTL_cons, vdTL_cons, hIH.2 hnsts]

end

/-- In a duplicate-free list, the index of `s` is determined by the split. -/
theorem nodup_index_eq :
    ∀ (A : List Nat) (s : Nat) (C : List Nat) (i : Nat),
      (A ++ s :: C).Nodup → (A ++ s :: C)[i]? = some s → i = A.length := by
  intro A
  induction A with
  | nil =>
    intro s C i hnd hget
    cases i with
    | zero => rfl
    | succ j =>
      simp only [List.nil_append] at hnd hget
      have hsC : s ∈ C := List.getElem?_mem (by simpa using hget)
      exact absurd hsC (List.nodup_cons.mp hnd).1
  | cons a A ih =>
    intro s C i hnd hget
    rw [List.cons_append, List.nodup_cons] at hnd
    cases i with
    | zero =>
      rw [List.cons_append, List.getElem?_cons_zero] at hget
      have has : a = s := Option.some.inj hget
      have hsin : s ∈ A ++ s :: C := List.mem_append_right _ (List.mem_cons_self _ _)
      exact absurd (has ▸ hsin) hnd.1
    | succ j =>
      rw [List.cons_append, List.getElem?_cons_succ] at hget
      simp [ih s C j hnd.2 hget]

/-- The selection clamp at the end of `deleteBullet`: with the old index at
the start of the removed block, the new selection is the head of the suffix,
else the last of the prefix, else nothing. -/
theorem clamp_sel (m2 m3 : Model) (A B : List Nat)
    (hall : m2.allBullets = A ++ B) (hidx : m2.selectedIndex = A.length)
    (h3 : m3 = if m2.selectedIndex ≥ m2.allBullets.length ∧ m2.selectedIndex > 0 then
        { m2 with selectedIndex := m2.selectedIndex - 1 } else m2) :
    m3.heap = m2.heap ∧ m3.rootBullets = m2.rootBullets ∧ m3.allBullets = A ++ B
    ∧ (B ≠ [] → getSelectedBullet m3 = B.head?)
    ∧ (B = [] → A ≠ [] → getSelectedBullet m3 = A.getLast?)
    ∧ (B = [] → A = [] → getSelectedBullet m3 = none) := by
  by_cases hB : B = []
  · subst hB
    by_cases hA : A = []
    · subst hA
      have hcond : ¬(m2.selectedIndex ≥ m2.allBullets.length ∧ m2.selectedIndex > 0) := by
        rw [hidx]
        simp
      rw [if_neg hcond] at h3
      subst h3
      refine ⟨rfl, rfl, hall, ?_, ?_, ?_⟩
      · intro hBne; exact absurd rfl hBne
      · intro _ hAne; exact absurd rfl hAne
      · intro _ _
        simp [getSelectedBullet, hall, hidx]
    · have hcond : m2.selectedIndex ≥ m2.allBullets.length ∧ m2.selectedIndex > 0 := by
        rw [hidx, hall]
        constructor
        · simp
        · exact List.length_pos.mpr hA
      rw [if_pos hcond] at h3
      subst h3
      refine ⟨rfl, rfl, hall, ?_, ?_, ?_⟩
      · intro hBne; exact absurd rfl hBne
      · intro _ _
        show m2.allBullets[m2.selectedIndex - 1]? = A.getLast?
        rw [hall, hidx, List.append_nil, List.getLast?_eq_getElem?]
      · intro _ hAe; exact absurd hAe hA
  · have hcond : ¬(m2.selectedIndex ≥ m2.allBullets.length ∧ m2.selectedIndex > 0) := by
      rintro ⟨h1, _⟩
      rw [hidx, hall] at h1
      rw [List.length_append] at h1
      have hBlen : B.length = 0 := by omega
      exact hB (List.eq_nil_of_length_eq_zero hBlen)
    rw [if_neg hcond] at h3
    subst h3
    refine ⟨rfl, rfl, hall, ?_, ?_, ?_⟩
    · intro _
      show m3.allBullets[m3.selectedIndex]? = B.head?
      rw [hall, hidx, List.getElem?_append_right (Nat.le_refl _), Nat.sub_self,
        List.head?_eq_getElem?]
    · intro hBe; exact absurd hBe hB
    · intro hBe _; exact absurd hBe hB

/-- C7: `deleteBullet` removes the selected node together with its entire
subtree (skeleton, address set and visible block), but the claimed selection
rule is amended: the selection index is retained, so the selection lands on
the *next* visible node after the removed block when one exists; it moves to
the previous visible neighbor only when the deleted node's block formed the
tail of the visible ordering, and becomes empty when nothing remains. -/
theorem C7_delete (m : Model) (F : List BT) (s : Nat)
    (hrep : RepF m.heap m.rootBullets F)
    (hnd : (BT.addrsL F).Nodup)
    (hfuel : BT.heightL F ≤ m.next)
    (hzoom : m.zoomedBullet = none)
    (hall : m.allBullets = visibleList m.heap m.next m.rootBullets m.zoomedBullet)
    (hsel : getSelectedBullet m = some s) :
    ∃ u A B,
      findAL s F = some u
      ∧ m.allBullets = A ++ s :: (vdT m.heap u ++ B)
      ∧ m.selectedIndex = A.length
      ∧ RepF (deleteBullet m).heap (deleteBullet m).rootBullets (removeSubL s F)
      ∧ s ∉ BT.addrsL (removeSubL s F)
      ∧ (BT.addrsL (removeSubL s F) ++ u.addrs).Perm (BT.addrsL F)
      ∧ (deleteBullet m).allBullets = A ++ B
      ∧ (B ≠ [] → getSelectedBullet (deleteBullet m) = B.head?)
      ∧ (B = [] → A ≠ [] → getSelectedBullet (deleteBullet m) = A.getLast?)
      ∧ (B = [] → A = [] → getSelectedBullet (deleteBullet m) = none) := by
  have hallv : m.allBullets = vdTL m.heap F := by
    rw [hall, hzoom]
    exact visibleList_adequate_none m.heap m.rootBullets F m.next hrep hfuel
  have hsel' : m.allBullets[m.selectedIndex]? = some s := hsel
  have hsmem : s ∈ m.allBullets := List.getElem?_mem hsel'
  have hsvd : s ∈ vdTL m.heap F := hallv ▸ hsmem
  have hsF : s ∈ BT.addrsL F := (vdTL_sublist m.heap F).subset hsvd
  obtain ⟨u, hfind⟩ : ∃ u, findAL s F = some u := by
    have hfsome := findAL_isSome_of_mem s F hsF
    cases hf : findAL s F with
    | none => rw [hf] at hfsome; cases hfsome
    | some u => exact ⟨u, rfl⟩
  obtain ⟨A, B, hAB, hAB2⟩ := (visRemove_l m.heap s F u hnd hsF hfind).1 hsvd
  have hABfull : m.allBullets = A ++ s :: (vdT m.heap u ++ B) := by rw [hallv, hAB]
  have hidx : m.selectedIndex = A.length := by
    refine nodup_index_eq A s (vdT m.heap u ++ B) m.selectedIndex ?_ ?_
    · rw [← hAB]
      exact (vdTL_sublist m.heap F).nodup hnd
    · rw [← hABfull]
      exact hsel'
  obtain ⟨bs, hbs⟩ : ∃ bs, m.heap s = some bs := by
    obtain ⟨pu, hpu⟩ := findAL_rep m.heap s F none u hrep.2 hfind
    obtain ⟨huaddr, _⟩ := findAL_addr_sub s F u hfind
    cases hu : u with
    | node a1 cs1 =>
      rw [hu] at hpu
      cases hpu with
      | mk hb hp1 hc1 hcs1 =>
        rename_i b1
        have ha1 : a1 = s := by simpa [hu, BT.addr] using huaddr
        exact ⟨b1, ha1 ▸ hb⟩
  have hparv : parentOf m.heap s = bs.parent := by
    simp [parentOf, hbs]
  cases hbsp : bs.parent with
  | some p =>
    obtain ⟨d1, d2, _, _, _⟩ := detachF_parent m.heap p s bs hbs hbsp F hrep.2 hnd hsF
    have hrep2 : RepF (removeChild m.heap p s) m.rootBullets (removeSubL s F) := by
      refine ⟨?_, d1⟩
      rw [hrep.1, d2]
    have hvl2 : visibleList (removeChild m.heap p s) m.next m.rootBullets none
        = A ++ B := by
      rw [visibleList_adequate_none (removeChild m.heap p s) m.rootBullets
        (removeSubL s F) m.next hrep2 (le_trans (removeSubL_height s F) hfuel),
        vdTL_congr_col m.heap (removeChild m.heap p s)
          (removeChild_collapsed m.heap p s) (removeSubL s F), hAB2]
    have hparv2 : parentOf m.heap s = some p := by rw [hparv, hbsp]
    set m2 : Model := rebuildVisibleList { m with heap := removeChild m.heap p s } with hm2
    have h3 : deleteBullet m =
        if m2.selectedIndex ≥ m2.allBullets.length ∧ m2.selectedIndex > 0 then
          { m2 with selectedIndex := m2.selectedIndex - 1 } else m2 := by
      rw [hm2]
      simp only [deleteBullet, hsel, hparv2]
    have hall2 : m2.allBullets = A ++ B := by
      rw [hm2]
      show visibleList (removeChild m.heap p s) m.next m.rootBullets m.zoomedBullet = A ++ B
      rw [hzoom, hvl2]
    have hidx2 : m2.selectedIndex = A.length := by
      rw [hm2]
      show m.selectedIndex = A.length
      exact hidx
    obtain ⟨hh3, hr3, ha3, hselB, hselA, hselN⟩ :=
      clamp_sel m2 (deleteBullet m) A B hall2 hidx2 h3
    refine ⟨u, A, B, hfind, hABfull, hidx, ?_, removeSubL_no_s s F,
      removeSubL_perm s F hnd hsF u hfind, ha3, hselB, hselA, hselN⟩
    rw [hh3, hr3, hm2]
    show RepF (removeChild m.heap p s) m.rootBullets (removeSubL s F)
    exact hrep2
  | none =>
    obtain ⟨r1, _, _, _⟩ := removeRootF m.heap s bs hbs hbsp F hrep.2 hnd hsF
    have hroots2 : m.rootBullets.erase s = (removeSubL s F).map BT.addr := by
      rw [hrep.1, removeSubL_map_addr s F hnd]
    have hrep2 : RepF m.heap (m.rootBullets.erase s) (removeSubL s F) := ⟨hroots2, r1⟩
    have hvl2 : visibleList m.heap m.next (m.rootBullets.erase s) none = A ++ B := by
      rw [visibleList_adequate_none m.heap (m.rootBullets.erase s) (removeSubL s F)
        m.next hrep2 (le_trans (removeSubL_height s F) hfuel), hAB2]
    have hparv2 : parentOf m.heap s = none := by rw [hparv, hbsp]
    set m2 : Model := rebuildVisibleList { m with rootBullets := m.rootBullets.erase s }
      with hm2
    have h3 : deleteBullet m =
        if m2.selectedIndex ≥ m2.allBullets.length ∧ m2.selectedIndex > 0 then
          { m2 with selectedIndex := m2.selectedIndex - 1 } else m2 := by
      rw [hm2]
      simp only [deleteBullet, hsel, hparv2]
    have hall2 : m2.allBullets = A ++ B := by
      rw [hm2]
      show visibleList m.heap m.next (m.rootBullets.erase s) m.zoomedBullet = A ++ B
      rw [hzoom, hvl2]
    have hidx2 : m2.selectedIndex = A.length := by
      rw [hm2]
      show m.selectedIndex = A.length
      exact hidx
    obtain ⟨hh3, hr3, ha3, hselB, hselA, hselN⟩ :=
      clamp_sel m2 (deleteBullet m) A B hall2 hidx2 h3
    refine ⟨u, A, B, hfind, hABfull, hidx, ?_, removeSubL_no_s s F,
      removeSubL_perm s F hnd hsF u hfind, ha3, hselB, hselA, hselN⟩
    rw [hh3, hr3, hm2]
    show RepF m.heap (m.rootBullets.erase s) (removeSubL s F)
    exact hrep2

def F7 : List BT := [.node 0 [], .node 1 []]

theorem rep7F : RepF m7.heap m7.rootBullets F7 := by
  refine ⟨rfl, ?_⟩
  intro t ht
  rcases List.mem_cons.mp ht with rfl | ht2
  · exact RepT.mk (b := newBullet "A") (by decide) rfl rfl
      (by intro t2 ht2; cases ht2)
  · rcases List.mem_singleton.mp ht2 with rfl
    exact RepT.mk (b := newBullet "B") (by decide) rfl rfl
      (by intro t2 ht2; cases ht2)

theorem C7_delete_witness :
    ∃ u A B,
      findAL 0 F7 = some u
      ∧ m7.allBullets = A ++ 0 :: (vdT m7.heap u ++ B)
      ∧ m7.selectedIndex = A.length
      ∧ RepF (deleteBullet m7).heap (deleteBullet m7).rootBullets (removeSubL 0 F7)
      ∧ 0 ∉ BT.addrsL (removeSubL 0 F7)
      ∧ (BT.addrsL (removeSubL 0 F7) ++ BT.addrs u).Perm (BT.addrsL F7)
      ∧ (deleteBullet m7).allBullets = A ++ B
      ∧ (B ≠ [] → getSelectedBullet (deleteBullet m7) = B.head?)
      ∧ (B = [] → A ≠ [] → getSelectedBullet (deleteBullet m7) = A.getLast?)
      ∧ (B = [] → A = [] → getSelectedBullet (deleteBullet m7) = none) :=
  C7_delete m7 F7 0 rep7F (by decide) (by decide) rfl (by decide) (by decide)

/-! ## moveBulletDown -/

theorem findIdxA_bound :
    ∀ (l : List Nat) (t k i : Nat), findIdxA l t k = some i → k ≤ i ∧ i - k < l.length := by
  intro l
  induction l with
  | nil => intro t k i h; cases h
  | cons b rest ih =>
    intro t k i h
    have hdef : findIdxA (b :: rest) t k
        = if b = t then some k else findIdxA rest t (k + 1) := rfl
    rw [hdef] at h
    by_cases hbt : b = t
    · rw [if_pos hbt] at h
      cases h
      refine ⟨Nat.le_refl k, ?_⟩
      simp
    · rw [if_neg hbt] at h
      obtain ⟨h1, h2⟩ := ih t (k + 1) i h
      refine ⟨by omega, ?_⟩
      rw [List.length_cons]
      omega

theorem find?_split (p : Nat → Bool) :
    ∀ (l : List Nat) (a : Nat), l.find? p = some a →
    ∃ l1 l2, l = l1 ++ a :: l2 ∧ p a = true ∧ ∀ x ∈ l1, p x = false := by
  intro l
  induction l with
  | nil => intro a h; cases h
  | cons b bs ih =>
    intro a h
    cases hpb : p b with
    | true =>
      rw [List.find?_cons_of_pos _ hpb] at h
      cases h
      exact ⟨[], bs, rfl, hpb, by intro x hx; cases hx⟩
    | false =>
      rw [List.find?_cons_of_neg _ (by rw [hpb]; exact Bool.false_ne_true)] at h
      obtain ⟨l1, l2, heq, hpa, hl1⟩ := ih a h
      refine ⟨b :: l1, l2, by rw [heq]; rfl, hpa, ?_⟩
      intro x hx
      rcases List.mem_cons.mp hx with rfl | hx2
      · exact hpb
      · exact hl1 x hx2

theorem parentOf_setParent_none (h : Heap) (s : Nat) :
    parentOf (setParent h s none) s = none := by
  simp only [parentOf, setParent, modifyB, if_pos rfl]
  cases h s <;> simp

/-- The effect of `InsertChildAt` on the parent's children and the child's
back-reference. -/
theorem insertChildAt_spec (h : Heap) (tp i s : Nat) (bb : Bullet)
    (hb : h tp = some bb) (hle : i ≤ bb.children.length) (htps : tp ≠ s)
    (hsc : (h s).isSome) :
    childrenOf (insertChildAt h tp i s) tp = bb.children.insertIdx i s
    ∧ parentOf (insertChildAt h tp i s) s = some tp := by
  simp only [insertChildAt, hb]
  rw [if_pos hle]
  constructor
  · simp [childrenOf, modifyB, setParent, hb, htps]
  · cases hx : h s with
    | none => rw [hx] at hsc; cases hsc
    | some bsel => simp [parentOf, modifyB, setParent, Ne.symm htps, hx]

theorem finalBump_heap (m3 : Model) :
    (if m3.selectedIndex < m3.allBullets.length - 1 then
      { m3 with selectedIndex := m3.selectedIndex + 1 } else m3).heap = m3.heap := by
  split <;> rfl

theorem finalBump_roots (m3 : Model) :
    (if m3.selectedIndex < m3.allBullets.length - 1 then
      { m3 with selectedIndex := m3.selectedIndex + 1 } else m3).rootBullets
      = m3.rootBullets := by
  split <;> rfl

theorem rebuild_heap (m : Model) : (rebuildVisibleList m).heap = m.heap := rfl

theorem rebuild_roots (m : Model) :
    (rebuildVisibleList m).rootBullets = m.rootBullets := rfl

/-- C6: `moveBulletDown` scans the visible ordering after the selection for
the nearest node at the selection's depth relative to the zoom root, retries
once one level shallower, and is a silent no-op without a target; with a
target it reinserts the detached node immediately after the target: as the
next sibling under the target's parent, or right after the target in the
root list when the target sits at root level. -/
theorem C6_moveDown (m : Model) (s : Nat) (hsel : getSelectedBullet m = some s) :
    (findTarget (scanDown m) (depthOf m s) = none → moveBulletDown m = m)
    ∧ (∀ d t, scanDown m d = some t →
        ∃ l1 l2, m.allBullets.drop (m.selectedIndex + 1) = l1 ++ t :: l2
          ∧ depthOf m t = d ∧ ∀ x ∈ l1, depthOf m x ≠ d)
    ∧ (∀ t tp i,
        findTarget (scanDown m) (depthOf m s) = some t →
        depthOfIn (detachSelected m s).heap (detachSelected m s).next
          (detachSelected m s).zoomedBullet t ≠ 0 →
        parentOf (detachSelected m s).heap t = some tp →
        findIdxA (childrenOf (detachSelected m s).heap tp) t 0 = some i →
        tp ≠ s →
        ((detachSelected m s).heap s).isSome →
        childrenOf (moveBulletDown m).heap tp
            = (childrenOf (detachSelected m s).heap tp).insertIdx (i + 1) s
          ∧ parentOf (moveBulletDown m).heap s = some tp)
    ∧ (∀ t i,
        findTarget (scanDown m) (depthOf m s) = some t →
        depthOfIn (detachSelected m s).heap (detachSelected m s).next
          (detachSelected m s).zoomedBullet t = 0 →
        findIdxA (detachSelected m s).rootBullets t 0 = some i →
        (moveBulletDown m).rootBullets
            = (detachSelected m s).rootBullets.insertIdx (i + 1) s
          ∧ parentOf (moveBulletDown m).heap s = none) := by
  refine ⟨?_, ?_, ?_, ?_⟩
  · intro hnone
    simp only [moveBulletDown, hsel, hnone]
  · intro d t hscan
    obtain ⟨l1, l2, heq, hpa, hl1⟩ :=
      find?_split (fun b => decide (depthOf m b = d))
        (m.allBullets.drop (m.selectedIndex + 1)) t hscan
    refine ⟨l1, l2, heq, by simpa using hpa, ?_⟩
    intro x hx
    simpa using hl1 x hx
  · intro t tp i hft hdep hpar hidx htps hsc
    obtain ⟨bb, hbb⟩ : ∃ bb, (detachSelected m s).heap tp = some bb := by
      cases hb : (detachSelected m s).heap tp with
      | none =>
        rw [childrenOf, hb] at hidx
        cases hidx
      | some bb => exact ⟨bb, rfl⟩
    have hch : childrenOf (detachSelected m s).heap tp = bb.children := by
      rw [childrenOf, hbb]
    rw [hch] at hidx
    have hlen : i + 1 ≤ bb.children.length := by
      obtain ⟨_, h2⟩ := findIdxA_bound bb.children t 0 i hidx
      omega
    have hspec := insertChildAt_spec (detachSelected m s).heap tp (i + 1) s bb
      hbb hlen htps hsc
    have hheap : (moveBulletDown m).heap
        = insertChildAt (detachSelected m s).heap tp (i + 1) s := by
      simp only [moveBulletDown, hsel, hft]
      rw [finalBump_heap, rebuild_heap, if_neg hdep]
      simp only [hpar, hch, hidx]
    rw [hheap, hch]
    exact hspec
  · intro t i hft hdep hidx
    constructor
    · have hroots : (moveBulletDown m).rootBullets
          = (detachSelected m s).rootBullets.insertIdx (i + 1) s := by
        simp only [moveBulletDown, hsel, hft]
        rw [finalBump_roots, rebuild_roots, if_pos hdep]
        simp only [hidx]
      exact hroots
    · have hheap : (moveBulletDown m).heap
          = setParent (detachSelected m s).heap s none := by
        simp only [moveBulletDown, hsel, hft]
        rw [finalBump_heap, rebuild_heap, if_pos hdep]
        simp only [hidx]
      rw [hheap]
      exact parentOf_setParent_none _ s

def m6h : Heap :=
  addChild
    (addChild
      (hset (hset (hset emptyHeap 0 (newBullet "A")) 1 (newBullet "B")) 2 (newBullet "C"))
      0 1)
    0 2

def m6 : Model := ⟨m6h, 3, [0], [0, 1, 2], 1, none, [], true⟩

theorem C6_moveDown_witness :
    (childrenOf (moveBulletDown m6).heap 0
        = (childrenOf (detachSelected m6 1).heap 0).insertIdx 1 1
      ∧ parentOf (moveBulletDown m6).heap 1 = some 0)
      ∧ childrenOf (moveBulletDown m6).heap 0 = [2, 1] :=
  ⟨(C6_moveDown m6 1 (by decide)).2.2.1 2 0 0 (by decide) (by decide) (by decide)
      (by decide) (by decide) (by decide),
    by decide⟩

/-! ## The structural invariant (C3): shared machinery

`RepT`/`RepF` read only the parent and children fields of a cell, so a heap
modification preserving those two fields on the relevant addresses preserves
the representation. -/

def pcOf (o : Option Bullet) : Option (Option Nat × List Nat) :=
  o.map (fun b => (b.parent, b.children))

theorem RepT_pc_congr (h h2 : Heap) :
    ∀ (t : BT) (par : Option Nat), (∀ x ∈ t.addrs, pcOf (h2 x) = pcOf (h x)) →
    RepT h par t → RepT h2 par t := by
  intro t
  induction t using BT.indOn with
  | h a cs ih =>
    intro par hag hrep
    cases hrep with
    | mk hb hp hc hcs =>
      rename_i b
      have hpc := hag a (by simp [BT.addrs_def])
      rw [hb] at hpc
      cases h2a : h2 a with
      | none =>
        rw [h2a] at hpc
        simp [pcOf] at hpc
      | some b2 =>
        rw [h2a] at hpc
        simp [pcOf] at hpc
        refine RepT.mk h2a (by rw [hpc.1, hp]) (by rw [hpc.2, hc]) ?_
        intro t2 ht2
        refine ih t2 ht2 (some a) (fun x hx => hag x ?_) (hcs t2 ht2)
        simp only [BT.addrs_def, List.mem_cons]
        exact Or.inr (BT.mem_addrsL_of_mem ht2 hx)

mutual

theorem BT.height_le_len : ∀ t : BT, t.height ≤ t.addrs.length
  | .node a cs => by
    show BT.heightL cs + 1 ≤ (a :: BT.addrsL cs).length
    rw [List.length_cons]
    exact Nat.add_le_add_right (BT.heightL_le_len cs) 1

theorem BT.heightL_le_len : ∀ ts : List BT, BT.heightL ts ≤ (BT.addrsL ts).length
  | [] => Nat.le_refl 0
  | t :: ts => by
    show max t.height (BT.heightL ts) ≤ (t.addrs ++ BT.addrsL ts).length
    rw [List.length_append]
    have h1 := BT.height_le_len t
    have h2 := BT.heightL_le_len ts
    omega

end

theorem nodup_bound_length (l : List Nat) (n : Nat) (hnd : l.Nodup)
    (hb : ∀ a ∈ l, a < n) : l.length ≤ n := by
  have hsub : l ⊆ List.range n := fun a ha => List.mem_range.mpr (hb a ha)
  have hsp : l.Subperm (List.range n) := List.subperm_of_subset hnd hsub
  simpa using hsp.length_le

/-! Skeletal depth: the number of ancestor hops inside the forest. -/

mutual

def depthInT (x : Nat) : BT → Option Nat
  | .node a cs => if x = a then some 0 else (depthInL x cs).map (· + 1)

def depthInL (x : Nat) : List BT → Option Nat
  | [] => none
  | t :: ts =>
    match depthInT x t with
    | some d => some d
    | none => depthInL x ts

end

theorem depthInT_def (x a : Nat) (cs : List BT) :
    depthInT x (.node a cs)
      = if x = a then some 0 else (depthInL x cs).map (· + 1) := rfl

mutual

theorem depthInT_none_of_not_mem :
    ∀ (t : BT) (x : Nat), x ∉ t.addrs → depthInT x t = none
  | .node a cs, x => by
    intro hx
    rw [BT.addrs_def] at hx
    have hxa : ¬ x = a := fun he => hx (he ▸ List.mem_cons_self _ _)
    have hxc : x ∉ BT.addrsL cs := fun hm => hx (List.mem_cons_of_mem _ hm)
    rw [depthInT_def, if_neg hxa, depthInL_none_of_not_mem cs x hxc]
    rfl

theorem depthInL_none_of_not_mem :
    ∀ (ts : List BT) (x : Nat), x ∉ BT.addrsL ts → depthInL x ts = none
  | [], x => fun _ => rfl
  | t :: ts, x => by
    intro hx
    rw [BT.addrsL_cons] at hx
    have h1 : x ∉ t.addrs := fun hm => hx (List.mem_append_left _ hm)
    have h2 : x ∉ BT.addrsL ts := fun hm => hx (List.mem_append_right _ hm)
    show (match depthInT x t with
      | some d => some d
      | none => depthInL x ts) = none
    rw [depthInT_none_of_not_mem t x h1, depthInL_none_of_not_mem ts x h2]

end

mutual

theorem depthInT_isSome_of_mem :
    ∀ (t : BT) (x : Nat), x ∈ t.addrs → (depthInT x t).isSome
  | .node a cs, x => by
    intro hx
    rw [depthInT_def]
    by_cases hxa : x = a
    · simp [hxa]
    · rw [if_neg hxa]
      have hxc : x ∈ BT.addrsL cs := by
        rcases List.mem_cons.mp (by simpa [BT.addrs_def] using hx) with h1 | h1
        · exact absurd h1 hxa
        · exact h1
      have := depthInL_isSome_of_mem cs x hxc
      cases hd : depthInL x cs with
      | none => rw [hd] at this; cases this
      | some d => rfl

theorem depthInL_isSome_of_mem :
    ∀ (ts : List BT) (x : Nat), x ∈ BT.addrsL ts → (depthInL x ts).isSome
  | [], x => by intro hx; cases hx
  | t :: ts, x => by
    intro hx
    rw [BT.addrsL_cons, List.mem_append] at hx
    show (match depthInT x t with
      | some d => some d
      | none => depthInL x ts).isSome
    cases hd : depthInT x t with
    | some d => simp
    | none =>
      rcases hx with h1 | h1
      · have := depthInT_isSome_of_mem t x h1
        rw [hd] at this
        cases this
      · exact depthInL_isSome_of_mem ts x h1

end

mutual

theorem depthInT_bound :
    ∀ (t : BT) (x d : Nat), depthInT x t = some d → d + 1 ≤ t.addrs.length
  | .node a cs, x, d => by
    intro hd
    rw [depthInT_def] at hd
    by_cases hxa : x = a
    · rw [if_pos hxa] at hd
      cases hd
      simp [BT.addrs_def]
    · rw [if_neg hxa] at hd
      cases hdl : depthInL x cs with
      | none => rw [hdl] at hd; cases hd
      | some d2 =>
        rw [hdl] at hd
        simp at hd
        have := depthInL_bound cs x d2 hdl
        rw [BT.addrs_def, List.length_cons]
        omega

theorem depthInL_bound :
    ∀ (ts : List BT) (x d : Nat), depthInL x ts = some d → d + 1 ≤ (BT.addrsL ts).length
  | [], x, d => by intro hd; cases hd
  | t :: ts, x, d => by
    intro hd
    have hd' : (match depthInT x t with
      | some d2 => some d2
      | none => depthInL x ts) = some d := hd
    rw [BT.addrsL_cons, List.length_append]
    cases hdt : depthInT x t with
    | some d2 =>
      rw [hdt] at hd'
      cases hd'
      have := depthInT_bound t x d hdt
      omega
    | none =>
      rw [hdt] at hd'
      have := depthInL_bound ts x d hd'
      omega

end

/-- The forest-level pre-order traversal of the whole document. -/
def forestTraversal (h : Heap) (fuel : Nat) (roots : List Nat) : List Nat :=
  roots.flatMap (fullTraversal h fuel)

mutual

/-- With enough fuel, `fullTraversal` lists exactly the subtree's addresses
in pre-order. -/
theorem fullTraversal_adequate (h : Heap) (fuel : Nat) :
    ∀ (t : BT) (par : Option Nat), RepT h par t → t.height ≤ fuel →
    fullTraversal h fuel t.addr = t.addrs
  | .node a cs, par => by
    intro hrep hht
    cases hrep with
    | mk hb hp hc hcs =>
      rename_i b
      match fuel, hht with
      | fuel + 1, hht =>
        show a :: (childrenOf h a).flatMap (fullTraversal h fuel) = _
        have hco : childrenOf h a = List.map BT.addr cs := by
          simp [childrenOf, hb, hc]
        rw [hco, BT.addrs_def]
        have hhtL : BT.heightL cs ≤ fuel := by
          have : BT.heightL cs + 1 ≤ fuel + 1 := hht
          omega
        rw [fullTraversalL_adequate h fuel cs a hcs hhtL]

theorem fullTraversalL_adequate (h : Heap) (fuel : Nat) :
    ∀ (ts : List BT) (a : Nat), (∀ t ∈ ts, RepT h (some a) t) →
    BT.heightL ts ≤ fuel →
    (ts.map BT.addr).flatMap (fullTraversal h fuel) = BT.addrsL ts
  | [], a => fun _ _ => rfl
  | t :: ts, a => by
    intro hreps hht
    have hht1 : t.height ≤ fuel := le_trans (Nat.le_max_left _ _) hht
    have hht2 : BT.heightL ts ≤ fuel := le_trans (Nat.le_max_right _ _) hht
    show fullTraversal h fuel t.addr ++ (ts.map BT.addr).flatMap (fullTraversal h fuel)
      = BT.addrsL (t :: ts)
    rw [fullTraversal_adequate h fuel t (some a) (hreps t (List.mem_cons_self _ _)) hht1,
      fullTraversalL_adequate h fuel ts a
        (fun t2 ht2 => hreps t2 (List.mem_cons_of_mem _ ht2)) hht2,
      BT.addrsL_cons]

end

theorem rep_root_cell (h : Heap) (t : BT) (par : Option Nat) (hrep : RepT h par t) :
    ∃ b, h t.addr = some b ∧ b.parent = par := by
  cases t with
  | node a cs =>
    cases hrep with
    | mk hb hp hc hcs => exact ⟨_, hb, hp⟩

theorem depthInT_self (t : BT) : depthInT t.addr t = some 0 := by
  cases t with
  | node a cs =>
    show depthInT a (.node a cs) = some 0
    rw [depthInT_def, if_pos rfl]

theorem depthInL_append_left_none (x : Nat) :
    ∀ (l1 l2 : List BT), x ∉ BT.addrsL l1 → depthInL x (l1 ++ l2) = depthInL x l2 := by
  intro l1
  induction l1 with
  | nil => intro l2 _; rfl
  | cons t ts ih =>
    intro l2 hx
    rw [BT.addrsL_cons] at hx
    have h1 : x ∉ t.addrs := fun hm => hx (List.mem_append_left _ hm)
    have h2 : x ∉ BT.addrsL ts := fun hm => hx (List.mem_append_right _ hm)
    show (match depthInT x t with
      | some d => some d
      | none => depthInL x (ts ++ l2)) = depthInL x l2
    rw [depthInT_none_of_not_mem t x h1]
    exact ih l2 h2

theorem depthInL_cons_of_not_mem_rest (x : Nat) (t : BT) (ts : List BT)
    (hx : x ∉ BT.addrsL ts) : depthInL x (t :: ts) = depthInT x t := by
  show (match depthInT x t with
    | some d => some d
    | none => depthInL x ts) = depthInT x t
  cases hdt : depthInT x t with
  | some d => rfl
  | none => rw [depthInL_none_of_not_mem ts x hx]

theorem depthInL_some_ex (x d : Nat) :
    ∀ (ts : List BT), depthInL x ts = some d → ∃ t ∈ ts, depthInT x t = some d := by
  intro ts
  induction ts with
  | nil => intro h; cases h
  | cons t ts ih =>
    intro h
    have h2 : (match depthInT x t with
      | some d2 => some d2
      | none => depthInL x ts) = some d := h
    cases hdt : depthInT x t with
    | some d2 =>
      rw [hdt] at h2
      cases h2
      exact ⟨t, List.mem_cons_self _ _, hdt⟩
    | none =>
      rw [hdt] at h2
      obtain ⟨t2, ht2, hdt2⟩ := ih h2
      exact ⟨t2, List.mem_cons_of_mem _ ht2, hdt2⟩

/-- Structure of a represented tree: the root's back-reference carries the
tree's parent, an inner node's back-reference names a node one level up. -/
theorem pd_t (h : Heap) :
    ∀ (t : BT) (par : Option Nat), RepT h par t → t.addrs.Nodup →
    ∀ x, x ∈ t.addrs →
      (x = t.addr → parentOf h x = par ∧ depthInT x t = some 0)
      ∧ (x ≠ t.addr → ∃ q d, parentOf h x = some q ∧ q ∈ t.addrs
            ∧ depthInT x t = some (d + 1) ∧ depthInT q t = some d) := by
  intro t
  induction t using BT.indOn with
  | h a cs ih =>
    intro par hrep hnd x hx
    cases hrep with
    | mk hb hp hc hcs =>
      rename_i b
      constructor
      · intro hxa
        have hxa2 : x = a := by simpa [BT.addr] using hxa
        subst hxa2
        refine ⟨by simp [parentOf, hb, hp], ?_⟩
        rw [depthInT_def, if_pos rfl]
      · intro hxa
        have hxa2 : ¬ x = a := fun he => hxa (by simpa [BT.addr] using he)
        have hxc : x ∈ BT.addrsL cs := by
          rcases List.mem_cons.mp (by simpa [BT.addrs_def] using hx) with h1 | h1
          · exact absurd h1 hxa2
          · exact h1
        rw [BT.addrs_def] at hnd
        have hndL := hnd.of_cons
        have haL : a ∉ BT.addrsL cs := (List.nodup_cons.mp hnd).1
        obtain ⟨cs1, t', cs2, heq, hxt', hx1, hx2⟩ := split_at_mem cs hndL hxc
        have hsplitnd : (BT.addrsL cs1 ++ (t'.addrs ++ BT.addrsL cs2)).Nodup := by
          rw [← BT.addrsL_cons, ← BT.addrsL_append, ← heq]
          exact hndL
        obtain ⟨hd1t, hdt2, _, _, hndt, _⟩ := nodup_split_disjoint hsplitnd
        have htmem : t' ∈ cs := by
          rw [heq]
          exact List.mem_append_right _ (List.mem_cons_self _ _)
        have hdLx : depthInL x cs = depthInT x t' := by
          rw [heq, depthInL_append_left_none x cs1 _ hx1,
            depthInL_cons_of_not_mem_rest x t' cs2 hx2]
        by_cases hxr : x = t'.addr
        · obtain ⟨b2, hb2, hp2⟩ := rep_root_cell h t' (some a) (hcs t' htmem)
          refine ⟨a, 0, ?_, by simp [BT.addrs_def], ?_, ?_⟩
          · rw [hxr]
            simp [parentOf, hb2, hp2]
          · rw [depthInT_def, if_neg hxa2, hdLx, hxr, depthInT_self]
            rfl
          · rw [show (BT.node a cs).addr = a from rfl] at *
            rw [depthInT_def, if_pos rfl]
        · obtain ⟨q, d, hpq, hqmem, hxd, hqd⟩ :=
            ((ih t' htmem (some a) (hcs t' htmem) hndt x hxt').2) hxr
          have hqa : ¬ q = a := fun he => haL (he ▸ BT.mem_addrsL_of_mem htmem hqmem)
          have hdLq : depthInL q cs = depthInT q t' := by
            rw [heq, depthInL_append_left_none q cs1 _ (fun hm => hd1t hm hqmem),
              depthInL_cons_of_not_mem_rest q t' cs2 (fun hm => hdt2 hqmem hm)]
          refine ⟨q, d + 1, hpq, ?_, ?_, ?_⟩
          · simp only [BT.addrs_def, List.mem_cons]
            exact Or.inr (BT.mem_addrsL_of_mem htmem hqmem)
          · rw [depthInT_def, if_neg hxa2, hdLx, hxd]
            rfl
          · rw [depthInT_def, if_neg hqa, hdLq, hqd]
            rfl

/-- Forest structure: every live address has a well-defined depth; depth-0
nodes are roots with a cleared back-reference, deeper nodes point one level
up. -/
theorem forest_pd (h : Heap) :
    ∀ (F : List BT), (∀ t ∈ F, RepT h none t) → (BT.addrsL F).Nodup →
    ∀ x ∈ BT.addrsL F, ∃ dx, depthInL x F = some dx ∧
      ((dx = 0 ∧ parentOf h x = none ∧ x ∈ F.map BT.addr) ∨
       (∃ q d, dx = d + 1 ∧ parentOf h x = some q ∧ q ∈ BT.addrsL F
          ∧ depthInL q F = some d)) := by
  intro F
  induction F with
  | nil => intro _ _ x hx; cases hx
  | cons t ts ih =>
    intro hrep hnd x hx
    rw [BT.addrsL_cons] at hnd hx
    have hdisj := List.disjoint_of_nodup_append hnd
    rcases List.mem_append.mp hx with h1 | h1
    · have hpd := pd_t h t none (hrep t (List.mem_cons_self _ _)) hnd.of_append_left x h1
      by_cases hxr : x = t.addr
      · obtain ⟨hpar, hdep⟩ := hpd.1 hxr
        refine ⟨0, ?_, Or.inl ⟨rfl, hpar, ?_⟩⟩
        · show (match depthInT x t with
            | some d => some d
            | none => depthInL x ts) = some 0
          rw [hdep]
        · rw [hxr]
          simp
      · obtain ⟨q, d, hpq, hqmem, hxd, hqd⟩ := hpd.2 hxr
        refine ⟨d + 1, ?_, Or.inr ⟨q, d, rfl, hpq, ?_, ?_⟩⟩
        · show (match depthInT x t with
            | some d2 => some d2
            | none => depthInL x ts) = some (d + 1)
          rw [hxd]
        · rw [BT.addrsL_cons]
          exact List.mem_append_left _ hqmem
        · show (match depthInT q t with
            | some d2 => some d2
            | none => depthInL q ts) = some d
          rw [hqd]
    · have hxnt : x ∉ t.addrs := fun hm => hdisj hm h1
      obtain ⟨dx, hdx, hcase⟩ := ih (fun t2 ht2 => hrep t2 (List.mem_cons_of_mem _ ht2))
        hnd.of_append_right x h1
      refine ⟨dx, ?_, ?_⟩
      · show (match depthInT x t with
          | some d2 => some d2
          | none => depthInL x ts) = some dx
        rw [depthInT_none_of_not_mem t x hxnt, hdx]
      · rcases hcase with ⟨h0, hpar, hmem⟩ | ⟨q, d, hdd, hpq, hqmem, hqd⟩
        · refine Or.inl ⟨h0, hpar, ?_⟩
          simp only [List.map_cons, List.mem_cons]
          exact Or.inr hmem
        · refine Or.inr ⟨q, d, hdd, hpq, ?_, ?_⟩
          · rw [BT.addrsL_cons]
            exact List.mem_append_right _ hqmem
          · have hqnt : q ∉ t.addrs := fun hm => hdisj hm hqmem
            show (match depthInT q t with
              | some d2 => some d2
              | none => depthInL q ts) = some d
            rw [depthInT_none_of_not_mem t q hqnt, hqd]

theorem getDepthAux_step (h : Heap) (fuel a base p : Nat) (b : Bullet)
    (hb : h a = some b) (hp : b.parent = some p) :
    getDepthAux h (fuel + 1) a base = getDepthAux h fuel p (base + 1) := by
  simp [getDepthAux, hb, hp]

theorem getDepthAux_root (h : Heap) (fuel a base : Nat) (b : Bullet)
    (hb : h a = some b) (hp : b.parent = none) :
    getDepthAux h (fuel + 1) a base = base := by
  simp [getDepthAux, hb, hp]

/-- Climbing the parent chain from a node at skeletal depth `d` reaches the
tree root after `d` hops. -/
theorem climb_t (h : Heap) :
    ∀ (t : BT) (par : Option Nat), RepT h par t →
    ∀ x d, depthInT x t = some d →
    ∀ fuel base, getDepthAux h (fuel + 1 + d) x base
      = getDepthAux h (fuel + 1) t.addr (base + d) := by
  intro t
  induction t using BT.indOn with
  | h a cs ih =>
    intro par hrep x d hxd fuel base
    cases hrep with
    | mk hb hp hc hcs =>
      rename_i b
      rw [depthInT_def] at hxd
      by_cases hxa : x = a
      · rw [if_pos hxa] at hxd
        cases hxd
        subst hxa
        rfl
      · rw [if_neg hxa] at hxd
        cases hdl : depthInL x cs with
        | none => rw [hdl] at hxd; cases hxd
        | some d2 =>
          rw [hdl] at hxd
          simp at hxd
          obtain ⟨t', ht', hdt'⟩ := depthInL_some_ex x d2 cs hdl
          obtain ⟨b2, hb2, hp2⟩ := rep_root_cell h t' (some a) (hcs t' ht')
          have hIH := ih t' ht' (some a) (hcs t' ht') x d2 hdt' (fuel + 1) base
          have hstep := getDepthAux_step h (fuel + 1) t'.addr (base + d2) a b2 hb2 hp2
          subst hxd
          have harith : fuel + 1 + (d2 + 1) = fuel + 1 + 1 + d2 := by omega
          rw [harith, hIH, hstep]
          rfl

/-- `GetDepth` computes the skeletal depth on represented heaps. -/
theorem getDepth_adequate (h : Heap) (F : List BT)
    (hrep : ∀ t ∈ F, RepT h none t) (x d : Nat) (hd : depthInL x F = some d)
    (fuel : Nat) (hfuel : d + 1 ≤ fuel) : getDepth h fuel x = d := by
  obtain ⟨t, ht, hdt⟩ := depthInL_some_ex x d F hd
  obtain ⟨b, hb, hp⟩ := rep_root_cell h t none (hrep t ht)
  obtain ⟨f, hfe⟩ : ∃ f, fuel = f + 1 + d := ⟨fuel - d - 1, by omega⟩
  subst hfe
  show getDepthAux h (f + 1 + d) x 0 = d
  rw [climb_t h t none (hrep t ht) x d hdt f 0,
    getDepthAux_root h f t.addr (0 + d) b hb hp]
  omega

mutual

/-- A strict member of the subtree found at `s` sits strictly deeper than
`s`. -/
theorem depth_sub_gt_t :
    ∀ (t : BT), t.addrs.Nodup → ∀ (s : Nat) (u : BT), findA s t = some u →
    ∀ x ∈ u.addrs, x ≠ s →
    ∃ ds k, depthInT s t = some ds ∧ depthInT x t = some (ds + k) ∧ 1 ≤ k
  | .node a cs => by
    intro hnd s u hu x hx hxs
    rw [findA_def] at hu
    by_cases hsa : s = a
    · rw [if_pos hsa] at hu
      cases hu
      have hxa : ¬ x = a := fun he => hxs (he.trans hsa.symm)
      have hxc : x ∈ BT.addrsL cs := by
        rcases List.mem_cons.mp (by simpa [BT.addrs_def] using hx) with h1 | h1
        · exact absurd h1 hxa
        · exact h1
      have hsome := depthInL_isSome_of_mem cs x hxc
      cases hdl : depthInL x cs with
      | none => rw [hdl] at hsome; cases hsome
      | some d2 =>
        refine ⟨0, d2 + 1, ?_, ?_, by omega⟩
        · rw [depthInT_def, if_pos hsa]
        · rw [depthInT_def, if_neg hxa, hdl]
          simp
    · rw [if_neg hsa] at hu
      rw [BT.addrs_def] at hnd
      have haL : a ∉ BT.addrsL cs := (List.nodup_cons.mp hnd).1
      obtain ⟨ds, k, hsd, hxd, hk⟩ := depth_sub_gt_l cs hnd.of_cons s u hu x hx hxs
      have hxsub : x ∈ BT.addrsL cs := (findAL_addr_sub s cs u hu).2 x hx
      have hxa : ¬ x = a := fun he => haL (he ▸ hxsub)
      refine ⟨ds + 1, k, ?_, ?_, hk⟩
      · rw [depthInT_def, if_neg hsa, hsd]
        rfl
      · rw [depthInT_def, if_neg hxa, hxd]
        have : ds + k + 1 = ds + 1 + k := by omega
        rw [show ((some (ds + k)).map (· + 1) : Option Nat) = some (ds + k + 1) from rfl,
          this]

theorem depth_sub_gt_l :
    ∀ (ts : List BT), (BT.addrsL ts).Nodup → ∀ (s : Nat) (u : BT),
    findAL s ts = some u → ∀ x ∈ u.addrs, x ≠ s →
    ∃ ds k, depthInL s ts = some ds ∧ depthInL x ts = some (ds + k) ∧ 1 ≤ k
  | [] => by intro _ s u hu; cases hu
  | t :: ts => by
    intro hnd s u hu x hx hxs
    rw [BT.addrsL_cons] at hnd
    have hdisj := List.disjoint_of_nodup_append hnd
    have hu2 : (match findA s t with
      | some r => some r
      | none => findAL s ts) = some u := hu
    cases hft : findA s t with
    | some r =>
      rw [hft] at hu2
      cases hu2
      obtain ⟨ds, k, hsd, hxd, hk⟩ :=
        depth_sub_gt_t t hnd.of_append_left s u hft x hx hxs
      refine ⟨ds, k, ?_, ?_, hk⟩
      · show (match depthInT s t with
          | some d2 => some d2
          | none => depthInL s ts) = some ds
        rw [hsd]
      · show (match depthInT x t with
          | some d2 => some d2
          | none => depthInL x ts) = some (ds + k)
        rw [hxd]
    | none =>
      rw [hft] at hu2
      have hsnt : s ∉ t.addrs := by
        intro hm
        have := findA_isSome_of_mem s t hm
        rw [hft] at this
        cases this
      obtain ⟨ds, k, hsd, hxd, hk⟩ :=
        depth_sub_gt_l ts hnd.of_append_right s u hu2 x hx hxs
      have hxts : x ∈ BT.addrsL ts := (findAL_addr_sub s ts u hu2).2 x hx
      have hxnt : x ∉ t.addrs := fun hm => hdisj hm hxts
      refine ⟨ds, k, ?_, ?_, hk⟩
      · show (match depthInT s t with
          | some d2 => some d2
          | none => depthInL s ts) = some ds
        rw [depthInT_none_of_not_mem t s hsnt, hsd]
      · show (match depthInT x t with
          | some d2 => some d2
          | none => depthInL x ts) = some (ds + k)
        rw [depthInT_none_of_not_mem t x hxnt, hxd]

end

/-- Depth is strictly monotone into the detached subtree: any strict member
of the subtree at `s` is deeper than `s` in the forest. -/
theorem depth_in_sub_gt (F : List BT) (hnd : (BT.addrsL F).Nodup) (s : Nat) (u : BT)
    (hfind : findAL s F = some u) (x : Nat) (hx : x ∈ u.addrs) (hxs : x ≠ s)
    (ds dx : Nat) (hs : depthInL s F = some ds) (hx2 : depthInL x F = some dx) :
    ds < dx := by
  obtain ⟨ds2, k, hs2, hx3, hk⟩ := depth_sub_gt_l F hnd s u hfind x hx hxs
  rw [hs] at hs2
  cases hs2
  rw [hx2] at hx3
  have := Option.some.inj hx3
  omega

/-! Grafting a detached subtree under a live node. -/

theorem map_insertIdx {α β : Type} (f : α → β) :
    ∀ (n : Nat) (a : α) (l : List α),
    (l.insertIdx n a).map f = (l.map f).insertIdx n (f a) := by
  intro n
  induction n with
  | zero =>
    intro a l
    rw [List.insertIdx_zero, List.insertIdx_zero, List.map_cons]
  | succ n ih =>
    intro a l
    cases l with
    | nil => rfl
    | cons b bs =>
      rw [List.insertIdx_succ_cons, List.map_cons, List.map_cons,
        List.insertIdx_succ_cons, ih]

theorem mem_insertIdx_sub {α : Type} {a x : α} :
    ∀ (n : Nat) (l : List α), x ∈ l.insertIdx n a → x = a ∨ x ∈ l := by
  intro n
  induction n with
  | zero =>
    intro l hx
    rw [List.insertIdx_zero] at hx
    exact List.mem_cons.mp hx
  | succ n ih =>
    intro l hx
    cases l with
    | nil => exact Or.inr hx
    | cons b bs =>
      rw [List.insertIdx_succ_cons] at hx
      rcases List.mem_cons.mp hx with rfl | hx2
      · exact Or.inr (List.mem_cons_self _ _)
      · rcases ih bs hx2 with h | h
        · exact Or.inl h
        · exact Or.inr (List.mem_cons_of_mem _ h)

theorem addrsL_perm : ∀ {l1 l2 : List BT}, l1.Perm l2 →
    (BT.addrsL l1).Perm (BT.addrsL l2) := by
  intro l1 l2 hp
  induction hp with
  | nil => exact List.Perm.refl _
  | cons x h ih =>
    rw [BT.addrsL_cons, BT.addrsL_cons]
    exact List.Perm.append_left _ ih
  | swap x y l =>
    rw [BT.addrsL_cons, BT.addrsL_cons, BT.addrsL_cons, BT.addrsL_cons,
      ← List.append_assoc, ← List.append_assoc]
    exact List.Perm.append_right _ List.perm_append_comm
  | trans h1 h2 ih1 ih2 => exact ih1.trans ih2

theorem nodup_member_addrs {t : BT} :
    ∀ {ts : List BT}, t ∈ ts → (BT.addrsL ts).Nodup → t.addrs.Nodup := by
  intro ts
  induction ts with
  | nil => intro ht; cases ht
  | cons t2 ts ih =>
    intro ht hnd
    rw [BT.addrsL_cons] at hnd
    rcases List.mem_cons.mp ht with rfl | h2
    · exact hnd.of_append_left
    · exact ih h2 hnd.of_append_right

mutual

/-- Insert the subtree `u` at position `k` of the children of the node with
address `g`. -/
def graftT (g k : Nat) (u : BT) : BT → BT
  | .node a cs => .node a (if a = g then cs.insertIdx k u else graftL g k u cs)

def graftL (g k : Nat) (u : BT) : List BT → List BT
  | [] => []
  | t :: ts => graftT g k u t :: graftL g k u ts

end

theorem graftT_def (g k : Nat) (u : BT) (a : Nat) (cs : List BT) :
    graftT g k u (.node a cs)
      = .node a (if a = g then cs.insertIdx k u else graftL g k u cs) := rfl

theorem graftL_cons (g k : Nat) (u t : BT) (ts : List BT) :
    graftL g k u (t :: ts) = graftT g k u t :: graftL g k u ts := rfl

theorem graftT_addr (g k : Nat) (u t : BT) : (graftT g k u t).addr = t.addr := by
  cases t
  rfl

theorem graftL_map_addr (g k : Nat) (u : BT) :
    ∀ ts : List BT, (graftL g k u ts).map BT.addr = ts.map BT.addr := by
  intro ts
  induction ts with
  | nil => rfl
  | cons t ts ih => rw [graftL_cons, List.map_cons, List.map_cons, graftT_addr, ih]

theorem mem_graftL {g k : Nat} {u t2 : BT} :
    ∀ {ts : List BT}, t2 ∈ graftL g k u ts → ∃ t3 ∈ ts, t2 = graftT g k u t3 := by
  intro ts
  induction ts with
  | nil => intro h; cases h
  | cons t ts ih =>
    intro h
    rw [graftL_cons] at h
    rcases List.mem_cons.mp h with rfl | h2
    · exact ⟨t, List.mem_cons_self _ _, rfl⟩
    · obtain ⟨t3, ht3, he⟩ := ih h2
      exact ⟨t3, List.mem_cons_of_mem _ ht3, he⟩

mutual

theorem graftT_id (g k : Nat) (u : BT) :
    ∀ t : BT, g ∉ t.addrs → graftT g k u t = t
  | .node a cs => by
    intro hg
    rw [BT.addrs_def] at hg
    have hga : ¬ a = g := fun he => hg (he ▸ List.mem_cons_self _ _)
    have hgc : g ∉ BT.addrsL cs := fun hm => hg (List.mem_cons_of_mem _ hm)
    rw [graftT_def, if_neg hga, graftL_id g k u cs hgc]

theorem graftL_id (g k : Nat) (u : BT) :
    ∀ ts : List BT, g ∉ BT.addrsL ts → graftL g k u ts = ts
  | [] => fun _ => rfl
  | t :: ts => by
    intro hg
    rw [BT.addrsL_cons] at hg
    have h1 : g ∉ t.addrs := fun hm => hg (List.mem_append_left _ hm)
    have h2 : g ∉ BT.addrsL ts := fun hm => hg (List.mem_append_right _ hm)
    rw [graftL_cons, graftT_id g k u t h1, graftL_id g k u ts h2]

end

mutual

/-- Address multiset of a graft: the subtree's addresses join the tree's. -/
theorem graftT_addrs_perm (g k : Nat) (u : BT) :
    ∀ (t : BT), t.addrs.Nodup → ∀ gcs, findA g t = some (.node g gcs) →
    k ≤ gcs.length → ((graftT g k u t).addrs).Perm (t.addrs ++ u.addrs)
  | .node a cs => by
    intro hnd gcs hfind hk
    rw [findA_def] at hfind
    by_cases hga : g = a
    · rw [if_pos hga] at hfind
      have he := Option.some.inj hfind
      cases he
      rw [graftT_def, if_pos rfl, BT.addrs_def, BT.addrs_def]
      have hperm : (cs.insertIdx k u).Perm (u :: cs) :=
        List.perm_insertIdx u cs (by
          have : cs.length = (cs.map BT.addr).length := by simp
          omega)
      have := addrsL_perm hperm
      rw [BT.addrsL_cons] at this
      refine (this.cons g).trans ?_
      rw [List.cons_append]
      exact (List.perm_append_comm.cons g).trans (List.Perm.refl _)
    · rw [if_neg hga] at hfind
      rw [BT.addrs_def] at hnd
      have hndL := hnd.of_cons
      have hga2 : ¬ a = g := fun he => hga he.symm
      rw [graftT_def, if_neg hga2, BT.addrs_def, BT.addrs_def]
      have := graftL_addrs_perm g k u cs hndL gcs hfind hk
      refine this.cons a |>.trans ?_
      rw [List.cons_append]

theorem graftL_addrs_perm (g k : Nat) (u : BT) :
    ∀ (ts : List BT), (BT.addrsL ts).Nodup → ∀ gcs,
    findAL g ts = some (.node g gcs) → k ≤ gcs.length →
    (BT.addrsL (graftL g k u ts)).Perm (BT.addrsL ts ++ u.addrs)
  | [] => by intro _ gcs h; cases h
  | t :: ts => by
    intro hnd gcs hfind hk
    rw [BT.addrsL_cons] at hnd
    have hdisj := List.disjoint_of_nodup_append hnd
    have hfind2 : (match findA g t with
      | some r => some r
      | none => findAL g ts) = some (.node g gcs) := hfind
    rw [graftL_cons, BT.addrsL_cons, BT.addrsL_cons]
    cases hft : findA g t with
    | some r =>
      rw [hft] at hfind2
      cases hfind2
      have hgt : g ∈ t.addrs := mem_of_findA_some hft
      have hgts : g ∉ BT.addrsL ts := fun hm => hdisj hgt hm
      rw [graftL_id g k u ts hgts]
      have := graftT_addrs_perm g k u t hnd.of_append_left gcs hft hk
      refine (this.append_right (BT.addrsL ts)).trans ?_
      rw [List.append_assoc, List.append_assoc]
      exact List.Perm.append_left _ List.perm_append_comm
    | none =>
      rw [hft] at hfind2
      have hgnt : g ∉ t.addrs := by
        intro hm
        have := findA_isSome_of_mem g t hm
        rw [hft] at this
        cases this
      rw [graftT_id g k u t hgnt]
      have := graftL_addrs_perm g k u ts hnd.of_append_right gcs hfind2 hk
      rw [List.append_assoc]
      exact List.Perm.append_left _ this

end

/-- Re-rooting a represented subtree under a new parent: only the root cell's
parent field changed. -/
theorem RepT_reparent (h h2 : Heap) (u : BT) (par2 : Option Nat)
    (hund : u.addrs.Nodup)
    (hother : ∀ x ∈ u.addrs, x ≠ u.addr → pcOf (h2 x) = pcOf (h x)) :
    ∀ par, RepT h par u →
    ∀ b2, h2 u.addr = some b2 → b2.parent = par2 →
    (∀ b, h u.addr = some b → b2.children = b.children) →
    RepT h2 par2 u := by
  cases u with
  | node a cs =>
    intro par hrep b2 hb2 hp2 hc2
    cases hrep with
    | mk hb hp hc hcs =>
      rename_i b
      refine RepT.mk hb2 hp2 ?_ ?_
      · rw [hc2 b hb, hc]
      · intro t2 ht2
        refine RepT_pc_congr h h2 t2 (some a) (fun x hx => ?_) (hcs t2 ht2)
        refine hother x ?_ ?_
        · show x ∈ (BT.node a cs).addrs
          simp only [BT.addrs_def, List.mem_cons]
          exact Or.inr (BT.mem_addrsL_of_mem ht2 hx)
        · intro hxa
          have hxa2 : x = a := by simpa [BT.addr] using hxa
          rw [BT.addrs_def] at hund
          exact (List.nodup_cons.mp hund).1 (hxa2 ▸ BT.mem_addrsL_of_mem ht2 hx)

/-- The attach theorem: after the heap surgery that inserts address `s` at
position `k` of `g`'s children and points `s`'s back-reference at `g`, the
grafted skeleton is represented. -/
theorem graft_rep_t (h h2 : Heap) (g k s : Nat) (u : BT) (hus : u.addr = s)
    (bg : Bullet) (hbg : h g = some bg)
    (bs : Bullet) (hbs : h s = some bs)
    (hg2 : pcOf (h2 g) = some (bg.parent, bg.children.insertIdx k s))
    (hs2 : pcOf (h2 s) = some (some g, bs.children))
    (hoth : ∀ x, x ≠ g → x ≠ s → pcOf (h2 x) = pcOf (h x))
    (hurep : RepT h none u) (hund : u.addrs.Nodup) :
    ∀ (t : BT) (par : Option Nat), RepT h par t → t.addrs.Nodup → g ∈ t.addrs →
    (∀ y ∈ u.addrs, y ∉ t.addrs) → RepT h2 par (graftT g k u t) := by
  intro t
  induction t using BT.indOn with
  | h a cs ih =>
    intro par hrep hnd hgmem hdisj
    cases hrep with
    | mk hb hp hc hcs =>
      rename_i b
      have hsu : s ∈ u.addrs := hus ▸ BT.addr_mem_addrs u
      have hsnt : s ∉ (BT.node a cs).addrs := hdisj s hsu
      rw [BT.addrs_def] at hnd
      have hndL := hnd.of_cons
      have haL : a ∉ BT.addrsL cs := (List.nodup_cons.mp hnd).1
      by_cases hag : a = g
      · -- the graft point is this node
        have hbbg : b = bg := by
          rw [hag] at hb
          rw [hb] at hbg
          exact Option.some.inj hbg
        cases h2g : h2 g with
        | none => rw [h2g] at hg2; simp [pcOf] at hg2
        | some bg2 =>
          rw [h2g] at hg2
          simp [pcOf] at hg2
          rw [graftT_def, if_pos hag]
          refine RepT.mk (b := bg2) (by rw [hag]; exact h2g) ?_ ?_ ?_
          · rw [hg2.1, ← hbbg, hp]
          · rw [hg2.2, ← hbbg, hc, map_insertIdx BT.addr k u cs, hus]
          · intro t2 ht2
            rcases mem_insertIdx_sub k cs ht2 with rfl | h2mem
            · -- the grafted subtree itself
              cases h2s : h2 s with
              | none => rw [h2s] at hs2; simp [pcOf] at hs2
              | some bs2 =>
                rw [h2s] at hs2
                simp [pcOf] at hs2
                refine RepT_reparent h h2 t2 (some a) hund (fun x hx hxr => ?_)
                  none hurep bs2 (by rw [hus]; exact h2s)
                  (by rw [hs2.1, hag]) (fun b3 hb3 => ?_)
                · refine hoth x (fun hxg => ?_) (fun hxs => ?_)
                  · exact hdisj x hx (hxg ▸ hgmem)
                  · exact hxr (hxs.trans hus.symm)
                · rw [hus] at hb3
                  rw [hbs] at hb3
                  rw [hs2.2, Option.some.inj hb3]
            · -- an untouched original child
              refine RepT_pc_congr h h2 t2 (some a) (fun x hx => ?_) (hcs t2 h2mem)
              refine hoth x (fun hxg => ?_) (fun hxs => ?_)
              · rw [hxg, ← hag] at hx
                exact haL (BT.mem_addrsL_of_mem h2mem hx)
              · refine hsnt ?_
                rw [← hxs]
                simp only [BT.addrs_def, List.mem_cons]
                exact Or.inr (BT.mem_addrsL_of_mem h2mem hx)
      · -- the graft point is deeper
        have hgc : g ∈ BT.addrsL cs := by
          rcases List.mem_cons.mp (by simpa [BT.addrs_def] using hgmem) with h1 | h1
          · exact absurd h1.symm hag
          · exact h1
        have hanots : a ≠ s := fun he => hsnt (he ▸ (by simp [BT.addrs_def]))
        have hpca := hoth a (fun he => hag he) hanots
        rw [hb] at hpca
        cases h2a : h2 a with
        | none => rw [h2a] at hpca; simp [pcOf] at hpca
        | some b2 =>
          rw [h2a] at hpca
          simp [pcOf] at hpca
          rw [graftT_def, if_neg hag]
          refine RepT.mk (b := b2) h2a (by rw [hpca.1, hp]) ?_ ?_
          · rw [hpca.2, hc, graftL_map_addr]
          · intro t2 ht2
            obtain ⟨t3, ht3, he⟩ := mem_graftL ht2
            subst he
            by_cases hgt3 : g ∈ t3.addrs
            · refine ih t3 ht3 (some a) (hcs t3 ht3)
                (nodup_member_addrs ht3 hndL) hgt3 (fun y hy hyt3 => ?_)
              refine hdisj y hy ?_
              simp only [BT.addrs_def, List.mem_cons]
              exact Or.inr (BT.mem_addrsL_of_mem ht3 hyt3)
            · rw [graftT_id g k u t3 hgt3]
              refine RepT_pc_congr h h2 t3 (some a) (fun x hx => ?_) (hcs t3 ht3)
              refine hoth x (fun hxg => hgt3 (hxg ▸ hx)) (fun hxs => ?_)
              refine hsnt ?_
              rw [← hxs]
              simp only [BT.addrs_def, List.mem_cons]
              exact Or.inr (BT.mem_addrsL_of_mem ht3 hx)

/-- Forest version of the attach theorem. -/
theorem graft_rep_f (h h2 : Heap) (g k s : Nat) (u : BT) (hus : u.addr = s)
    (bg : Bullet) (hbg : h g = some bg)
    (bs : Bullet) (hbs : h s = some bs)
    (hg2 : pcOf (h2 g) = some (bg.parent, bg.children.insertIdx k s))
    (hs2 : pcOf (h2 s) = some (some g, bs.children))
    (hoth : ∀ x, x ≠ g → x ≠ s → pcOf (h2 x) = pcOf (h x))
    (hurep : RepT h none u) (hund : u.addrs.Nodup) :
    ∀ (F : List BT), (∀ t ∈ F, RepT h none t) → (BT.addrsL F).Nodup →
    g ∈ BT.addrsL F → (∀ y ∈ u.addrs, y ∉ BT.addrsL F) →
    ∀ t2 ∈ graftL g k u F, RepT h2 none t2 := by
  intro F hrep hnd hg hdisj t2 ht2
  obtain ⟨t3, ht3, he⟩ := mem_graftL ht2
  subst he
  have hsu : s ∈ u.addrs := hus ▸ BT.addr_mem_addrs u
  by_cases hgt3 : g ∈ t3.addrs
  · refine graft_rep_t h h2 g k s u hus bg hbg bs hbs hg2 hs2 hoth hurep hund
      t3 none (hrep t3 ht3) (nodup_member_addrs ht3 hnd) hgt3 (fun y hy hyt3 => ?_)
    exact hdisj y hy (BT.mem_addrsL_of_mem ht3 hyt3)
  · rw [graftT_id g k u t3 hgt3]
    refine RepT_pc_congr h h2 t3 none (fun x hx => ?_) (hrep t3 ht3)
    refine hoth x (fun hxg => hgt3 (hxg ▸ hx)) (fun hxs => ?_)
    exact hdisj s hsu (hxs ▸ BT.mem_addrsL_of_mem ht3 hx)

/-- Attaching a detached subtree as a new root at index `j`. -/
theorem RepF_insert_root (h2 : Heap) (roots : List Nat) (F : List BT) (j : Nat)
    (u : BT) (hrep : ∀ t ∈ F, RepT h2 none t) (hroots : roots = F.map BT.addr)
    (hurep : RepT h2 none u) :
    RepF h2 (roots.insertIdx j u.addr) (F.insertIdx j u) := by
  constructor
  · rw [hroots, map_insertIdx BT.addr j u F]
  · intro t ht
    rcases mem_insertIdx_sub j F ht with rfl | h2m
    · exact hurep
    · exact hrep t h2m

/-! The invariant carried through every mutation. -/

/-- Well-formedness of a model: unzoomed view, and the heap and root list
represent some duplicate-free forest of live addresses below the allocation
bound, with the visible list computed from it. -/
def Inv (m : Model) : Prop :=
  m.zoomedBullet = none
  ∧ ∃ F, RepF m.heap m.rootBullets F ∧ (BT.addrsL F).Nodup
      ∧ (∀ a ∈ BT.addrsL F, a < m.next)
      ∧ m.allBullets = vdTL m.heap F

theorem fuel_of_nodup_bound (F : List BT) (n : Nat) (hnd : (BT.addrsL F).Nodup)
    (hb : ∀ a ∈ BT.addrsL F, a < n) : BT.heightL F ≤ n :=
  le_trans (BT.heightL_le_len F) (nodup_bound_length _ _ hnd hb)

theorem live_cell (h : Heap) (F : List BT) (hrep : ∀ t ∈ F, RepT h none t)
    (x : Nat) (hx : x ∈ BT.addrsL F) : ∃ b, h x = some b := by
  have hfsome := findAL_isSome_of_mem x F hx
  cases hf : findAL x F with
  | none => rw [hf] at hfsome; cases hfsome
  | some u =>
    obtain ⟨pu, hpu⟩ := findAL_rep h x F none u hrep hf
    obtain ⟨huaddr, _⟩ := findAL_addr_sub x F u hf
    obtain ⟨b, hb, _⟩ := rep_root_cell h u pu hpu
    exact ⟨b, huaddr ▸ hb⟩

theorem parentOf_some_ex {h : Heap} {s p : Nat} (hp : parentOf h s = some p) :
    ∃ b, h s = some b ∧ b.parent = some p := by
  revert hp
  unfold parentOf
  cases hs : h s with
  | none => intro hp; cases hp
  | some b => intro hp; exact ⟨b, rfl, hp⟩

theorem parentOf_none_ex {h : Heap} {s : Nat} (b : Bullet) (hb : h s = some b)
    (hp : parentOf h s = none) : b.parent = none := by
  rw [parentOf, hb] at hp
  exact hp

theorem clamp_fields (m2 m3 : Model)
    (h3 : m3 = if m2.selectedIndex ≥ m2.allBullets.length ∧ m2.selectedIndex > 0 then
        { m2 with selectedIndex := m2.selectedIndex - 1 } else m2) :
    m3.heap = m2.heap ∧ m3.rootBullets = m2.rootBullets ∧ m3.allBullets = m2.allBullets
    ∧ m3.next = m2.next ∧ m3.zoomedBullet = m2.zoomedBullet := by
  subst h3
  split <;> exact ⟨rfl, rfl, rfl, rfl, rfl⟩

theorem pcOf_modifyB (h : Heap) (s : Nat) (f : Bullet → Bullet)
    (hf : ∀ b, (f b).parent = b.parent ∧ (f b).children = b.children) (x : Nat) :
    pcOf (modifyB h s f x) = pcOf (h x) := by
  simp only [modifyB]
  by_cases hxs : x = s
  · rw [if_pos hxs, hxs]
    cases h s with
    | none => rfl
    | some b => simp [pcOf, (hf b).1, (hf b).2]
  · rw [if_neg hxs]

theorem col_modifyB (h : Heap) (s : Nat) (f : Bullet → Bullet)
    (hf : ∀ b, (f b).collapsed = b.collapsed) (x : Nat) :
    (bulletAt (modifyB h s f) x).collapsed = (bulletAt h x).collapsed := by
  simp only [modifyB, bulletAt]
  by_cases hxs : x = s
  · rw [if_pos hxs, hxs]
    cases h s with
    | none => rfl
    | some b => simp [hf b]
  · rw [if_neg hxs]

/-- A parent/children-preserving in-place cell edit, without a rebuild of the
visible list, preserves the invariant as long as it also keeps the collapse
flag. -/
theorem inv_modify_norebuild (m : Model) (s : Nat) (f : Bullet → Bullet)
    (hf : ∀ b, (f b).parent = b.parent ∧ (f b).children = b.children)
    (hfc : ∀ b, (f b).collapsed = b.collapsed)
    (hInv : Inv m) : Inv { m with heap := modifyB m.heap s f } := by
  obtain ⟨hzoom, F, ⟨hroots, htrees⟩, hnd, hbound, hall⟩ := hInv
  refine ⟨hzoom, F, ⟨hroots, ?_⟩, hnd, hbound, ?_⟩
  · intro t ht
    exact RepT_pc_congr m.heap _ t none
      (fun x _ => pcOf_modifyB m.heap s f hf x) (htrees t ht)
  · show m.allBullets = vdTL (modifyB m.heap s f) F
    rw [hall, vdTL_congr_col m.heap (modifyB m.heap s f)
      (col_modifyB m.heap s f hfc) F]

/-- A parent/children-preserving cell edit followed by a rebuild preserves
the invariant (the collapse flag may change). -/
theorem inv_modify_rebuild (m : Model) (s : Nat) (f : Bullet → Bullet)
    (hf : ∀ b, (f b).parent = b.parent ∧ (f b).children = b.children)
    (hInv : Inv m) : Inv (rebuildVisibleList { m with heap := modifyB m.heap s f }) := by
  obtain ⟨hzoom, F, ⟨hroots, htrees⟩, hnd, hbound, hall⟩ := hInv
  have htrees2 : ∀ t ∈ F, RepT (modifyB m.heap s f) none t := fun t ht =>
    RepT_pc_congr m.heap _ t none (fun x _ => pcOf_modifyB m.heap s f hf x) (htrees t ht)
  refine ⟨hzoom, F, ⟨hroots, htrees2⟩, hnd, hbound, ?_⟩
  show visibleList (modifyB m.heap s f) m.next m.rootBullets m.zoomedBullet
    = vdTL (modifyB m.heap s f) F
  rw [hzoom]
  exact visibleList_adequate_none _ _ F m.next ⟨hroots, htrees2⟩
    (fuel_of_nodup_bound F m.next hnd hbound)

theorem inv_toggleCollapse (m : Model) (hInv : Inv m) : Inv (toggleCollapse m) := by
  cases hsel : getSelectedBullet m with
  | none => simp only [toggleCollapse, hsel]; exact hInv
  | some s =>
    simp only [toggleCollapse, hsel]
    refine inv_modify_rebuild m s toggleB (fun b => ?_) hInv
    unfold toggleB
    split <;> exact ⟨rfl, rfl⟩

theorem inv_cycleColor (m : Model) (hInv : Inv m) : Inv (cycleColor m) := by
  cases hsel : getSelectedBullet m with
  | none => simp only [cycleColor, hsel]; exact hInv
  | some s =>
    simp only [cycleColor, hsel]
    exact inv_modify_norebuild m s cycleColorB (fun b => ⟨rfl, rfl⟩) (fun b => rfl) hInv

theorem inv_toggleTask (m : Model) (hInv : Inv m) : Inv (toggleTask m) := by
  cases hsel : getSelectedBullet m with
  | none => simp only [toggleTask, hsel]; exact hInv
  | some s =>
    simp only [toggleTask, hsel]
    refine inv_modify_norebuild m s toggleTaskB (fun b => ?_) (fun b => ?_) hInv
    · by_cases hb : b.isTask <;> simp [toggleTaskB, hb]
    · by_cases hb : b.isTask <;> simp [toggleTaskB, hb]

theorem inv_toggleComplete (m : Model) (hInv : Inv m) : Inv (toggleComplete m) := by
  cases hsel : getSelectedBullet m with
  | none => simp only [toggleComplete, hsel]; exact hInv
  | some s =>
    simp only [toggleComplete, hsel]
    refine inv_modify_norebuild m s toggleCompleteB (fun b => ?_) (fun b => ?_) hInv
    · by_cases hb : b.isTask <;> simp [toggleCompleteB, hb]
    · by_cases hb : b.isTask <;> simp [toggleCompleteB, hb]

/-- Live membership of the selected bullet under the invariant. -/
theorem inv_selected_live (m : Model) (F : List BT) (s : Nat)
    (hall : m.allBullets = vdTL m.heap F)
    (hsel : getSelectedBullet m = some s) : s ∈ BT.addrsL F := by
  have hsel2 : m.allBullets[m.selectedIndex]? = some s := hsel
  have hsmem : s ∈ m.allBullets := List.getElem?_mem hsel2
  exact (vdTL_sublist m.heap F).subset (hall ▸ hsmem)

theorem inv_deleteBullet (m : Model) (hInv : Inv m) : Inv (deleteBullet m) := by
  obtain ⟨hzoom, F, ⟨hroots, htrees⟩, hnd, hbound, hall⟩ := hInv
  cases hsel : getSelectedBullet m with
  | none =>
    simp only [deleteBullet, hsel]
    exact ⟨hzoom, F, ⟨hroots, htrees⟩, hnd, hbound, hall⟩
  | some s =>
    have hsF : s ∈ BT.addrsL F := inv_selected_live m F s hall hsel
    obtain ⟨u, hfind⟩ : ∃ u, findAL s F = some u := by
      have hfsome := findAL_isSome_of_mem s F hsF
      cases hf : findAL s F with
      | none => rw [hf] at hfsome; cases hfsome
      | some u => exact ⟨u, rfl⟩
    have hperm := removeSubL_perm s F hnd hsF u hfind
    have hnd2 : (BT.addrsL (removeSubL s F)).Nodup :=
      ((hperm.nodup_iff).mpr hnd).of_append_left
    have hbound2 : ∀ a ∈ BT.addrsL (removeSubL s F), a < m.next :=
      fun a ha => hbound a (hperm.subset (List.mem_append_left _ ha))
    obtain ⟨bs, hbs⟩ := live_cell m.heap F htrees s hsF
    have hparv : parentOf m.heap s = bs.parent := by
      simp [parentOf, hbs]
    cases hbsp : bs.parent with
    | some p =>
      obtain ⟨d1, d2, _, _, _⟩ := detachF_parent m.heap p s bs hbs hbsp F htrees hnd hsF
      have hrep2 : RepF (removeChild m.heap p s) m.rootBullets (removeSubL s F) := by
        refine ⟨?_, d1⟩
        rw [hroots, d2]
      have hparv2 : parentOf m.heap s = some p := by rw [hparv, hbsp]
      set m2 : Model := rebuildVisibleList { m with heap := removeChild m.heap p s }
        with hm2
      have h3 : deleteBullet m =
          if m2.selectedIndex ≥ m2.allBullets.length ∧ m2.selectedIndex > 0 then
            { m2 with selectedIndex := m2.selectedIndex - 1 } else m2 := by
        rw [hm2]
        simp only [deleteBullet, hsel, hparv2]
      obtain ⟨hh3, hr3, ha3, hn3, hz3⟩ := clamp_fields m2 (deleteBullet m) h3
      refine ⟨?_, removeSubL s F, ⟨?_, ?_⟩, hnd2, ?_, ?_⟩
      · rw [hz3, hm2]
        exact hzoom
      · rw [hr3, hm2]
        exact hrep2.1
      · intro t ht
        rw [hh3, hm2]
        exact hrep2.2 t ht
      · intro a ha
        rw [hn3, hm2]
        exact hbound2 a ha
      · rw [ha3, hh3, hm2]
        show visibleList (removeChild m.heap p s) m.next m.rootBullets m.zoomedBullet
          = vdTL (removeChild m.heap p s) (removeSubL s F)
        rw [hzoom]
        exact visibleList_adequate_none _ _ (removeSubL s F) m.next hrep2
          (fuel_of_nodup_bound _ m.next hnd2 hbound2)
    | none =>
      obtain ⟨r1, _, _, _⟩ := removeRootF m.heap s bs hbs hbsp F htrees hnd hsF
      have hroots2 : m.rootBullets.erase s = (removeSubL s F).map BT.addr := by
        rw [hroots, removeSubL_map_addr s F hnd]
      have hparv2 : parentOf m.heap s = none := by rw [hparv, hbsp]
      set m2 : Model := rebuildVisibleList { m with rootBullets := m.rootBullets.erase s }
        with hm2
      have h3 : deleteBullet m =
          if m2.selectedIndex ≥ m2.allBullets.length ∧ m2.selectedIndex > 0 then
            { m2 with selectedIndex := m2.selectedIndex - 1 } else m2 := by
        rw [hm2]
        simp only [deleteBullet, hsel, hparv2]
      obtain ⟨hh3, hr3, ha3, hn3, hz3⟩ := clamp_fields m2 (deleteBullet m) h3
      refine ⟨?_, removeSubL s F, ⟨?_, ?_⟩, hnd2, ?_, ?_⟩
      · rw [hz3, hm2]
        exact hzoom
      · rw [hr3, hm2]
        exact hroots2
      · intro t ht
        rw [hh3, hm2]
        exact r1 t ht
      · intro a ha
        rw [hn3, hm2]
        exact hbound2 a ha
      · rw [ha3, hh3, hm2]
        show visibleList m.heap m.next (m.rootBullets.erase s) m.zoomedBullet
          = vdTL m.heap (removeSubL s F)
        rw [hzoom]
        exact visibleList_adequate_none _ _ (removeSubL s F) m.next ⟨hroots2, r1⟩
          (fuel_of_nodup_bound _ m.next hnd2 hbound2)

theorem inv_rebuild_of (m1 : Model) (F2 : List BT)
    (hz : m1.zoomedBullet = none)
    (hrep : RepF m1.heap m1.rootBullets F2)
    (hnd2 : (BT.addrsL F2).Nodup)
    (hb2 : ∀ a ∈ BT.addrsL F2, a < m1.next) :
    Inv (rebuildVisibleList m1) := by
  refine ⟨hz, F2, hrep, hnd2, hb2, ?_⟩
  show visibleList m1.heap m1.next m1.rootBullets m1.zoomedBullet = vdTL m1.heap F2
  rw [hz]
  exact visibleList_adequate_none _ _ F2 m1.next hrep
    (fuel_of_nodup_bound F2 m1.next hnd2 hb2)

theorem inv_selIdx (m2 : Model) (i : Nat) (hInv2 : Inv m2) :
    Inv { m2 with selectedIndex := i } := by
  obtain ⟨hz, F, hr, hnd, hb, ha⟩ := hInv2
  exact ⟨hz, F, hr, hnd, hb, ha⟩

theorem parentOf_congr_cell {h1 h2 : Heap} {s : Nat} (he : h1 s = h2 s) :
    parentOf h1 s = parentOf h2 s := by
  unfold parentOf
  rw [he]

theorem findIdxPlus1_le (l : List Nat) (s : Nat) : findIdxPlus1 l s ≤ l.length := by
  unfold findIdxPlus1
  cases hf : findIdxA l s 0 with
  | none => simp
  | some i =>
    obtain ⟨_, h2⟩ := findIdxA_bound l s 0 i hf
    show i + 1 ≤ l.length
    omega

theorem inv_addNewBullet (m : Model) (content : String) (hInv : Inv m) :
    Inv (addNewBullet m content) := by
  obtain ⟨hzoom, F, ⟨hroots, htrees⟩, hnd, hbound, hall⟩ := hInv
  have hcell0 : ∀ x, x < m.next →
      hset m.heap m.next (newBullet content) x = m.heap x := by
    intro x hx
    simp [hset, Nat.ne_of_lt hx]
  have htrees0 : ∀ t ∈ F, RepT (hset m.heap m.next (newBullet content)) none t := by
    intro t ht
    refine RepT.mono t none (fun x hx => ?_) (htrees t ht)
    exact hcell0 x (hbound x (BT.mem_addrsL_of_mem ht hx))
  have hnb_cell : hset m.heap m.next (newBullet content) m.next
      = some (newBullet content) := by
    simp [hset]
  have hleaf : RepT (hset m.heap m.next (newBullet content)) none
      (BT.node m.next []) := by
    refine RepT.mk (b := newBullet content) hnb_cell rfl rfl ?_
    intro t ht
    cases ht
  have hnbF : m.next ∉ BT.addrsL F := fun hm => Nat.lt_irrefl _ (hbound _ hm)
  have hz0 : ({ m with heap := hset m.heap m.next (newBullet content), next := m.next + 1 } : Model).zoomedBullet = none := hzoom
  cases hsel : getSelectedBullet m with
  | none =>
    have hselm : getSelectedBullet { m with heap := hset m.heap m.next (newBullet content), next := m.next + 1 } = none := hsel
    simp only [addNewBullet, allocB, hselm, hz0]
    split
    · apply inv_selIdx
      refine inv_rebuild_of _ (F ++ [BT.node m.next []]) rfl ⟨?_, ?_⟩ ?_ ?_
      · show m.rootBullets ++ [m.next] = (F ++ [BT.node m.next []]).map BT.addr
        rw [List.map_append, hroots]
        rfl
      · intro t ht
        rcases List.mem_append.mp ht with h1 | h1
        · exact htrees0 t h1
        · rcases List.mem_singleton.mp h1 with rfl
          exact hleaf
      · rw [BT.addrsL_append]
        show (BT.addrsL F ++ [m.next]).Nodup
        rw [List.nodup_append]
        exact ⟨hnd, by simp, fun x hx hx2 => hnbF ((List.mem_singleton.mp hx2) ▸ hx)⟩
      · intro a ha
        rw [BT.addrsL_append] at ha
        show a < m.next + 1
        rcases List.mem_append.mp ha with h1 | h1
        · exact Nat.lt_succ_of_lt (hbound a h1)
        · have h1b : a ∈ ([m.next] : List Nat) := h1
          rcases List.mem_singleton.mp h1b with rfl
          omega
    · refine inv_rebuild_of _ (F ++ [BT.node m.next []]) rfl ⟨?_, ?_⟩ ?_ ?_
      · show m.rootBullets ++ [m.next] = (F ++ [BT.node m.next []]).map BT.addr
        rw [List.map_append, hroots]
        rfl
      · intro t ht
        rcases List.mem_append.mp ht with h1 | h1
        · exact htrees0 t h1
        · rcases List.mem_singleton.mp h1 with rfl
          exact hleaf
      · rw [BT.addrsL_append]
        show (BT.addrsL F ++ [m.next]).Nodup
        rw [List.nodup_append]
        exact ⟨hnd, by simp, fun x hx hx2 => hnbF ((List.mem_singleton.mp hx2) ▸ hx)⟩
      · intro a ha
        rw [BT.addrsL_append] at ha
        show a < m.next + 1
        rcases List.mem_append.mp ha with h1 | h1
        · exact Nat.lt_succ_of_lt (hbound a h1)
        · have h1b : a ∈ ([m.next] : List Nat) := h1
          rcases List.mem_singleton.mp h1b with rfl
          omega
  | some s =>
    have hselm : getSelectedBullet { m with heap := hset m.heap m.next (newBullet content), next := m.next + 1 } = some s := hsel
    have hsF : s ∈ BT.addrsL F := inv_selected_live m F s hall hsel
    have hslt : s < m.next := hbound s hsF
    have hscell0 : hset m.heap m.next (newBullet content) s = m.heap s :=
      hcell0 s hslt
    cases hp : parentOf m.heap s with
    | none =>
      have hpar0 : parentOf (hset m.heap m.next (newBullet content)) s = none := by
        rw [parentOf_congr_cell hscell0, hp]
      simp only [addNewBullet, allocB, hselm, hz0, hpar0]
      have hidxle : findIdxPlus1 m.rootBullets s ≤ F.length := by
        have h := findIdxPlus1_le m.rootBullets s
        have hlen : m.rootBullets.length = F.length := by rw [hroots, List.length_map]
        omega
      have hins : (BT.addrsL (F.insertIdx (findIdxPlus1 m.rootBullets s)
          (BT.node m.next []))).Perm (m.next :: BT.addrsL F) := by
        refine (addrsL_perm (List.perm_insertIdx _ F hidxle)).trans ?_
        rw [BT.addrsL_cons]
        exact List.Perm.refl _
      have hnd2 : (BT.addrsL (F.insertIdx (findIdxPlus1 m.rootBullets s)
          (BT.node m.next []))).Nodup := by
        refine (hins.nodup_iff).mpr ?_
        exact List.nodup_cons.mpr ⟨hnbF, hnd⟩
      have hb2 : ∀ a ∈ BT.addrsL (F.insertIdx (findIdxPlus1 m.rootBullets s)
          (BT.node m.next [])), a < m.next + 1 := by
        intro a ha
        rcases List.mem_cons.mp (hins.subset ha) with rfl | h1
        · omega
        · exact Nat.lt_succ_of_lt (hbound a h1)
      split
      · apply inv_selIdx
        refine inv_rebuild_of _ (F.insertIdx (findIdxPlus1 m.rootBullets s)
          (BT.node m.next [])) rfl ?_ hnd2 hb2
        show RepF (hset m.heap m.next (newBullet content))
          (m.rootBullets.insertIdx (findIdxPlus1 m.rootBullets s) m.next) _
        exact RepF_insert_root _ m.rootBullets F _ (BT.node m.next [])
          htrees0 hroots hleaf
      · refine inv_rebuild_of _ (F.insertIdx (findIdxPlus1 m.rootBullets s)
          (BT.node m.next [])) rfl ?_ hnd2 hb2
        show RepF (hset m.heap m.next (newBullet content))
          (m.rootBullets.insertIdx (findIdxPlus1 m.rootBullets s) m.next) _
        exact RepF_insert_root _ m.rootBullets F _ (BT.node m.next [])
          htrees0 hroots hleaf
    | some par =>
      have hpar0 : parentOf (hset m.heap m.next (newBullet content)) s = some par := by
        rw [parentOf_congr_cell hscell0, hp]
      obtain ⟨bs0, hbs0, hbs0p⟩ := parentOf_some_ex hp
      obtain ⟨t0, ht0, hst0, hpt0⟩ :=
        rep_parent_in_forest m.heap s par bs0 hbs0 hbs0p F htrees hsF
      have hparF : par ∈ BT.addrsL F := BT.mem_addrsL_of_mem ht0 hpt0
      have hparlt : par < m.next := hbound par hparF
      have hpar_ne_nb : par ≠ m.next := Nat.ne_of_lt hparlt
      obtain ⟨bpar, hbpar⟩ := live_cell m.heap F htrees par hparF
      have hb0par : hset m.heap m.next (newBullet content) par = some bpar := by
        rw [hcell0 par hparlt]
        exact hbpar
      have hch0 : childrenOf (hset m.heap m.next (newBullet content)) par
          = bpar.children := by
        unfold childrenOf
        rw [hb0par]
      simp only [addNewBullet, allocB, hselm, hz0, hpar0]
      rw [hch0]
      have hidxle : findIdxPlus1 bpar.children s ≤ bpar.children.length :=
        findIdxPlus1_le bpar.children s
      -- the children list of par in the skeleton
      obtain ⟨w, hw⟩ : ∃ w, findAL par F = some w := by
        have hfsome := findAL_isSome_of_mem par F hparF
        cases hf : findAL par F with
        | none => rw [hf] at hfsome; cases hfsome
        | some w => exact ⟨w, rfl⟩
      obtain ⟨hwaddr, _⟩ := findAL_addr_sub par F w hw
      cases hwshape : w with
      | node pa gcs =>
        have hpa : par = pa :=
          (show pa = par by simpa [hwshape, BT.addr] using hwaddr).symm
        subst hpa
        have hgcs_len : bpar.children.length = gcs.length := by
          obtain ⟨pw, hpw⟩ := findAL_rep m.heap par F none w htrees hw
          rw [hwshape] at hpw
          cases hpw with
          | mk hb2 hp2 hc2 hcs2 =>
            rename_i b2
            rw [hbpar] at hb2
            cases hb2
            rw [hc2]
            simp
        rw [hwshape] at hw
        set idx := findIdxPlus1 bpar.children s with hidx
        set h2 : Heap := modifyB (setParent (hset m.heap m.next (newBullet content))
            m.next (some par)) par
            (fun x => { x with children := x.children.insertIdx idx m.next }) with hh2
        have hICA : insertChildAt (hset m.heap m.next (newBullet content)) par idx m.next
            = h2 := by
          rw [hh2]
          simp only [insertChildAt, hb0par]
          rw [if_pos hidxle]
        have hg2 : pcOf (h2 par) = some (bpar.parent, bpar.children.insertIdx idx m.next) := by
          rw [hh2]
          simp [modifyB, setParent, pcOf, hpar_ne_nb, hb0par]
        have hs2v : pcOf (h2 m.next) = some (some par, (newBullet content).children) := by
          rw [hh2]
          simp [modifyB, setParent, pcOf, Ne.symm hpar_ne_nb, hnb_cell]
        have hoth2 : ∀ x, x ≠ par → x ≠ m.next →
            pcOf (h2 x) = pcOf (hset m.heap m.next (newBullet content) x) := by
          intro x hxp hxn
          rw [hh2]
          simp [modifyB, setParent, hxp, hxn]
        have hgraft : ∀ t2 ∈ graftL par idx (BT.node m.next []) F, RepT h2 none t2 := by
          refine graft_rep_f (hset m.heap m.next (newBullet content)) h2 par idx m.next
            (BT.node m.next []) rfl bpar hb0par (newBullet content) hnb_cell hg2 hs2v
            hoth2 hleaf (show ([m.next] : List Nat).Nodup by simp) F htrees0 hnd hparF ?_
          intro y hy
          have hy2 : y ∈ ([m.next] : List Nat) := hy
          rcases List.mem_singleton.mp hy2 with rfl
          exact hnbF
        have hperm : (BT.addrsL (graftL par idx (BT.node m.next []) F)).Perm
            (BT.addrsL F ++ [m.next]) := by
          have := graftL_addrs_perm par idx (BT.node m.next []) F hnd gcs hw
            (by omega)
          simpa [BT.addrs_def] using this
        have hnd2 : (BT.addrsL (graftL par idx (BT.node m.next []) F)).Nodup := by
          refine (hperm.nodup_iff).mpr ?_
          rw [List.nodup_append]
          exact ⟨hnd, by simp, fun x hx hx2 => hnbF ((List.mem_singleton.mp hx2) ▸ hx)⟩
        have hb2 : ∀ a ∈ BT.addrsL (graftL par idx (BT.node m.next []) F),
            a < m.next + 1 := by
          intro a ha
          rcases List.mem_append.mp (hperm.subset ha) with h1 | h1
          · exact Nat.lt_succ_of_lt (hbound a h1)
          · rcases List.mem_singleton.mp h1 with rfl
            omega
        rw [hICA]
        split
        · apply inv_selIdx
          refine inv_rebuild_of _ (graftL par idx (BT.node m.next []) F) rfl
            ⟨?_, hgraft⟩ hnd2 hb2
          show m.rootBullets = (graftL par idx (BT.node m.next []) F).map BT.addr
          rw [graftL_map_addr]
          exact hroots
        · refine inv_rebuild_of _ (graftL par idx (BT.node m.next []) F) rfl
            ⟨?_, hgraft⟩ hnd2 hb2
          show m.rootBullets = (graftL par idx (BT.node m.next []) F).map BT.addr
          rw [graftL_map_addr]
          exact hroots

theorem inv_rebuild (m : Model) (hInv : Inv m) : Inv (rebuildVisibleList m) := by
  obtain ⟨hz, F, hr, hnd, hb, _⟩ := hInv
  exact inv_rebuild_of m F hz hr hnd hb

theorem inv_selIf (c : Prop) [Decidable c] (m3 : Model) (j : Nat) (hInv3 : Inv m3) :
    Inv (if c then { m3 with selectedIndex := j } else m3) := by
  split
  · exact inv_selIdx m3 j hInv3
  · exact hInv3

theorem findIdxPos_bound :
    ∀ (l : List Nat) (s k j : Nat), findIdxPos l s k = some j →
    k ≤ j ∧ j - k < l.length ∧ l[j - k]? = some s := by
  intro l
  induction l with
  | nil => intro s k j h; cases h
  | cons b rest ih =>
    intro s k j h
    have hdef : findIdxPos (b :: rest) s k
        = if b = s ∧ k > 0 then some k else findIdxPos rest s (k + 1) := rfl
    rw [hdef] at h
    by_cases hc : b = s ∧ k > 0
    · rw [if_pos hc] at h
      cases h
      refine ⟨Nat.le_refl _, by simp, ?_⟩
      simp [Nat.sub_self, hc.1]
    · rw [if_neg hc] at h
      obtain ⟨h1, h2, h3⟩ := ih s (k + 1) j h
      refine ⟨by omega, ?_, ?_⟩
      · rw [List.length_cons]
        omega
      · have hjk : j - k = (j - (k + 1)) + 1 := by omega
        rw [hjk, List.getElem?_cons_succ]
        exact h3

theorem getElem_split {α : Type} :
    ∀ (l : List α) (i : Nat) (x : α), l[i]? = some x →
    ∃ l1 l2, l = l1 ++ x :: l2 ∧ l1.length = i ∧ l.eraseIdx i = l1 ++ l2 := by
  intro l
  induction l with
  | nil => intro i x h; simp at h
  | cons b rest ih =>
    intro i x h
    cases i with
    | zero =>
      rw [List.getElem?_cons_zero] at h
      cases h
      exact ⟨[], rest, rfl, rfl, rfl⟩
    | succ j =>
      rw [List.getElem?_cons_succ] at h
      obtain ⟨l1, l2, heq, hlen, herase⟩ := ih j x h
      refine ⟨b :: l1, l2, by rw [heq]; rfl, by simp [hlen], ?_⟩
      show (b :: rest).eraseIdx (j + 1) = b :: l1 ++ l2
      rw [List.eraseIdx_cons_succ, herase]
      rfl

theorem map_addr_nodup : ∀ (ts : List BT), (BT.addrsL ts).Nodup →
    (ts.map BT.addr).Nodup := by
  intro ts
  induction ts with
  | nil => intro _; exact List.nodup_nil
  | cons t rest ih =>
    intro hnd
    rw [BT.addrsL_cons] at hnd
    have hdisj := List.disjoint_of_nodup_append hnd
    rw [List.map_cons, List.nodup_cons]
    refine ⟨fun hm => ?_, ih hnd.of_append_right⟩
    obtain ⟨t2, ht2, he⟩ := List.mem_map.mp hm
    exact hdisj (BT.addr_mem_addrs t) (he ▸ BT.mem_addrsL_of_mem ht2 (BT.addr_mem_addrs t2))

theorem root_depth_zero : ∀ (F : List BT), (BT.addrsL F).Nodup →
    ∀ t ∈ F, depthInL t.addr F = some 0 := by
  intro F
  induction F with
  | nil => intro _ t ht; cases ht
  | cons t2 rest ih =>
    intro hnd t ht
    rw [BT.addrsL_cons] at hnd
    have hdisj := List.disjoint_of_nodup_append hnd
    rcases List.mem_cons.mp ht with rfl | h2
    · show (match depthInT t.addr t with
        | some d => some d
        | none => depthInL t.addr rest) = some 0
      rw [depthInT_self]
    · have hnt : t.addr ∉ t2.addrs :=
        fun hm => hdisj hm (BT.mem_addrsL_of_mem h2 (BT.addr_mem_addrs t))
      show (match depthInT t.addr t2 with
        | some d => some d
        | none => depthInL t.addr rest) = some 0
      rw [depthInT_none_of_not_mem t2 t.addr hnt]
      exact ih hnd.of_append_right t h2

theorem rep_parent_child_t (h : Heap) :
    ∀ (t : BT) (par : Option Nat), RepT h par t → ∀ s, s ∈ t.addrs → s ≠ t.addr →
    ∃ q bq, parentOf h s = some q ∧ h q = some bq ∧ s ∈ bq.children ∧ q ∈ t.addrs := by
  intro t
  induction t using BT.indOn with
  | h a cs ih =>
    intro par hrep s hmem hne
    cases hrep with
    | mk hb hp hc hcs =>
      rename_i b
      have hane : ¬ s = a := by simpa [BT.addr] using hne
      have hmem2 : s ∈ BT.addrsL cs := by
        rcases List.mem_cons.mp (by simpa [BT.addrs_def] using hmem) with h1 | h1
        · exact absurd h1 hane
        · exact h1
      obtain ⟨t2, ht2, hst2⟩ := exists_mem_of_mem_addrsL hmem2
      by_cases hsr : s = t2.addr
      · obtain ⟨b2, hb2, hbp2⟩ := rep_root_cell h t2 (some a) (hcs t2 ht2)
        refine ⟨a, b, ?_, hb, ?_, by simp [BT.addrs_def]⟩
        · rw [hsr]
          simp [parentOf, hb2, hbp2]
        · rw [hc, hsr]
          exact List.mem_map_of_mem BT.addr ht2
      · obtain ⟨q, bq, hq, hbq, hsbq, hqmem⟩ :=
          ih t2 ht2 (some a) (hcs t2 ht2) s hst2 hsr
        refine ⟨q, bq, hq, hbq, hsbq, ?_⟩
        simp only [BT.addrs_def, List.mem_cons]
        exact Or.inr (BT.mem_addrsL_of_mem ht2 hqmem)

theorem rep_parent_child_f (h : Heap) (F : List BT)
    (htrees : ∀ t ∈ F, RepT h none t)
    (s p : Nat) (hsF : s ∈ BT.addrsL F) (hp : parentOf h s = some p) :
    ∃ bp, h p = some bp ∧ s ∈ bp.children := by
  obtain ⟨t, ht, hst⟩ := exists_mem_of_mem_addrsL hsF
  by_cases hsr : s = t.addr
  · obtain ⟨b, hb, hbp⟩ := rep_root_cell h t none (htrees t ht)
    rw [← hsr] at hb
    have hpn : parentOf h s = none := by simp [parentOf, hb, hbp]
    rw [hpn] at hp
    cases hp
  · obtain ⟨q, bq, hq, hbq, hsbq, _⟩ :=
      rep_parent_child_t h t none (htrees t ht) s hst hsr
    rw [hp] at hq
    have hqp : p = q := Option.some.inj hq
    subst hqp
    exact ⟨bq, hbq, hsbq⟩

/-- Phase one of every structural move: `detachSelected` cuts the subtree at
the selected address out of the forest, leaving its representation detached
with a cleared parent. -/
theorem inv_detach (m : Model) (F : List BT) (s : Nat)
    (hroots : m.rootBullets = F.map BT.addr)
    (htrees : ∀ t ∈ F, RepT m.heap none t)
    (hnd : (BT.addrsL F).Nodup)
    (hsF : s ∈ BT.addrsL F) :
    ∃ u, findAL s F = some u ∧ u.addr = s
      ∧ (detachSelected m s).rootBullets = (removeSubL s F).map BT.addr
      ∧ (∀ t ∈ removeSubL s F, RepT (detachSelected m s).heap none t)
      ∧ RepT (detachSelected m s).heap none u
      ∧ (BT.addrsL (removeSubL s F) ++ u.addrs).Perm (BT.addrsL F)
      ∧ (detachSelected m s).next = m.next
      ∧ (detachSelected m s).zoomedBullet = m.zoomedBullet := by
  obtain ⟨u, hfind⟩ : ∃ u, findAL s F = some u := by
    have hfsome := findAL_isSome_of_mem s F hsF
    cases hf : findAL s F with
    | none => rw [hf] at hfsome; cases hfsome
    | some u => exact ⟨u, rfl⟩
  have huaddr : u.addr = s := (findAL_addr_sub s F u hfind).1
  have hperm := removeSubL_perm s F hnd hsF u hfind
  obtain ⟨bs, hbs⟩ := live_cell m.heap F htrees s hsF
  cases hbsp : bs.parent with
  | some p =>
    have hpv : parentOf m.heap s = some p := by simp [parentOf, hbs, hbsp]
    have hDS : detachSelected m s = { m with heap := removeChild m.heap p s } := by
      simp only [detachSelected, hpv]
    obtain ⟨d1, d2, u2, hu2find, hu2rep⟩ :=
      detachF_parent m.heap p s bs hbs hbsp F htrees hnd hsF
    rw [hfind] at hu2find
    have hu2 : u = u2 := Option.some.inj hu2find
    subst hu2
    refine ⟨u, hfind, (findAL_addr_sub s F u hfind).1, ?_, ?_, ?_, hperm, ?_, ?_⟩
    · rw [hDS]
      show m.rootBullets = (removeSubL s F).map BT.addr
      rw [d2, hroots]
    · intro t ht
      rw [hDS]
      exact d1 t ht
    · rw [hDS]
      exact hu2rep
    · rw [hDS]
    · rw [hDS]
  | none =>
    have hpv : parentOf m.heap s = none := by simp [parentOf, hbs, hbsp]
    have hDS : detachSelected m s = { m with rootBullets := m.rootBullets.erase s } := by
      simp only [detachSelected, hpv]
    obtain ⟨r1, _, _, _⟩ := removeRootF m.heap s bs hbs hbsp F htrees hnd hsF
    have hurep : RepT m.heap none u := by
      obtain ⟨pu, hpu⟩ := findAL_rep m.heap s F none u htrees hfind
      obtain ⟨b2, hb2, hbp2⟩ := rep_root_cell m.heap u pu hpu
      rw [huaddr, hbs] at hb2
      have hbb : b2 = bs := (Option.some.inj hb2).symm
      subst hbb
      rw [hbsp] at hbp2
      have hpn : pu = none := hbp2.symm
      rw [hpn] at hpu
      exact hpu
    refine ⟨u, hfind, huaddr, ?_, ?_, ?_, hperm, ?_, ?_⟩
    · rw [hDS]
      show m.rootBullets.erase s = (removeSubL s F).map BT.addr
      rw [hroots, removeSubL_map_addr s F hnd]
    · intro t ht
      rw [hDS]
      exact r1 t ht
    · rw [hDS]
      exact hurep
    · rw [hDS]
    · rw [hDS]

/-- Phase two: reattach the detached subtree under a live node `g`, at
position `k` of its children. -/
theorem attach_graft_core (h1 h2 : Heap) (F1 : List BT) (u : BT) (s g k : Nat)
    (hus : u.addr = s)
    (htrees1 : ∀ t ∈ F1, RepT h1 none t)
    (hndall : (BT.addrsL F1 ++ u.addrs).Nodup)
    (hurep : RepT h1 none u)
    (hgF : g ∈ BT.addrsL F1)
    (hg2 : ∀ bg, h1 g = some bg →
        pcOf (h2 g) = some (bg.parent, bg.children.insertIdx k s))
    (hs2 : ∀ bs1, h1 s = some bs1 → pcOf (h2 s) = some (some g, bs1.children))
    (hoth : ∀ x, x ≠ g → x ≠ s → pcOf (h2 x) = pcOf (h1 x))
    (hk : ∀ bg, h1 g = some bg → k ≤ bg.children.length) :
    (∀ t2 ∈ graftL g k u F1, RepT h2 none t2)
    ∧ (graftL g k u F1).map BT.addr = F1.map BT.addr
    ∧ (BT.addrsL (graftL g k u F1)).Perm (BT.addrsL F1 ++ u.addrs) := by
  have hnd1 : (BT.addrsL F1).Nodup := hndall.of_append_left
  have hndu : u.addrs.Nodup := hndall.of_append_right
  have hdisj := List.disjoint_of_nodup_append hndall
  obtain ⟨bg, hbg⟩ := live_cell h1 F1 htrees1 g hgF
  obtain ⟨bs1, hbs1u, _⟩ := rep_root_cell h1 u none hurep
  rw [hus] at hbs1u
  refine ⟨?_, graftL_map_addr g k u F1, ?_⟩
  · exact graft_rep_f h1 h2 g k s u hus bg hbg bs1 hbs1u (hg2 bg hbg) (hs2 bs1 hbs1u)
      hoth hurep hndu F1 htrees1 hnd1 hgF (fun y hy hyF => hdisj hyF hy)
  · obtain ⟨w, hw⟩ : ∃ w, findAL g F1 = some w := by
      have hfsome := findAL_isSome_of_mem g F1 hgF
      cases hf : findAL g F1 with
      | none => rw [hf] at hfsome; cases hfsome
      | some w => exact ⟨w, rfl⟩
    obtain ⟨hwaddr, _⟩ := findAL_addr_sub g F1 w hw
    cases hwshape : w with
    | node ga gcs =>
      have hgag : g = ga :=
        (show ga = g by simpa [hwshape, BT.addr] using hwaddr).symm
      subst hgag
      rw [hwshape] at hw
      obtain ⟨pw, hpw⟩ := findAL_rep h1 g F1 none (.node g gcs) htrees1 hw
      cases hpw with
      | mk hb2 hp2 hc2 hcs2 =>
        rename_i b2
        rw [hbg] at hb2
        have hbb : bg = b2 := Option.some.inj hb2
        subst hbb
        have hkgcs : k ≤ gcs.length := by
          have h1k := hk bg hbg
          have hlen : bg.children.length = gcs.length := by
            rw [hc2]
            simp
          omega
        exact graftL_addrs_perm g k u F1 hnd1 gcs hw hkgcs

theorem found_nodup (F : List BT) (hnd : (BT.addrsL F).Nodup) (x : Nat) (u : BT)
    (hfind : findAL x F = some u) : u.addrs.Nodup := by
  have hxF : x ∈ BT.addrsL F := by
    obtain ⟨haddr, hsub⟩ := findAL_addr_sub x F u hfind
    exact hsub x (haddr ▸ BT.addr_mem_addrs u)
  have hperm := removeSubL_perm x F hnd hxF u hfind
  exact ((hperm.nodup_iff).mpr hnd).of_append_right

theorem findIdxPos_pos :
    ∀ (l : List Nat) (s k j : Nat), findIdxPos l s k = some j → 0 < j := by
  intro l
  induction l with
  | nil => intro s k j h; cases h
  | cons b rest ih =>
    intro s k j h
    have hdef : findIdxPos (b :: rest) s k
        = if b = s ∧ k > 0 then some k else findIdxPos rest s (k + 1) := rfl
    rw [hdef] at h
    by_cases hc : b = s ∧ k > 0
    · rw [if_pos hc] at h
      cases h
      exact hc.2
    · rw [if_neg hc] at h
      exact ih s (k + 1) j h

theorem not_in_sub_of_depth_le (F : List BT) (hnd : (BT.addrsL F).Nodup)
    (s : Nat) (u : BT) (hfind : findAL s F = some u)
    (x : Nat) (hxs : x ≠ s) (ds dx : Nat) (hs : depthInL s F = some ds)
    (hx : depthInL x F = some dx) (hle : dx ≤ ds) : x ∉ u.addrs := by
  intro hxu
  exact absurd (depth_in_sub_gt F hnd s u hfind x hxu hxs ds dx hs hx) (by omega)

theorem parent_depth_succ (h : Heap) (F : List BT)
    (htrees : ∀ t ∈ F, RepT h none t) (hnd : (BT.addrsL F).Nodup)
    (x p : Nat) (hxF : x ∈ BT.addrsL F) (hp : parentOf h x = some p) :
    ∃ d, depthInL p F = some d ∧ depthInL x F = some (d + 1) := by
  obtain ⟨dx, hdx, hcases⟩ := forest_pd h F htrees hnd x hxF
  rcases hcases with ⟨_, hpar, _⟩ | ⟨q, d, hdd, hpq, _, hqd⟩
  · rw [hpar] at hp
    cases hp
  · rw [hpq] at hp
    have hqp : q = p := Option.some.inj hp
    subst hqp
    exact ⟨d, hqd, hdd ▸ hdx⟩

/-- Reattachment via `AddChild` (append as last child), with the
expand-if-collapsed follow-up of `indentBullet`. -/
theorem inv_attach_addChild (md : Model) (F1 : List BT) (u : BT) (s ps : Nat)
    (hus : u.addr = s)
    (hroots1 : md.rootBullets = F1.map BT.addr)
    (htrees1 : ∀ t ∈ F1, RepT md.heap none t)
    (hndall : (BT.addrsL F1 ++ u.addrs).Nodup)
    (hurep : RepT md.heap none u)
    (hpsF1 : ps ∈ BT.addrsL F1)
    (hps_ne_s : ps ≠ s)
    (hzoom : md.zoomedBullet = none)
    (hbound1 : ∀ a ∈ BT.addrsL F1 ++ u.addrs, a < md.next) :
    Inv (rebuildVisibleList { md with heap :=
      (if ((addChild md.heap ps s) ps).elim false (fun b => b.collapsed) then
        modifyB (addChild md.heap ps s) ps (fun b => { b with collapsed := false })
      else addChild md.heap ps s) }) := by
  obtain ⟨bg, hbg⟩ := live_cell md.heap F1 htrees1 ps hpsF1
  obtain ⟨bs1, hbs1, _⟩ := rep_root_cell md.heap u none hurep
  rw [hus] at hbs1
  have hpc_add_g : pcOf (addChild md.heap ps s ps)
      = some (bg.parent, bg.children ++ [s]) := by
    simp [addChild, modifyB, setParent, pcOf, hps_ne_s, hbg]
  have hpc_add_s : pcOf (addChild md.heap ps s s)
      = some (some ps, bs1.children) := by
    simp [addChild, modifyB, setParent, pcOf, Ne.symm hps_ne_s, hbs1]
  have hpc_add_o : ∀ x, x ≠ ps → x ≠ s →
      pcOf (addChild md.heap ps s x) = pcOf (md.heap x) := by
    intro x hxp hxs
    simp [addChild, modifyB, setParent, hxp, hxs]
  have hpc2 : ∀ x, pcOf
      ((if ((addChild md.heap ps s) ps).elim false (fun b => b.collapsed) then
        modifyB (addChild md.heap ps s) ps (fun b => { b with collapsed := false })
      else addChild md.heap ps s) x) = pcOf (addChild md.heap ps s x) := by
    intro x
    split
    · exact pcOf_modifyB (addChild md.heap ps s) ps
        (fun b => { b with collapsed := false }) (fun b => ⟨rfl, rfl⟩) x
    · rfl
  obtain ⟨hT, hM, hP⟩ := attach_graft_core md.heap _ F1 u s ps bg.children.length hus
    htrees1 hndall hurep hpsF1
    (fun bg2 hbg2 => by
      rw [hbg] at hbg2
      cases hbg2
      rw [hpc2 ps, hpc_add_g, List.insertIdx_length_self])
    (fun bs2 hbs2 => by
      rw [hbs1] at hbs2
      cases hbs2
      rw [hpc2 s, hpc_add_s])
    (fun x hxp hxs => by rw [hpc2 x, hpc_add_o x hxp hxs])
    (fun bg2 hbg2 => by
      rw [hbg] at hbg2
      cases hbg2
      exact Nat.le_refl _)
  refine inv_rebuild_of _ (graftL ps bg.children.length u F1) hzoom ⟨?_, ?_⟩ ?_ ?_
  · show md.rootBullets = (graftL ps bg.children.length u F1).map BT.addr
    rw [hM]
    exact hroots1
  · intro t ht
    exact hT t ht
  · exact (hP.nodup_iff).mpr hndall
  · intro a ha
    exact hbound1 a (hP.subset ha)

/-- Reattachment via `InsertChildAt` (bounds-guarded positional insert); on a
failed guard the node stays detached and the forest is simply the detached
one. -/
theorem inv_attach_insertChildAt (md : Model) (F1 : List BT) (u : BT)
    (s tp idx : Nat) (hus : u.addr = s)
    (hroots1 : md.rootBullets = F1.map BT.addr)
    (htrees1 : ∀ t ∈ F1, RepT md.heap none t)
    (hndall : (BT.addrsL F1 ++ u.addrs).Nodup)
    (hurep : RepT md.heap none u)
    (htpF1 : tp ∈ BT.addrsL F1)
    (htp_ne_s : tp ≠ s)
    (hzoom : md.zoomedBullet = none)
    (hbound1 : ∀ a ∈ BT.addrsL F1 ++ u.addrs, a < md.next) :
    Inv (rebuildVisibleList { md with heap := insertChildAt md.heap tp idx s }) := by
  obtain ⟨bg, hbg⟩ := live_cell md.heap F1 htrees1 tp htpF1
  by_cases hguard : idx ≤ bg.children.length
  · have hICA : insertChildAt md.heap tp idx s
        = modifyB (setParent md.heap s (some tp)) tp
          (fun x => { x with children := x.children.insertIdx idx s }) := by
      simp only [insertChildAt, hbg]
      rw [if_pos hguard]
    obtain ⟨bs1, hbs1, _⟩ := rep_root_cell md.heap u none hurep
    rw [hus] at hbs1
    have hpc_g : pcOf (insertChildAt md.heap tp idx s tp)
        = some (bg.parent, bg.children.insertIdx idx s) := by
      rw [hICA]
      simp [modifyB, setParent, pcOf, htp_ne_s, hbg]
    have hpc_s : pcOf (insertChildAt md.heap tp idx s s)
        = some (some tp, bs1.children) := by
      rw [hICA]
      simp [modifyB, setParent, pcOf, Ne.symm htp_ne_s, hbs1]
    have hpc_o : ∀ x, x ≠ tp → x ≠ s →
        pcOf (insertChildAt md.heap tp idx s x) = pcOf (md.heap x) := by
      intro x hxp hxs
      rw [hICA]
      simp [modifyB, setParent, hxp, hxs]
    obtain ⟨hT, hM, hP⟩ := attach_graft_core md.heap _ F1 u s tp idx hus
      htrees1 hndall hurep htpF1
      (fun bg2 hbg2 => by
        rw [hbg] at hbg2
        cases hbg2
        rw [hpc_g])
      (fun bs2 hbs2 => by
        rw [hbs1] at hbs2
        cases hbs2
        rw [hpc_s])
      (fun x hxp hxs => hpc_o x hxp hxs)
      (fun bg2 hbg2 => by
        rw [hbg] at hbg2
        cases hbg2
        exact hguard)
    refine inv_rebuild_of _ (graftL tp idx u F1) hzoom ⟨?_, ?_⟩ ?_ ?_
    · show md.rootBullets = (graftL tp idx u F1).map BT.addr
      rw [hM]
      exact hroots1
    · intro t ht
      exact hT t ht
    · exact (hP.nodup_iff).mpr hndall
    · intro a ha
      exact hbound1 a (hP.subset ha)
  · have hICA : insertChildAt md.heap tp idx s = md.heap := by
      simp only [insertChildAt, hbg]
      rw [if_neg hguard]
    rw [hICA]
    refine inv_rebuild_of _ F1 hzoom ⟨hroots1, htrees1⟩ hndall.of_append_left ?_
    intro a ha
    exact hbound1 a (List.mem_append_left _ ha)

theorem inv_indentBullet (m : Model) (hInv : Inv m) : Inv (indentBullet m) := by
  obtain ⟨hzoom, F, ⟨hroots, htrees⟩, hnd, hbound, hall⟩ := hInv
  cases hsel : getSelectedBullet m with
  | none =>
    simp only [indentBullet, hsel]
    exact ⟨hzoom, F, ⟨hroots, htrees⟩, hnd, hbound, hall⟩
  | some s =>
    by_cases hidx0 : m.selectedIndex = 0
    · simp only [indentBullet, hsel, if_pos hidx0]
      exact ⟨hzoom, F, ⟨hroots, htrees⟩, hnd, hbound, hall⟩
    · have hsF : s ∈ BT.addrsL F := inv_selected_live m F s hall hsel
      obtain ⟨ds, hdsv⟩ : ∃ ds, depthInL s F = some ds := by
        have hds := depthInL_isSome_of_mem F s hsF
        cases hd : depthInL s F with
        | none => rw [hd] at hds; cases hds
        | some d => exact ⟨d, rfl⟩
      obtain ⟨u, hfind, huaddr, hdroots, hdtrees, hdurep, hdperm, _, _⟩ :=
        inv_detach m F s hroots htrees hnd hsF
      have hndall : (BT.addrsL (removeSubL s F) ++ u.addrs).Nodup :=
        (hdperm.nodup_iff).mpr hnd
      have hbound1 : ∀ a ∈ BT.addrsL (removeSubL s F) ++ u.addrs, a < m.next :=
        fun a ha => hbound a (hdperm.subset ha)
      cases hpv : parentOf m.heap s with
      | none =>
        cases hfi : findIdxPos m.rootBullets s 0 with
        | none =>
          simp only [indentBullet, hsel, if_neg hidx0, hpv, hfi]
          exact inv_rebuild m ⟨hzoom, F, ⟨hroots, htrees⟩, hnd, hbound, hall⟩
        | some i =>
          obtain ⟨_, hilen, hgeti⟩ := findIdxPos_bound m.rootBullets s 0 i hfi
          have hipos : 0 < i := findIdxPos_pos m.rootBullets s 0 i hfi
          rw [Nat.sub_zero] at hilen hgeti
          obtain ⟨l1, l2, hre, hl1len, _⟩ := getElem_split m.rootBullets i s hgeti
          have hrnodup : m.rootBullets.Nodup := by
            rw [hroots]
            exact map_addr_nodup F hnd
          obtain ⟨ps, hps⟩ : ∃ ps, m.rootBullets[i - 1]? = some ps :=
            ⟨_, List.getElem?_eq_getElem (by omega)⟩
          have hpsl1 : ps ∈ l1 := by
            rw [hre, List.getElem?_append_left (by omega : i - 1 < l1.length)] at hps
            exact List.getElem?_mem hps
          have hs_not_l1 : s ∉ l1 := by
            rw [hre] at hrnodup
            have hdj := List.disjoint_of_nodup_append hrnodup
            exact fun hm => hdj hm (List.mem_cons_self _ _)
          have hps_ne_s : ps ≠ s := fun he => hs_not_l1 (he ▸ hpsl1)
          have hpsroot : ps ∈ m.rootBullets := List.getElem?_mem hps
          obtain ⟨t2, ht2, haddr2⟩ : ∃ t2 ∈ F, BT.addr t2 = ps := by
            rw [hroots] at hpsroot
            exact List.mem_map.mp hpsroot
          have hps_depth : depthInL ps F = some 0 := by
            have hz := root_depth_zero F hnd t2 ht2
            rwa [haddr2] at hz
          have hps_not_u : ps ∉ u.addrs :=
            not_in_sub_of_depth_le F hnd s u hfind ps hps_ne_s ds 0 hdsv hps_depth
              (Nat.zero_le ds)
          have hpsF : ps ∈ BT.addrsL F :=
            BT.mem_addrsL_of_mem ht2 (haddr2 ▸ BT.addr_mem_addrs t2)
          have hpsF1 : ps ∈ BT.addrsL (removeSubL s F) := by
            rcases List.mem_append.mp (hdperm.symm.subset hpsF) with h1 | h1
            · exact h1
            · exact absurd h1 hps_not_u
          have hDS : detachSelected m s
              = { m with rootBullets := m.rootBullets.erase s } := by
            simp only [detachSelected, hpv]
          have heridx : m.rootBullets.eraseIdx i = m.rootBullets.erase s :=
            (erase_eq_eraseIdx_of_nodup m.rootBullets i hrnodup hgeti).symm
          simp only [indentBullet, hsel, if_neg hidx0, hpv, hfi, hps]
          rw [heridx]
          exact inv_attach_addChild { m with rootBullets := m.rootBullets.erase s }
            (removeSubL s F) u s ps huaddr (hDS ▸ hdroots) (hDS ▸ hdtrees) hndall
            (hDS ▸ hdurep) hpsF1 hps_ne_s hzoom hbound1
      | some p =>
        cases hfi : findIdxPos (childrenOf m.heap p) s 0 with
        | none =>
          simp only [indentBullet, hsel, if_neg hidx0, hpv, hfi]
          exact inv_rebuild m ⟨hzoom, F, ⟨hroots, htrees⟩, hnd, hbound, hall⟩
        | some i =>
          obtain ⟨_, hilen, hgeti⟩ := findIdxPos_bound (childrenOf m.heap p) s 0 i hfi
          have hipos : 0 < i := findIdxPos_pos (childrenOf m.heap p) s 0 i hfi
          rw [Nat.sub_zero] at hilen hgeti
          have hpF : p ∈ BT.addrsL F := by
            obtain ⟨bs0, hbs0, hbs0p⟩ := parentOf_some_ex hpv
            obtain ⟨t0, ht0, _, hpt0⟩ :=
              rep_parent_in_forest m.heap s p bs0 hbs0 hbs0p F htrees hsF
            exact BT.mem_addrsL_of_mem ht0 hpt0
          obtain ⟨w, hw⟩ : ∃ w, findAL p F = some w := by
            have hfsome := findAL_isSome_of_mem p F hpF
            cases hf : findAL p F with
            | none => rw [hf] at hfsome; cases hfsome
            | some w => exact ⟨w, rfl⟩
          have hwnodup : w.addrs.Nodup := found_nodup F hnd p w hw
          obtain ⟨hwaddr, hwsub⟩ := findAL_addr_sub p F w hw
          cases hwshape : w with
          | node pa gcs =>
            have hpap : p = pa :=
              (show pa = p by simpa [hwshape, BT.addr] using hwaddr).symm
            subst hpap
            rw [hwshape] at hw hwnodup hwsub
            obtain ⟨pw, hpw⟩ := findAL_rep m.heap p F none (.node p gcs) htrees hw
            cases hpw with
            | mk hb2 hp2 hc2 hcs2 =>
              rename_i bp
              have hchv : childrenOf m.heap p = List.map BT.addr gcs := by
                simp [childrenOf, hb2, hc2]
              have hchnodup : (childrenOf m.heap p).Nodup := by
                rw [hchv]
                refine map_addr_nodup gcs ?_
                rw [BT.addrs_def] at hwnodup
                exact hwnodup.of_cons
              obtain ⟨ps, hps⟩ : ∃ ps, (childrenOf m.heap p)[i - 1]? = some ps :=
                ⟨_, List.getElem?_eq_getElem (by omega)⟩
              obtain ⟨l1, l2, hre, hl1len, _⟩ :=
                getElem_split (childrenOf m.heap p) i s hgeti
              have hpsl1 : ps ∈ l1 := by
                rw [hre, List.getElem?_append_left (by omega : i - 1 < l1.length)] at hps
                exact List.getElem?_mem hps
              have hs_not_l1 : s ∉ l1 := by
                rw [hre] at hchnodup
                have hdj := List.disjoint_of_nodup_append hchnodup
                exact fun hm => hdj hm (List.mem_cons_self _ _)
              have hps_ne_s : ps ≠ s := fun he => hs_not_l1 (he ▸ hpsl1)
              have hpsch : ps ∈ childrenOf m.heap p := List.getElem?_mem hps
              obtain ⟨t2, ht2, haddr2⟩ : ∃ t2 ∈ gcs, BT.addr t2 = ps := by
                rw [hchv] at hpsch
                exact List.mem_map.mp hpsch
              have hpsF : ps ∈ BT.addrsL F := by
                refine hwsub ps ?_
                simp only [BT.addrs_def, List.mem_cons]
                exact Or.inr (BT.mem_addrsL_of_mem ht2 (haddr2 ▸ BT.addr_mem_addrs t2))
              have hpspar : parentOf m.heap ps = some p := by
                obtain ⟨b3, hb3, hbp3⟩ := rep_root_cell m.heap t2 (some p) (hcs2 t2 ht2)
                rw [haddr2] at hb3
                simp [parentOf, hb3, hbp3]
              obtain ⟨dp, hdp, hdps⟩ :=
                parent_depth_succ m.heap F htrees hnd ps p hpsF hpspar
              obtain ⟨dp2, hdp2, hdss⟩ :=
                parent_depth_succ m.heap F htrees hnd s p hsF hpv
              have hdpeq : dp2 = dp := by
                rw [hdp] at hdp2
                exact (Option.some.inj hdp2).symm
              have hdseq : ds = dp2 + 1 := by
                rw [hdsv] at hdss
                exact Option.some.inj hdss
              have hps_not_u : ps ∉ u.addrs :=
                not_in_sub_of_depth_le F hnd s u hfind ps hps_ne_s ds (dp + 1)
                  hdsv hdps (by omega)
              have hpsF1 : ps ∈ BT.addrsL (removeSubL s F) := by
                rcases List.mem_append.mp (hdperm.symm.subset hpsF) with h1 | h1
                · exact h1
                · exact absurd h1 hps_not_u
              have hDS : detachSelected m s
                  = { m with heap := removeChild m.heap p s } := by
                simp only [detachSelected, hpv]
              simp only [indentBullet, hsel, if_neg hidx0, hpv, hfi, hps]
              exact inv_attach_addChild { m with heap := removeChild m.heap p s }
                (removeSubL s F) u s ps huaddr (hDS ▸ hdroots) (hDS ▸ hdtrees) hndall
                (hDS ▸ hdurep) hpsF1 hps_ne_s hzoom hbound1

theorem findIdx0_bound : ∀ (l : List Nat) (x k : Nat), x ∈ l →
    k ≤ findIdx0 l x k ∧ findIdx0 l x k - k < l.length := by
  intro l
  induction l with
  | nil => intro x k hx; cases hx
  | cons b rest ih =>
    intro x k hx
    have hdef : findIdx0 (b :: rest) x k
        = if b = x then k else findIdx0 rest x (k + 1) := rfl
    rw [hdef]
    by_cases hbx : b = x
    · rw [if_pos hbx]
      exact ⟨Nat.le_refl _, by simp⟩
    · rw [if_neg hbx]
      rcases List.mem_cons.mp hx with rfl | h2
      · exact absurd rfl hbx
      · obtain ⟨h1, h2b⟩ := ih x (k + 1) h2
        refine ⟨by omega, ?_⟩
        rw [List.length_cons]
        omega

/-! Machinery for the two move operations: bounds on skeletal depth (so the
`GetDepth` fuel suffices), uniqueness facts about the scan target, and the
behaviour of the linear index searches. -/

mutual

theorem depthInT_height :
    ∀ (t : BT) (x d : Nat), depthInT x t = some d → d + 1 ≤ t.height
  | .node a cs => by
    intro x d hd
    rw [depthInT_def] at hd
    by_cases hxa : x = a
    · rw [if_pos hxa] at hd
      cases hd
      simp [BT.height]
    · rw [if_neg hxa] at hd
      cases hdl : depthInL x cs with
      | none => rw [hdl] at hd; cases hd
      | some d2 =>
        rw [hdl] at hd
        have hrec := depthInL_height cs x d2 hdl
        have hdd : d2 + 1 = d := Option.some.inj hd
        simp only [BT.height]
        omega

theorem depthInL_height :
    ∀ (ts : List BT) (x d : Nat), depthInL x ts = some d → d + 1 ≤ BT.heightL ts
  | [] => by intro x d hd; cases hd
  | t :: ts => by
    intro x d hd
    have h2 : (match depthInT x t with
      | some d2 => some d2
      | none => depthInL x ts) = some d := hd
    cases hdt : depthInT x t with
    | some d2 =>
      rw [hdt] at h2
      have hdd : d2 = d := Option.some.inj h2
      subst hdd
      have hrec := depthInT_height t x d2 hdt
      simp only [BT.heightL]
      exact le_trans hrec (le_max_left _ _)
    | none =>
      rw [hdt] at h2
      have hrec := depthInL_height ts x d h2
      simp only [BT.heightL]
      exact le_trans hrec (le_max_right _ _)

end

theorem sel_take_ne (l : List Nat) (hnd : l.Nodup) (i s : Nat)
    (hs : l[i]? = some s) : ∀ t ∈ l.take i, t ≠ s := by
  intro t ht he
  subst he
  have hsd : t ∈ l.drop i := by
    have hg : (l.drop i)[0]? = some t := by
      rw [List.getElem?_drop]
      simpa using hs
    exact List.getElem?_mem hg
  have hnd2 : (l.take i ++ l.drop i).Nodup := by
    rw [List.take_append_drop]
    exact hnd
  exact (List.disjoint_of_nodup_append hnd2) ht hsd

theorem sel_drop_ne (l : List Nat) (hnd : l.Nodup) (i s : Nat)
    (hs : l[i]? = some s) : ∀ t ∈ l.drop (i + 1), t ≠ s := by
  intro t ht he
  subst he
  have hlt : i < l.length := (List.getElem?_eq_some.mp hs).1
  have hst : t ∈ l.take (i + 1) := by
    have hg : (l.take (i + 1))[i]? = some t := by
      rw [List.getElem?_take, if_pos (Nat.lt_succ_self i)]
      exact hs
    exact List.getElem?_mem hg
  have hnd2 : (l.take (i + 1) ++ l.drop (i + 1)).Nodup := by
    rw [List.take_append_drop]
    exact hnd
  exact (List.disjoint_of_nodup_append hnd2) hst ht

theorem findIdxA_of_mem :
    ∀ (l : List Nat) (t k : Nat), t ∈ l → ∃ i, findIdxA l t k = some i := by
  intro l
  induction l with
  | nil => intro t k h; cases h
  | cons b rest ih =>
    intro t k h
    have hdef : findIdxA (b :: rest) t k
        = if b = t then some k else findIdxA rest t (k + 1) := rfl
    by_cases hbt : b = t
    · exact ⟨k, by rw [hdef, if_pos hbt]⟩
    · rcases List.mem_cons.mp h with rfl | h2
      · exact absurd rfl hbt
      · obtain ⟨i, hi⟩ := ih t (k + 1) h2
        exact ⟨i, by rw [hdef, if_neg hbt]; exact hi⟩

theorem findTarget_facts (scan : Nat → Option Nat) (td t : Nat)
    (h : findTarget scan td = some t) : ∃ d, d ≤ td ∧ scan d = some t := by
  unfold findTarget at h
  cases hs : scan td with
  | some t0 =>
    rw [hs] at h
    cases h
    exact ⟨td, Nat.le_refl _, hs⟩
  | none =>
    rw [hs] at h
    by_cases htd : td > 0
    · rw [if_pos htd] at h
      exact ⟨td - 1, by omega, h⟩
    · rw [if_neg htd] at h
      cases h

theorem scanUp_facts (m : Model) (d t : Nat) (h : scanUp m d = some t) :
    t ∈ m.allBullets.take m.selectedIndex ∧ depthOf m t = d := by
  unfold scanUp at h
  have hm := List.mem_of_find?_eq_some h
  have hp := List.find?_some h
  exact ⟨List.mem_reverse.mp hm, by simpa using hp⟩

theorem scanDown_facts (m : Model) (d t : Nat) (h : scanDown m d = some t) :
    t ∈ m.allBullets.drop (m.selectedIndex + 1) ∧ depthOf m t = d := by
  unfold scanDown at h
  exact ⟨List.mem_of_find?_eq_some h, by simpa using List.find?_some h⟩

theorem inv_outdentBullet (m : Model) (hInv : Inv m) : Inv (outdentBullet m) := by
  obtain ⟨hzoom, F, ⟨hroots, htrees⟩, hnd, hbound, hall⟩ := hInv
  cases hsel : getSelectedBullet m with
  | none =>
    simp only [outdentBullet, hsel]
    exact ⟨hzoom, F, ⟨hroots, htrees⟩, hnd, hbound, hall⟩
  | some s =>
    cases hpv : parentOf m.heap s with
    | none =>
      simp only [outdentBullet, hsel, hpv]
      exact ⟨hzoom, F, ⟨hroots, htrees⟩, hnd, hbound, hall⟩
    | some p =>
      have hsF : s ∈ BT.addrsL F := inv_selected_live m F s hall hsel
      obtain ⟨ds, hdsv⟩ : ∃ ds, depthInL s F = some ds := by
        have hds := depthInL_isSome_of_mem F s hsF
        cases hd : depthInL s F with
        | none => rw [hd] at hds; cases hds
        | some d => exact ⟨d, rfl⟩
      obtain ⟨u, hfind, huaddr, hdroots, hdtrees, hdurep, hdperm, _, _⟩ :=
        inv_detach m F s hroots htrees hnd hsF
      have hndall : (BT.addrsL (removeSubL s F) ++ u.addrs).Nodup :=
        (hdperm.nodup_iff).mpr hnd
      have hbound1 : ∀ a ∈ BT.addrsL (removeSubL s F) ++ u.addrs, a < m.next :=
        fun a ha => hbound a (hdperm.subset ha)
      have hpF : p ∈ BT.addrsL F := by
        obtain ⟨bs0, hbs0, hbs0p⟩ := parentOf_some_ex hpv
        obtain ⟨t0, ht0, _, hpt0⟩ :=
          rep_parent_in_forest m.heap s p bs0 hbs0 hbs0p F htrees hsF
        exact BT.mem_addrsL_of_mem ht0 hpt0
      have hDS : detachSelected m s = { m with heap := removeChild m.heap p s } := by
        simp only [detachSelected, hpv]
      have hdroots2 : m.rootBullets = (removeSubL s F).map BT.addr := by
        rw [hDS] at hdroots
        exact hdroots
      have htrees2 : ∀ t ∈ removeSubL s F, RepT (removeChild m.heap p s) none t := by
        rw [hDS] at hdtrees
        exact hdtrees
      have hurep2 : RepT (removeChild m.heap p s) none u := by
        rw [hDS] at hdurep
        exact hdurep
      obtain ⟨dp2, hdp2, hdss⟩ := parent_depth_succ m.heap F htrees hnd s p hsF hpv
      have hdseq : ds = dp2 + 1 := by
        rw [hdsv] at hdss
        exact Option.some.inj hdss
      cases hgp : parentOf m.heap p with
      | none =>
        -- splice into the root list after the former parent
        simp only [outdentBullet, hsel, hpv, hgp]
        have hlenF1 : m.rootBullets.length = (removeSubL s F).length := by
          rw [hdroots2, List.length_map]
        obtain ⟨hj1, hj2⟩ :=
          findIdx0_bound m.rootBullets p 0 (by
            obtain ⟨dpx, hdpx, hcases⟩ := forest_pd m.heap F htrees hnd p hpF
            rcases hcases with ⟨_, _, hmem⟩ | ⟨q, d, _, hpq, _, _⟩
            · rw [hroots]
              exact hmem
            · rw [hgp] at hpq
              cases hpq)
        refine inv_rebuild_of _
          ((removeSubL s F).insertIdx (findIdx0 m.rootBullets p 0 + 1) u) hzoom
          ⟨?_, ?_⟩ ?_ ?_
        · show m.rootBullets.insertIdx (findIdx0 m.rootBullets p 0 + 1) s
            = ((removeSubL s F).insertIdx (findIdx0 m.rootBullets p 0 + 1) u).map BT.addr
          rw [map_insertIdx BT.addr _ u (removeSubL s F), huaddr, hdroots2]
        · intro t ht
          rcases mem_insertIdx_sub _ _ ht with rfl | h2
          · exact hurep2
          · exact htrees2 t h2
        · have hins : ((removeSubL s F).insertIdx (findIdx0 m.rootBullets p 0 + 1)
              u).Perm (u :: removeSubL s F) :=
            List.perm_insertIdx u (removeSubL s F) (by omega)
          refine ((addrsL_perm hins).nodup_iff).mpr ?_
          rw [BT.addrsL_cons]
          refine (List.perm_append_comm.nodup_iff).mpr ?_
          exact hndall
        · intro a ha
          have hins : ((removeSubL s F).insertIdx (findIdx0 m.rootBullets p 0 + 1)
              u).Perm (u :: removeSubL s F) :=
            List.perm_insertIdx u (removeSubL s F) (by omega)
          have ha2 := (addrsL_perm hins).subset ha
          rw [BT.addrsL_cons] at ha2
          refine hbound1 a ?_
          rcases List.mem_append.mp ha2 with h1 | h1
          · exact List.mem_append_right _ h1
          · exact List.mem_append_left _ h1
      | some g =>
        -- splice into the grandparent's children after the former parent
        have hgF : g ∈ BT.addrsL F := by
          obtain ⟨bp0, hbp0, hbp0p⟩ := parentOf_some_ex hgp
          obtain ⟨t0, ht0, _, hgt0⟩ :=
            rep_parent_in_forest m.heap p g bp0 hbp0 hbp0p F htrees hpF
          exact BT.mem_addrsL_of_mem ht0 hgt0
        obtain ⟨dg, hdg, hdpg⟩ := parent_depth_succ m.heap F htrees hnd p g hpF hgp
        have hdp2g : dp2 = dg + 1 := by
          rw [hdp2] at hdpg
          exact Option.some.inj hdpg
        have hg_ne_s : g ≠ s := by
          intro he
          rw [he, hdsv] at hdg
          have := Option.some.inj hdg
          omega
        have hg_not_u : g ∉ u.addrs :=
          not_in_sub_of_depth_le F hnd s u hfind g hg_ne_s ds dg hdsv hdg (by omega)
        have hgF1 : g ∈ BT.addrsL (removeSubL s F) := by
          rcases List.mem_append.mp (hdperm.symm.subset hgF) with h1 | h1
          · exact h1
          · exact absurd h1 hg_not_u
        simp only [outdentBullet, hsel, hpv, hgp]
        exact inv_attach_insertChildAt { m with heap := removeChild m.heap p s }
          (removeSubL s F) u s g (findIdx0 (childrenOf m.heap g) p 0 + 1) huaddr
          hdroots2 htrees2 hndall hurep2 hgF1 hg_ne_s hzoom hbound1

theorem inv_moveBulletUp (m : Model) (hInv : Inv m) : Inv (moveBulletUp m) := by
  obtain ⟨hzoom, F, ⟨hroots, htrees⟩, hnd, hbound, hall⟩ := hInv
  cases hsel : getSelectedBullet m with
  | none =>
    simp only [moveBulletUp, hsel]
    exact ⟨hzoom, F, ⟨hroots, htrees⟩, hnd, hbound, hall⟩
  | some s =>
    cases hft : findTarget (scanUp m) (depthOf m s) with
    | none =>
      simp only [moveBulletUp, hsel, hft]
      exact ⟨hzoom, F, ⟨hroots, htrees⟩, hnd, hbound, hall⟩
    | some t =>
      have hsel2 : m.allBullets[m.selectedIndex]? = some s := hsel
      obtain ⟨d, hdle, hscan⟩ := findTarget_facts (scanUp m) (depthOf m s) t hft
      obtain ⟨htake, hdept⟩ := scanUp_facts m d t hscan
      have hsF : s ∈ BT.addrsL F := inv_selected_live m F s hall hsel
      have hndvis : m.allBullets.Nodup := by
        rw [hall]
        exact (vdTL_sublist m.heap F).nodup hnd
      have hts : t ≠ s := sel_take_ne m.allBullets hndvis m.selectedIndex s hsel2 t htake
      have htF : t ∈ BT.addrsL F := by
        have htall : t ∈ m.allBullets := (List.take_sublist _ _).subset htake
        rw [hall] at htall
        exact (vdTL_sublist m.heap F).subset htall
      obtain ⟨ds, hds⟩ : ∃ ds, depthInL s F = some ds := by
        have h1 := depthInL_isSome_of_mem F s hsF
        cases h2 : depthInL s F with
        | none => rw [h2] at h1; cases h1
        | some d0 => exact ⟨d0, rfl⟩
      obtain ⟨dt, hdt⟩ : ∃ dt, depthInL t F = some dt := by
        have h1 := depthInL_isSome_of_mem F t htF
        cases h2 : depthInL t F with
        | none => rw [h2] at h1; cases h1
        | some d0 => exact ⟨d0, rfl⟩
      have hdepthO : ∀ x dx, depthInL x F = some dx → depthOf m x = dx := by
        intro x dx hdx
        show depthOfIn m.heap m.next m.zoomedBullet x = dx
        rw [hzoom]
        show getDepth m.heap m.next x = dx
        exact getDepth_adequate m.heap F htrees x dx hdx m.next
          (le_trans (depthInL_height F x dx hdx)
            (fuel_of_nodup_bound F m.next hnd hbound))
      have hdsv : depthOf m s = ds := hdepthO s ds hds
      have hdtv : depthOf m t = dt := hdepthO t dt hdt
      have hdtle : dt ≤ ds := by
        rw [hdsv] at hdle
        rw [hdept] at hdtv
        omega
      obtain ⟨u, hfind, huaddr, hdroots, hdtrees, hdurep, hdperm, hdnext, hdzoom⟩ :=
        inv_detach m F s hroots htrees hnd hsF
      have hndall : (BT.addrsL (removeSubL s F) ++ u.addrs).Nodup :=
        (hdperm.nodup_iff).mpr hnd
      have hnd1 : (BT.addrsL (removeSubL s F)).Nodup := hndall.of_append_left
      have hbound1 : ∀ a ∈ BT.addrsL (removeSubL s F) ++ u.addrs, a < m.next :=
        fun a ha => hbound a (hdperm.subset ha)
      have hbF1 : ∀ a ∈ BT.addrsL (removeSubL s F), a < m.next :=
        fun a ha => hbound1 a (List.mem_append_left _ ha)
      have hsu : s ∈ u.addrs := huaddr ▸ BT.addr_mem_addrs u
      have hs_nF1 : s ∉ BT.addrsL (removeSubL s F) :=
        fun h => (List.disjoint_of_nodup_append hndall) h hsu
      have ht_nu : t ∉ u.addrs :=
        not_in_sub_of_depth_le F hnd s u hfind t hts ds dt hds hdt hdtle
      have htF1 : t ∈ BT.addrsL (removeSubL s F) := by
        rcases List.mem_append.mp (hdperm.symm.subset htF) with h1 | h1
        · exact h1
        · exact absurd h1 ht_nu
      obtain ⟨dt1, hdt1⟩ : ∃ dt1, depthInL t (removeSubL s F) = some dt1 := by
        have h1 := depthInL_isSome_of_mem (removeSubL s F) t htF1
        cases h2 : depthInL t (removeSubL s F) with
        | none => rw [h2] at h1; cases h1
        | some d0 => exact ⟨d0, rfl⟩
      have hzoom1 : (detachSelected m s).zoomedBullet = none := hdzoom.trans hzoom
      have hgv : depthOfIn (detachSelected m s).heap (detachSelected m s).next
          (detachSelected m s).zoomedBullet t = dt1 := by
        rw [hdzoom, hzoom]
        show getDepth (detachSelected m s).heap (detachSelected m s).next t = dt1
        rw [hdnext]
        exact getDepth_adequate (detachSelected m s).heap (removeSubL s F) hdtrees
          t dt1 hdt1 m.next
          (le_trans (depthInL_height _ t dt1 hdt1)
            (fuel_of_nodup_bound _ m.next hnd1 hbF1))
      simp only [moveBulletUp, hsel, hft]
      rw [hgv]
      by_cases hdt0 : dt1 = 0
      · rw [if_pos hdt0]
        obtain ⟨dx, hdx, hcase⟩ := forest_pd (detachSelected m s).heap (removeSubL s F)
          hdtrees hnd1 t htF1
        rw [hdt1] at hdx
        have hdxe : dt1 = dx := Option.some.inj hdx
        rcases hcase with ⟨_, hpar, hmem⟩ | ⟨q, d', hdd, _, _, _⟩
        · have htroots : t ∈ (detachSelected m s).rootBullets := by
            rw [hdroots]
            exact hmem
          obtain ⟨i0, hfi⟩ := findIdxA_of_mem (detachSelected m s).rootBullets t 0 htroots
          have hlenr : (detachSelected m s).rootBullets.length = (removeSubL s F).length := by
            rw [hdroots]
            exact List.length_map _ _
          obtain ⟨bsd, hbsd, hbsp⟩ := rep_root_cell (detachSelected m s).heap u none hdurep
          rw [huaddr] at hbsd
          have hpcSP : ∀ x, pcOf (setParent (detachSelected m s).heap s none x)
              = pcOf ((detachSelected m s).heap x) := by
            intro x
            by_cases hx : x = s
            · subst hx
              simp [setParent, modifyB, pcOf, hbsd, hbsp]
            · simp [setParent, modifyB, pcOf, hx]
          have htreesSP : ∀ t2 ∈ removeSubL s F,
              RepT (setParent (detachSelected m s).heap s none) none t2 :=
            fun t2 ht2 => RepT_pc_congr _ _ t2 none (fun x _ => hpcSP x) (hdtrees t2 ht2)
          have hurepSP : RepT (setParent (detachSelected m s).heap s none) none u :=
            RepT_pc_congr _ _ u none (fun x _ => hpcSP x) hdurep
          refine inv_selIf _ _ _ ?_
          split
          · rename_i i hfi2
            have hilen : i < (removeSubL s F).length := by
              obtain ⟨_, h2⟩ := findIdxA_bound _ t 0 i hfi2
              omega
            have hins : ((removeSubL s F).insertIdx i u).Perm (u :: removeSubL s F) :=
              List.perm_insertIdx u (removeSubL s F) (by omega)
            refine inv_rebuild_of _ ((removeSubL s F).insertIdx i u) hzoom1 ⟨?_, ?_⟩ ?_ ?_
            · show (detachSelected m s).rootBullets.insertIdx i s
                = ((removeSubL s F).insertIdx i u).map BT.addr
              rw [map_insertIdx BT.addr i u (removeSubL s F), huaddr, ← hdroots]
            · intro t2 ht2
              rcases mem_insertIdx_sub i (removeSubL s F) ht2 with rfl | h2
              · exact hurepSP
              · exact htreesSP t2 h2
            · refine ((addrsL_perm hins).nodup_iff).mpr ?_
              rw [BT.addrsL_cons]
              exact (List.perm_append_comm.nodup_iff).mpr hndall
            · intro a ha
              have ha2 := (addrsL_perm hins).subset ha
              rw [BT.addrsL_cons] at ha2
              show a < (detachSelected m s).next
              rw [hdnext]
              refine hbound1 a ?_
              rcases List.mem_append.mp ha2 with h1 | h1
              · exact List.mem_append_right _ h1
              · exact List.mem_append_left _ h1
          · rename_i hfe
            rw [hfi] at hfe
            cases hfe
        · exfalso
          omega
      · rw [if_neg hdt0]
        refine inv_selIf _ _ _ ?_
        split
        · rename_i hpe
          exact inv_rebuild_of (detachSelected m s) (removeSubL s F) hzoom1
            ⟨hdroots, hdtrees⟩ hnd1 (fun a ha => by rw [hdnext]; exact hbF1 a ha)
        · rename_i tp hpe
          obtain ⟨dx, hdx, hcase⟩ := forest_pd (detachSelected m s).heap (removeSubL s F)
            hdtrees hnd1 t htF1
          rw [hdt1] at hdx
          have hdxe : dt1 = dx := Option.some.inj hdx
          rcases hcase with ⟨hdx0, _, _⟩ | ⟨q, d', _, hpq, hqmem, _⟩
          · exact absurd (hdxe.trans hdx0) hdt0
          · rw [hpe] at hpq
            have hqtp : tp = q := Option.some.inj hpq
            subst hqtp
            have htp_ne_s : tp ≠ s := fun he => hs_nF1 (he ▸ hqmem)
            split
            · rename_i i hfi2
              exact inv_attach_insertChildAt (detachSelected m s) (removeSubL s F) u s
                tp i huaddr hdroots hdtrees hndall hdurep hqmem htp_ne_s hzoom1
                (fun a ha => by rw [hdnext]; exact hbound1 a ha)
            · rename_i hfe
              exact inv_rebuild_of (detachSelected m s) (removeSubL s F) hzoom1
                ⟨hdroots, hdtrees⟩ hnd1 (fun a ha => by rw [hdnext]; exact hbF1 a ha)

theorem inv_moveBulletDown (m : Model) (hInv : Inv m) : Inv (moveBulletDown m) := by
  obtain ⟨hzoom, F, ⟨hroots, htrees⟩, hnd, hbound, hall⟩ := hInv
  cases hsel : getSelectedBullet m with
  | none =>
    simp only [moveBulletDown, hsel]
    exact ⟨hzoom, F, ⟨hroots, htrees⟩, hnd, hbound, hall⟩
  | some s =>
    cases hft : findTarget (scanDown m) (depthOf m s) with
    | none =>
      simp only [moveBulletDown, hsel, hft]
      exact ⟨hzoom, F, ⟨hroots, htrees⟩, hnd, hbound, hall⟩
    | some t =>
      have hsel2 : m.allBullets[m.selectedIndex]? = some s := hsel
      obtain ⟨d, hdle, hscan⟩ := findTarget_facts (scanDown m) (depthOf m s) t hft
      obtain ⟨hdrop, hdept⟩ := scanDown_facts m d t hscan
      have hsF : s ∈ BT.addrsL F := inv_selected_live m F s hall hsel
      have hndvis : m.allBullets.Nodup := by
        rw [hall]
        exact (vdTL_sublist m.heap F).nodup hnd
      have hts : t ≠ s := sel_drop_ne m.allBullets hndvis m.selectedIndex s hsel2 t hdrop
      have htF : t ∈ BT.addrsL F := by
        have htall : t ∈ m.allBullets := (List.drop_sublist _ _).subset hdrop
        rw [hall] at htall
        exact (vdTL_sublist m.heap F).subset htall
      obtain ⟨ds, hds⟩ : ∃ ds, depthInL s F = some ds := by
        have h1 := depthInL_isSome_of_mem F s hsF
        cases h2 : depthInL s F with
        | none => rw [h2] at h1; cases h1
        | some d0 => exact ⟨d0, rfl⟩
      obtain ⟨dt, hdt⟩ : ∃ dt, depthInL t F = some dt := by
        have h1 := depthInL_isSome_of_mem F t htF
        cases h2 : depthInL t F with
        | none => rw [h2] at h1; cases h1
        | some d0 => exact ⟨d0, rfl⟩
      have hdepthO : ∀ x dx, depthInL x F = some dx → depthOf m x = dx := by
        intro x dx hdx
        show depthOfIn m.heap m.next m.zoomedBullet x = dx
        rw [hzoom]
        show getDepth m.heap m.next x = dx
        exact getDepth_adequate m.heap F htrees x dx hdx m.next
          (le_trans (depthInL_height F x dx hdx)
            (fuel_of_nodup_bound F m.next hnd hbound))
      have hdsv : depthOf m s = ds := hdepthO s ds hds
      have hdtv : depthOf m t = dt := hdepthO t dt hdt
      have hdtle : dt ≤ ds := by
        rw [hdsv] at hdle
        rw [hdept] at hdtv
        omega
      obtain ⟨u, hfind, huaddr, hdroots, hdtrees, hdurep, hdperm, hdnext, hdzoom⟩ :=
        inv_detach m F s hroots htrees hnd hsF
      have hndall : (BT.addrsL (removeSubL s F) ++ u.addrs).Nodup :=
        (hdperm.nodup_iff).mpr hnd
      have hnd1 : (BT.addrsL (removeSubL s F)).Nodup := hndall.of_append_left
      have hbound1 : ∀ a ∈ BT.addrsL (removeSubL s F) ++ u.addrs, a < m.next :=
        fun a ha => hbound a (hdperm.subset ha)
      have hbF1 : ∀ a ∈ BT.addrsL (removeSubL s F), a < m.next :=
        fun a ha => hbound1 a (List.mem_append_left _ ha)
      have hsu : s ∈ u.addrs := huaddr ▸ BT.addr_mem_addrs u
      have hs_nF1 : s ∉ BT.addrsL (removeSubL s F) :=
        fun h => (List.disjoint_of_nodup_append hndall) h hsu
      have ht_nu : t ∉ u.addrs :=
        not_in_sub_of_depth_le F hnd s u hfind t hts ds dt hds hdt hdtle
      have htF1 : t ∈ BT.addrsL (removeSubL s F) := by
        rcases List.mem_append.mp (hdperm.symm.subset htF) with h1 | h1
        · exact h1
        · exact absurd h1 ht_nu
      obtain ⟨dt1, hdt1⟩ : ∃ dt1, depthInL t (removeSubL s F) = some dt1 := by
        have h1 := depthInL_isSome_of_mem (removeSubL s F) t htF1
        cases h2 : depthInL t (removeSubL s F) with
        | none => rw [h2] at h1; cases h1
        | some d0 => exact ⟨d0, rfl⟩
      have hzoom1 : (detachSelected m s).zoomedBullet = none := hdzoom.trans hzoom
      have hgv : depthOfIn (detachSelected m s).heap (detachSelected m s).next
          (detachSelected m s).zoomedBullet t = dt1 := by
        rw [hdzoom, hzoom]
        show getDepth (detachSelected m s).heap (detachSelected m s).next t = dt1
        rw [hdnext]
        exact getDepth_adequate (detachSelected m s).heap (removeSubL s F) hdtrees
          t dt1 hdt1 m.next
          (le_trans (depthInL_height _ t dt1 hdt1)
            (fuel_of_nodup_bound _ m.next hnd1 hbF1))
      simp only [moveBulletDown, hsel, hft]
      rw [hgv]
      by_cases hdt0 : dt1 = 0
      · rw [if_pos hdt0]
        obtain ⟨dx, hdx, hcase⟩ := forest_pd (detachSelected m s).heap (removeSubL s F)
          hdtrees hnd1 t htF1
        rw [hdt1] at hdx
        have hdxe : dt1 = dx := Option.some.inj hdx
        rcases hcase with ⟨_, hpar, hmem⟩ | ⟨q, d', hdd, _, _, _⟩
        · have htroots : t ∈ (detachSelected m s).rootBullets := by
            rw [hdroots]
            exact hmem
          obtain ⟨i0, hfi⟩ := findIdxA_of_mem (detachSelected m s).rootBullets t 0 htroots
          have hlenr : (detachSelected m s).rootBullets.length = (removeSubL s F).length := by
            rw [hdroots]
            exact List.length_map _ _
          obtain ⟨bsd, hbsd, hbsp⟩ := rep_root_cell (detachSelected m s).heap u none hdurep
          rw [huaddr] at hbsd
          have hpcSP : ∀ x, pcOf (setParent (detachSelected m s).heap s none x)
              = pcOf ((detachSelected m s).heap x) := by
            intro x
            by_cases hx : x = s
            · subst hx
              simp [setParent, modifyB, pcOf, hbsd, hbsp]
            · simp [setParent, modifyB, pcOf, hx]
          have htreesSP : ∀ t2 ∈ removeSubL s F,
              RepT (setParent (detachSelected m s).heap s none) none t2 :=
            fun t2 ht2 => RepT_pc_congr _ _ t2 none (fun x _ => hpcSP x) (hdtrees t2 ht2)
          have hurepSP : RepT (setParent (detachSelected m s).heap s none) none u :=
            RepT_pc_congr _ _ u none (fun x _ => hpcSP x) hdurep
          refine inv_selIf _ _ _ ?_
          split
          · rename_i i hfi2
            have hilen : i < (removeSubL s F).length := by
              obtain ⟨_, h2⟩ := findIdxA_bound _ t 0 i hfi2
              omega
            have hins : ((removeSubL s F).insertIdx (i + 1) u).Perm
                (u :: removeSubL s F) :=
              List.perm_insertIdx u (removeSubL s F) (by omega)
            refine inv_rebuild_of _ ((removeSubL s F).insertIdx (i + 1) u) hzoom1
              ⟨?_, ?_⟩ ?_ ?_
            · show (detachSelected m s).rootBullets.insertIdx (i + 1) s
                = ((removeSubL s F).insertIdx (i + 1) u).map BT.addr
              rw [map_insertIdx BT.addr (i + 1) u (removeSubL s F), huaddr, ← hdroots]
            · intro t2 ht2
              rcases mem_insertIdx_sub (i + 1) (removeSubL s F) ht2 with rfl | h2
              · exact hurepSP
              · exact htreesSP t2 h2
            · refine ((addrsL_perm hins).nodup_iff).mpr ?_
              rw [BT.addrsL_cons]
              exact (List.perm_append_comm.nodup_iff).mpr hndall
            · intro a ha
              have ha2 := (addrsL_perm hins).subset ha
              rw [BT.addrsL_cons] at ha2
              show a < (detachSelected m s).next
              rw [hdnext]
              refine hbound1 a ?_
              rcases List.mem_append.mp ha2 with h1 | h1
              · exact List.mem_append_right _ h1
              · exact List.mem_append_left _ h1
          · rename_i hfe
            rw [hfi] at hfe
            cases hfe
        · exfalso
          omega
      · rw [if_neg hdt0]
        refine inv_selIf _ _ _ ?_
        split
        · rename_i hpe
          exact inv_rebuild_of (detachSelected m s) (removeSubL s F) hzoom1
            ⟨hdroots, hdtrees⟩ hnd1 (fun a ha => by rw [hdnext]; exact hbF1 a ha)
        · rename_i tp hpe
          obtain ⟨dx, hdx, hcase⟩ := forest_pd (detachSelected m s).heap (removeSubL s F)
            hdtrees hnd1 t htF1
          rw [hdt1] at hdx
          have hdxe : dt1 = dx := Option.some.inj hdx
          rcases hcase with ⟨hdx0, _, _⟩ | ⟨q, d', _, hpq, hqmem, _⟩
          · exact absurd (hdxe.trans hdx0) hdt0
          · rw [hpe] at hpq
            have hqtp : tp = q := Option.some.inj hpq
            subst hqtp
            have htp_ne_s : tp ≠ s := fun he => hs_nF1 (he ▸ hqmem)
            split
            · rename_i i hfi2
              exact inv_attach_insertChildAt (detachSelected m s) (removeSubL s F) u s
                tp (i + 1) huaddr hdroots hdtrees hndall hdurep hqmem htp_ne_s hzoom1
                (fun a ha => by rw [hdnext]; exact hbound1 a ha)
            · rename_i hfe
              exact inv_rebuild_of (detachSelected m s) (removeSubL s F) hzoom1
                ⟨hdroots, hdtrees⟩ hnd1 (fun a ha => by rw [hdnext]; exact hbF1 a ha)

/-! ## The mutation-operation language of C3 and the forest invariant -/

/-- The structural mutation operations quantified over by the invariant
claim: insert (`addNewBullet`), delete, indent, outdent, the two moves, the
collapse toggle and the field toggles. -/
inductive MutOp : Type
  | insertOp (content : String)
  | deleteOp
  | indentOp
  | outdentOp
  | moveUpOp
  | moveDownOp
  | collapseOp
  | colorOp
  | taskOp
  | completeOp

def applyOp (m : Model) : MutOp → Model
  | .insertOp c => addNewBullet m c
  | .deleteOp => deleteBullet m
  | .indentOp => indentBullet m
  | .outdentOp => outdentBullet m
  | .moveUpOp => moveBulletUp m
  | .moveDownOp => moveBulletDown m
  | .collapseOp => toggleCollapse m
  | .colorOp => cycleColor m
  | .taskOp => toggleTask m
  | .completeOp => toggleComplete m

def applyOps (m : Model) (ops : List MutOp) : Model :=
  ops.foldl applyOp m

theorem inv_applyOp (m : Model) (o : MutOp) (hInv : Inv m) : Inv (applyOp m o) := by
  cases o with
  | insertOp c => exact inv_addNewBullet m c hInv
  | deleteOp => exact inv_deleteBullet m hInv
  | indentOp => exact inv_indentBullet m hInv
  | outdentOp => exact inv_outdentBullet m hInv
  | moveUpOp => exact inv_moveBulletUp m hInv
  | moveDownOp => exact inv_moveBulletDown m hInv
  | collapseOp => exact inv_toggleCollapse m hInv
  | colorOp => exact inv_cycleColor m hInv
  | taskOp => exact inv_toggleTask m hInv
  | completeOp => exact inv_toggleComplete m hInv

theorem inv_applyOps (m : Model) (ops : List MutOp) (hInv : Inv m) :
    Inv (applyOps m ops) := by
  induction ops generalizing m with
  | nil => exact hInv
  | cons o os ih => exact ih (applyOp m o) (inv_applyOp m o hInv)

/-- Full (visibility-ignoring) pre-order traversal of the whole document,
root by root. -/
def docTraversal (m : Model) : List Nat :=
  forestTraversal m.heap m.next m.rootBullets

/-- The chain of strict ancestors of a node, obtained by following parent
back-references (fuelled like every heap climb in the source). -/
def parentChain (h : Heap) : Nat → Nat → List Nat
  | 0, _ => []
  | fuel + 1, x =>
    match parentOf h x with
    | none => []
    | some p => p :: parentChain h fuel p

theorem fullTraversalL_none (h : Heap) (fuel : Nat) :
    ∀ (F : List BT), (∀ t ∈ F, RepT h none t) → BT.heightL F ≤ fuel →
    (F.map BT.addr).flatMap (fullTraversal h fuel) = BT.addrsL F := by
  intro F
  induction F with
  | nil => intro _ _; rfl
  | cons t ts ih =>
    intro htrees hht
    have hht' : max t.height (BT.heightL ts) ≤ fuel := hht
    rw [List.map_cons, List.flatMap_cons,
      fullTraversal_adequate h fuel t none (htrees t (List.mem_cons_self _ _))
        (le_trans (Nat.le_max_left _ _) hht'),
      ih (fun t2 ht2 => htrees t2 (List.mem_cons_of_mem _ ht2))
        (le_trans (Nat.le_max_right _ _) hht'),
      BT.addrsL_cons]

theorem docTraversal_adequate (m : Model) (F : List BT)
    (hroots : m.rootBullets = F.map BT.addr)
    (htrees : ∀ t ∈ F, RepT m.heap none t)
    (hfuel : BT.heightL F ≤ m.next) :
    docTraversal m = BT.addrsL F := by
  unfold docTraversal forestTraversal
  rw [hroots]
  exact fullTraversalL_none m.heap m.next F htrees hfuel

/-- Every member of an ancestor chain that starts at a live node is itself
live and sits at strictly smaller skeletal depth. -/
theorem parentChain_depth (h : Heap) (F : List BT)
    (htrees : ∀ t ∈ F, RepT h none t) (hnd : (BT.addrsL F).Nodup) :
    ∀ (fuel x dx : Nat), x ∈ BT.addrsL F → depthInL x F = some dx →
    ∀ y ∈ parentChain h fuel x,
      ∃ dy, y ∈ BT.addrsL F ∧ depthInL y F = some dy ∧ dy < dx := by
  intro fuel
  induction fuel with
  | zero => intro x dx _ _ y hy; cases hy
  | succ n ih =>
    intro x dx hxF hdx y hy
    have hy2 : y ∈ (match parentOf h x with
      | none => ([] : List Nat)
      | some p => p :: parentChain h n p) := hy
    obtain ⟨dx2, hdx2, hcase⟩ := forest_pd h F htrees hnd x hxF
    rw [hdx] at hdx2
    have hdxe : dx = dx2 := Option.some.inj hdx2
    rcases hcase with ⟨_, hpar, _⟩ | ⟨q, d, hdd, hpq, hqmem, hqd⟩
    · rw [hpar] at hy2
      cases hy2
    · rw [hpq] at hy2
      rcases List.mem_cons.mp hy2 with rfl | hy3
      · exact ⟨d, hqmem, hqd, by omega⟩
      · obtain ⟨dy, hymem, hyd, hlt⟩ := ih q d hqmem hqd y hy3
        exact ⟨dy, hymem, hyd, by omega⟩

theorem chain_no_self (h : Heap) (F : List BT)
    (htrees : ∀ t ∈ F, RepT h none t) (hnd : (BT.addrsL F).Nodup)
    (fuel x : Nat) (hxF : x ∈ BT.addrsL F) : x ∉ parentChain h fuel x := by
  intro hmem
  obtain ⟨dx, hdx⟩ : ∃ dx, depthInL x F = some dx := by
    have h1 := depthInL_isSome_of_mem F x hxF
    cases h2 : depthInL x F with
    | none => rw [h2] at h1; cases h1
    | some d0 => exact ⟨d0, rfl⟩
  obtain ⟨dy, _, hdy, hlt⟩ := parentChain_depth h F htrees hnd fuel x dx hxF hdx x hmem
  rw [hdx] at hdy
  have := Option.some.inj hdy
  omega

/-- A node listed among the children of a live node has its back-reference
set to exactly that node. -/
theorem child_parent_f (h : Heap) (F : List BT)
    (htrees : ∀ t ∈ F, RepT h none t)
    (q x : Nat) (hqF : q ∈ BT.addrsL F) (hx : x ∈ childrenOf h q) :
    parentOf h x = some q := by
  obtain ⟨w, hw⟩ : ∃ w, findAL q F = some w := by
    have h1 := findAL_isSome_of_mem q F hqF
    cases h2 : findAL q F with
    | none => rw [h2] at h1; cases h1
    | some w => exact ⟨w, rfl⟩
  obtain ⟨hwaddr, _⟩ := findAL_addr_sub q F w hw
  cases hwshape : w with
  | node a gcs =>
    have haq : a = q := by simpa [hwshape, BT.addr] using hwaddr
    subst haq
    rw [hwshape] at hw
    obtain ⟨pw, hpw⟩ := findAL_rep h a F none (.node a gcs) htrees hw
    cases hpw with
    | mk hb hp hc hcs =>
      rename_i b
      have hch : childrenOf h a = gcs.map BT.addr := by
        simp [childrenOf, hb, hc]
      rw [hch] at hx
      obtain ⟨t2, ht2, hxt2⟩ := List.mem_map.mp hx
      obtain ⟨b2, hb2, hbp2⟩ := rep_root_cell h t2 (some a) (hcs t2 ht2)
      rw [hxt2] at hb2
      simp [parentOf, hb2, hbp2]

/-- The children list of a live node is duplicate-free. -/
theorem children_nodup_f (h : Heap) (F : List BT)
    (htrees : ∀ t ∈ F, RepT h none t) (hnd : (BT.addrsL F).Nodup)
    (p : Nat) (hpF : p ∈ BT.addrsL F) : (childrenOf h p).Nodup := by
  obtain ⟨w, hw⟩ : ∃ w, findAL p F = some w := by
    have h1 := findAL_isSome_of_mem p F hpF
    cases h2 : findAL p F with
    | none => rw [h2] at h1; cases h1
    | some w => exact ⟨w, rfl⟩
  have hwnd : w.addrs.Nodup := found_nodup F hnd p w hw
  obtain ⟨hwaddr, _⟩ := findAL_addr_sub p F w hw
  cases hwshape : w with
  | node a gcs =>
    have hap : a = p := by simpa [hwshape, BT.addr] using hwaddr
    subst hap
    rw [hwshape] at hw
    rw [hwshape, BT.addrs_def] at hwnd
    obtain ⟨pw, hpw⟩ := findAL_rep h a F none (.node a gcs) htrees hw
    cases hpw with
    | mk hb hp2 hc hcs =>
      rename_i b
      have hch : childrenOf h a = gcs.map BT.addr := by
        simp [childrenOf, hb, hc]
      rw [hch]
      exact map_addr_nodup gcs hwnd.of_cons

/-- C3: after every sequence of mutation operations (insert, delete, indent,
outdent, moveUp, moveDown, collapse toggle, field toggles) applied to a
well-formed document, the forest invariant holds: no node appears twice in a
full traversal; every non-root node's parent back-reference is the unique
live node whose children list contains it, and it contains it exactly once;
and no node is its own ancestor (no node appears in its own parent chain). -/
theorem C3_forest_invariant (m : Model) (hInv : Inv m) (ops : List MutOp) :
    (docTraversal (applyOps m ops)).Nodup
    ∧ (∀ x ∈ docTraversal (applyOps m ops), ∀ p,
        parentOf (applyOps m ops).heap x = some p →
        p ∈ docTraversal (applyOps m ops)
        ∧ (childrenOf (applyOps m ops).heap p).count x = 1
        ∧ ∀ q ∈ docTraversal (applyOps m ops),
            x ∈ childrenOf (applyOps m ops).heap q → q = p)
    ∧ (∀ x ∈ docTraversal (applyOps m ops),
        x ∉ parentChain (applyOps m ops).heap (applyOps m ops).next x) := by
  obtain ⟨hz, F, ⟨hroots, htrees⟩, hnd, hb, _⟩ := inv_applyOps m ops hInv
  have hT : docTraversal (applyOps m ops) = BT.addrsL F :=
    docTraversal_adequate _ F hroots htrees (fuel_of_nodup_bound F _ hnd hb)
  refine ⟨?_, ?_, ?_⟩
  · rw [hT]
    exact hnd
  · intro x hx p hp
    rw [hT] at hx
    obtain ⟨dx, _, hcase⟩ := forest_pd _ F htrees hnd x hx
    rcases hcase with ⟨_, hpar, _⟩ | ⟨q, d, _, hpq, hqmem, _⟩
    · rw [hpar] at hp
      cases hp
    · rw [hp] at hpq
      have hqp : p = q := Option.some.inj hpq
      subst hqp
      obtain ⟨bp, hbp, hxbp⟩ := rep_parent_child_f _ F htrees x p hx hp
      have hch : childrenOf (applyOps m ops).heap p = bp.children := by
        simp [childrenOf, hbp]
      refine ⟨by rw [hT]; exact hqmem, ?_, ?_⟩
      · have hcnd := children_nodup_f _ F htrees hnd p hqmem
        rw [hch] at hcnd
        rw [hch]
        exact List.count_eq_one_of_mem hcnd hxbp
      · intro q2 hq2 hxq2
        rw [hT] at hq2
        have hpq2 := child_parent_f _ F htrees q2 x hq2 hxq2
        rw [hp] at hpq2
        exact (Option.some.inj hpq2).symm
  · intro x hx
    rw [hT] at hx
    exact chain_no_self _ F htrees hnd _ x hx

/-- A root with one child, cursor on the root: the concrete document the
witness runs the operation sequence on. -/
def mc3 : Model :=
  ⟨addChild (hset (hset emptyHeap 0 (newBullet "a")) 1 (newBullet "b")) 0 1,
    2, [0], [0, 1], 0, none, [], true⟩

def F3w : List BT := [.node 0 [.node 1 []]]

def ops3 : List MutOp :=
  [.insertOp "x", .moveDownOp, .indentOp, .outdentOp, .collapseOp, .colorOp,
    .taskOp, .completeOp, .moveUpOp, .deleteOp]

theorem inv_mc3 : Inv mc3 := by
  refine ⟨rfl, F3w, ⟨rfl, ?_⟩, by decide, by decide, by decide⟩
  intro t ht
  rcases List.mem_singleton.mp ht with rfl
  refine RepT.mk (b := { newBullet "a" with children := [1] }) (by decide)
    rfl rfl ?_
  intro t2 ht2
  rcases List.mem_singleton.mp ht2 with rfl
  exact RepT.mk (b := { newBullet "b" with parent := some 0 }) (by decide)
    rfl rfl (by intro t3 ht3; cases ht3)

theorem C3_forest_invariant_witness :
    Inv mc3
    ∧ ((docTraversal (applyOps mc3 ops3)).Nodup
      ∧ (∀ x ∈ docTraversal (applyOps mc3 ops3), ∀ p,
          parentOf (applyOps mc3 ops3).heap x = some p →
          p ∈ docTraversal (applyOps mc3 ops3)
          ∧ (childrenOf (applyOps mc3 ops3).heap p).count x = 1
          ∧ ∀ q ∈ docTraversal (applyOps mc3 ops3),
              x ∈ childrenOf (applyOps mc3 ops3).heap q → q = p)
      ∧ (∀ x ∈ docTraversal (applyOps mc3 ops3),
          x ∉ parentChain (applyOps mc3 ops3).heap (applyOps mc3 ops3).next x)) :=
  ⟨inv_mc3, C3_forest_invariant mc3 inv_mc3 ops3⟩

end OCLI